import Mathlib

/-!
Verification of the cf-xray-proxy edge proxy against its specification.

Each subsystem of the TypeScript source is shallowly embedded as executable
Lean definitions (JavaScript numbers used as integers become Nat/Int, the
fractional token counts and random draws become Rat, maps become association
lists, stateful classes become explicit state-passing functions).  Theorems
then settle the specification claims against these definitions.
-/

namespace CfXray

/-! ## Backend health hysteresis (src/backend.ts)

Embeds the per-backend mutable counters of `BackendRuntimeState` and the
three health-reporting operations `markFailed`, `markHealthy` and
`applyHealthProbeResult`.  Alias-table rebuild side effects and debug
logging do not touch the per-backend fields and are omitted here; selection
structures are modelled separately (they are derived from the healthy set).
-/

structure BackendHealth where
  healthy : Bool
  failures : Nat
  consecutiveFailures : Nat
  consecutiveSuccesses : Nat
  lastCheck : Int
  deriving Repr, DecidableEq

def FAILURE_HYSTERESIS_COUNT : Nat := 1

def RECOVERY_HYSTERESIS_COUNT : Nat := 2

/-- Embeds `BackendManager.markFailed` (backend.ts lines 494-519): bump the
failure counters, reset the success counter, and flip to unhealthy when the
backend was healthy and the failure threshold is met. -/
def markFailed (now : Int) (b : BackendHealth) : BackendHealth :=
  let b := { b with
    lastCheck := now
    failures := b.failures + 1
    consecutiveFailures := b.consecutiveFailures + 1
    consecutiveSuccesses := 0 }
  if b.healthy ∧ FAILURE_HYSTERESIS_COUNT ≤ b.consecutiveFailures then
    { b with healthy := false }
  else
    b

/-- Embeds `BackendManager.markHealthy` (backend.ts lines 524-547): reset
failure counters, set the success counter to the recovery threshold, and
flip to healthy when currently unhealthy. -/
def markHealthy (now : Int) (b : BackendHealth) : BackendHealth :=
  let b := { b with
    lastCheck := now
    failures := 0
    consecutiveFailures := 0
    consecutiveSuccesses := RECOVERY_HYSTERESIS_COUNT }
  if b.healthy then b else { b with healthy := true }

/-- Embeds `BackendManager.applyHealthProbeResult` (backend.ts lines
814-860).  Returns the updated backend together with the health-changed
flag the source returns. -/
def applyHealthProbeResult (now : Int) (b : BackendHealth) (isHealthyResult : Bool) :
    BackendHealth × Bool :=
  let b := { b with lastCheck := now }
  if isHealthyResult then
    let b := { b with
      consecutiveSuccesses := b.consecutiveSuccesses + 1
      consecutiveFailures := 0 }
    if b.healthy then
      ({ b with failures := 0 }, false)
    else if b.consecutiveSuccesses < RECOVERY_HYSTERESIS_COUNT then
      (b, false)
    else
      ({ b with healthy := true, failures := 0 }, true)
  else
    let b := { b with
      consecutiveFailures := b.consecutiveFailures + 1
      consecutiveSuccesses := 0
      failures := b.failures + 1 }
    if ¬ b.healthy ∨ b.consecutiveFailures < FAILURE_HYSTERESIS_COUNT then
      (b, false)
    else
      ({ b with healthy := false }, true)

/-- An unhealthy backend with no recorded consecutive successes, as it looks
right after a failure flipped it unhealthy. -/
def unhealthyBackendExample : BackendHealth :=
  { healthy := false
    failures := 1
    consecutiveFailures := 1
    consecutiveSuccesses := 0
    lastCheck := 0 }

/-- C1 counterexample: a single success reported through `markHealthy` flips
an unhealthy backend (consecutive-success counter 0) straight back to
healthy, so the health bit does not stay false until two consecutive
successful reports have arrived. -/
theorem markHealthy_single_success_flips_unhealthy :
    unhealthyBackendExample.healthy = false ∧
    unhealthyBackendExample.consecutiveSuccesses = 0 ∧
    (markHealthy 0 unhealthyBackendExample).healthy = true := by
  decide

/-- C1 (amended): the periodic health probe keeps an unhealthy backend
unhealthy until its consecutive-success counter reaches 2 and never flips a
backend unhealthy on a success, while a request-level success report via
`markHealthy` flips an unhealthy backend healthy immediately (it sets the
counter to the recovery threshold itself). -/
theorem backend_recovery_hysteresis_amended (now : Int) (b : BackendHealth)
    (h : b.healthy = false) :
    ((applyHealthProbeResult now b true).1.healthy = true ↔
      RECOVERY_HYSTERESIS_COUNT ≤ b.consecutiveSuccesses + 1) ∧
    (applyHealthProbeResult now b false).1.healthy = false ∧
    (markHealthy now b).healthy = true := by
  refine ⟨?_, ?_, ?_⟩
  · by_cases hcs : b.consecutiveSuccesses + 1 < RECOVERY_HYSTERESIS_COUNT
    · simp only [RECOVERY_HYSTERESIS_COUNT] at hcs ⊢
      simp [applyHealthProbeResult, h, RECOVERY_HYSTERESIS_COUNT, hcs]
      omega
    · simp only [RECOVERY_HYSTERESIS_COUNT] at hcs ⊢
      simp [applyHealthProbeResult, h, RECOVERY_HYSTERESIS_COUNT, hcs]
      omega
  · simp [applyHealthProbeResult, h, FAILURE_HYSTERESIS_COUNT]
  · simp [markHealthy, h]

/-- C1 witness: the amended hysteresis theorem evaluated on a concrete
unhealthy backend. -/
theorem backend_recovery_hysteresis_amended_witness :
    ((applyHealthProbeResult 5 unhealthyBackendExample true).1.healthy = true ↔
      RECOVERY_HYSTERESIS_COUNT ≤ unhealthyBackendExample.consecutiveSuccesses + 1) ∧
    (applyHealthProbeResult 5 unhealthyBackendExample false).1.healthy = false ∧
    (markHealthy 5 unhealthyBackendExample).healthy = true :=
  backend_recovery_hysteresis_amended 5 unhealthyBackendExample (by decide)

/-! ## Retry backoff (src/utils/fetch.ts)

Embeds `getRetryBackoffDelayMs`.  `Math.random()` becomes an explicit
rational draw in `[0, 1)`.  For every reachable exponential delay
(150·2^k capped at 2000) the JavaScript double product `delay * 0.3`
rounds to the exact integer `3 * delay / 10`, so the floor is embedded
over the rationals with the exact factor 3/10. -/

def BASE_RETRY_DELAY_MS : Nat := 150

def MAX_RETRY_DELAY_MS : Nat := 2000

/-- Embeds `getRetryBackoffDelayMs` (utils/fetch.ts lines 22-28). -/
def getRetryBackoffDelayMs (attempt : Int) (r : ℚ) : Nat :=
  let exponent : Nat := (max 0 attempt).toNat
  let exponentialDelayMs : Nat := min MAX_RETRY_DELAY_MS (BASE_RETRY_DELAY_MS * 2 ^ exponent)
  let jitterSpreadMs : Nat := max 1 (Int.toNat ⌊(exponentialDelayMs : ℚ) * (3 / 10)⌋)
  let jitterMs : Nat := Int.toNat ⌊r * (jitterSpreadMs : ℚ)⌋
  exponentialDelayMs + jitterMs

/-- C9: for attempt index n ≥ 0 and any draw r ∈ [0, 1), the backoff delay
lies in [b, b + 0.3·b] where b = min(2000, 150·2^n). -/
theorem getRetryBackoffDelayMs_bounds (n : Int) (r : ℚ)
    (hn : 0 ≤ n) (hr0 : 0 ≤ r) (hr1 : r < 1) :
    min 2000 (150 * 2 ^ n.toNat) ≤ getRetryBackoffDelayMs n r ∧
    (getRetryBackoffDelayMs n r : ℚ) ≤
      (min 2000 (150 * 2 ^ n.toNat) : Nat) + (3 / 10) * (min 2000 (150 * 2 ^ n.toNat) : Nat) := by
  have hmaxn : max 0 n = n := max_eq_right hn
  unfold getRetryBackoffDelayMs BASE_RETRY_DELAY_MS MAX_RETRY_DELAY_MS
  simp only [hmaxn]
  set b : Nat := min 2000 (150 * 2 ^ n.toNat) with hb
  have hb150 : 150 ≤ b := by
    have h1 : (150 : Nat) ≤ 150 * 2 ^ n.toNat :=
      Nat.le_mul_of_pos_right 150 (Nat.pos_pow_of_pos _ (by norm_num))
    exact le_min (by norm_num) h1
  -- the floored 30% spread
  have hfloor_nonneg : (0 : Int) ≤ ⌊(b : ℚ) * (3 / 10)⌋ := by
    apply Int.floor_nonneg.mpr
    positivity
  set f : Nat := Int.toNat ⌊(b : ℚ) * (3 / 10)⌋ with hf
  have hf_le : (f : ℚ) ≤ (b : ℚ) * (3 / 10) := by
    have := Int.floor_le ((b : ℚ) * (3 / 10))
    calc (f : ℚ) = ((Int.toNat ⌊(b : ℚ) * (3 / 10)⌋ : Int) : ℚ) := by push_cast [hf]; ring
    _ = ((⌊(b : ℚ) * (3 / 10)⌋ : Int) : ℚ) := by rw [Int.toNat_of_nonneg hfloor_nonneg]
    _ ≤ (b : ℚ) * (3 / 10) := this
  have hf_ge1 : 1 ≤ f := by
    have h45 : (45 : Int) ≤ ⌊(b : ℚ) * (3 / 10)⌋ := by
      apply Int.le_floor.mpr
      have : (150 : ℚ) ≤ (b : ℚ) := by exact_mod_cast hb150
      push_cast
      nlinarith
    omega
  have hspread : max 1 f = f := max_eq_right hf_ge1
  simp only [hspread]
  constructor
  · exact Nat.le_add_right b _
  · -- jitter ≤ f - 1 < (3/10)·b
    have hj_nonneg : (0 : Int) ≤ ⌊r * (f : ℚ)⌋ := by
      apply Int.floor_nonneg.mpr
      positivity
    have hfpos : (0 : ℚ) < (f : ℚ) := by
      exact_mod_cast Nat.lt_of_lt_of_le Nat.zero_lt_one hf_ge1
    have hj_lt : ⌊r * (f : ℚ)⌋ < (f : Int) := by
      apply Int.floor_lt.mpr
      push_cast
      have := mul_lt_mul_of_pos_right hr1 hfpos
      simpa using this
    have hj_le : (Int.toNat ⌊r * (f : ℚ)⌋ : ℚ) ≤ (f : ℚ) - 1 := by
      have h1 : ⌊r * (f : ℚ)⌋ ≤ (f : Int) - 1 := by omega
      have h2 : ((Int.toNat ⌊r * (f : ℚ)⌋ : Int) : ℚ) ≤ ((f : Int) : ℚ) - 1 := by
        rw [Int.toNat_of_nonneg hj_nonneg]
        exact_mod_cast h1
      calc (Int.toNat ⌊r * (f : ℚ)⌋ : ℚ)
          = ((Int.toNat ⌊r * (f : ℚ)⌋ : Int) : ℚ) := by push_cast; ring
      _ ≤ ((f : Int) : ℚ) - 1 := h2
      _ = (f : ℚ) - 1 := by push_cast; ring
    push_cast
    nlinarith [hf_le, hj_le]

/-- C9 witness: bounds evaluated at attempt 2 with draw 1/2. -/
theorem getRetryBackoffDelayMs_bounds_witness :
    min 2000 (150 * 2 ^ (2 : Int).toNat) ≤ getRetryBackoffDelayMs 2 (1 / 2) ∧
    (getRetryBackoffDelayMs 2 (1 / 2) : ℚ) ≤
      (min 2000 (150 * 2 ^ (2 : Int).toNat) : Nat) +
        (3 / 10) * (min 2000 (150 * 2 ^ (2 : Int).toNat) : Nat) :=
  getRetryBackoffDelayMs_bounds 2 (1 / 2) (by norm_num) (by norm_num) (by norm_num)

/-! ## Transport resolution and path rewriting (src/index.ts)

Requests are modelled after URL parsing: a pathname, the parsed query
parameters in order, and the headers with lower-cased names (JavaScript
`Headers.get` is case-insensitive and the source always queries
lower-case names).  `searchParams.get` returns the first value for a key,
which is `List.lookup` on the parameter list.  String slicing is embedded
on the character list; all strings involved in routing are ASCII, where
JavaScript UTF-16 indexing and character indexing agree. -/

inductive TransportType where
  | xhttp
  | httpupgrade
  | ws
  deriving DecidableEq, Repr

def transportName : TransportType → String
  | .xhttp => "xhttp"
  | .httpupgrade => "httpupgrade"
  | .ws => "ws"

/-- Order of `SUPPORTED_TRANSPORTS` in src/config.ts. -/
def SUPPORTED_TRANSPORTS : List TransportType := [.xhttp, .httpupgrade, .ws]

/-- Embeds `isTransportType` (index.ts lines 214-216) as a partial parse:
returns the supported transport whose name is the given string. -/
def asTransportType (value : String) : Option TransportType :=
  SUPPORTED_TRANSPORTS.find? (fun t => transportName t = value)

structure ReqModel where
  pathname : String
  query : List (String × String)
  headers : List (String × String)
  deriving DecidableEq, Repr

/-- JavaScript `String.prototype.startsWith` on ASCII strings. -/
def strStartsWith (s pre : String) : Bool :=
  pre.toList.isPrefixOf s.toList

/-- JavaScript `String.prototype.slice(n)` on ASCII strings. -/
def strDrop (s : String) (n : Nat) : String :=
  String.mk (s.toList.drop n)

/-- ASCII lower-casing of one character, as `String.prototype.toLowerCase`
acts on the ASCII range (all transport names are ASCII). -/
def charToLower (c : Char) : Char :=
  if 65 ≤ c.toNat ∧ c.toNat ≤ 90 then Char.ofNat (c.toNat + 32) else c

/-- JavaScript `String.prototype.toLowerCase` on ASCII strings. -/
def strToLower (s : String) : String :=
  String.mk (s.toList.map charToLower)

/-- `URLSearchParams.get` / `Headers.get`: first value stored under a key. -/
def lookupParam (k : String) : List (String × String) → Option String
  | [] => none
  | (a, v) :: rest => if a = k then some v else lookupParam k rest

/-- `URLSearchParams.delete` / `Headers.delete`: drop every value stored
under a key. -/
def removeParam (k : String) : List (String × String) → List (String × String)
  | [] => []
  | (a, v) :: rest => if a = k then removeParam k rest else (a, v) :: removeParam k rest

theorem lookupParam_removeParam (k : String) (l : List (String × String)) :
    lookupParam k (removeParam k l) = none := by
  induction l with
  | nil => rfl
  | cons hd tl ih =>
    rcases hd with ⟨a, v⟩
    by_cases h : a = k
    · simpa [removeParam, h] using ih
    · simpa [removeParam, lookupParam, h] using ih

/-- Embeds `parsePathTransport` (index.ts lines 254-268): first supported
transport whose `/name` prefix matches the pathname, together with the
path that would be forwarded if that prefix is stripped. -/
def parsePathTransportAux : List TransportType → String → Option TransportType × String
  | [], pathname => (none, pathname)
  | t :: rest, pathname =>
    let pre := "/" ++ transportName t
    if pathname = pre then (some t, "/")
    else if strStartsWith pathname (pre ++ "/") then (some t, strDrop pathname pre.length)
    else parsePathTransportAux rest pathname

def parsePathTransport (pathname : String) : Option TransportType × String :=
  parsePathTransportAux SUPPORTED_TRANSPORTS pathname

/-- Embeds `resolveTransport` (index.ts lines 228-245): query parameter
`transport`, then header `x-transport-type`, then the path-derived
transport, then the configured default. -/
def resolveTransport (req : ReqModel) (pathTransport : Option TransportType)
    (defaultTransport : TransportType) : TransportType :=
  match asTransportType (strToLower ((lookupParam "transport" req.query).getD "")) with
  | some t => t
  | none =>
    match asTransportType (strToLower ((lookupParam "x-transport-type" req.headers).getD "")) with
    | some t => t
    | none =>
      match pathTransport with
      | some t => t
      | none => defaultTransport

/-- Embeds `toForwardedRequest` (index.ts lines 270-283): the `/transport`
path prefix is stripped only when that prefix actually selected the final
transport. -/
def toForwardedRequest (req : ReqModel) (finalTransport : TransportType)
    (pathTransport : Option TransportType) (forwardedPath originalPath : String) : ReqModel :=
  match pathTransport with
  | some pt =>
    if pt = finalTransport ∧ forwardedPath ≠ originalPath then
      { req with pathname := forwardedPath }
    else req
  | none => req

/-- Embeds `stripRoutingSelectors` (index.ts lines 285-320).  The source
fast-path checks whether the serialized URL contains the substring
"transport=" before consulting `searchParams.has`; a present parameter
always serializes to such a substring, so the observable effect on the
parameter list is deletion exactly when the key is present. -/
def stripRoutingSelectors (req : ReqModel) : ReqModel :=
  let hasTransportHeader := (lookupParam "x-transport-type" req.headers).isSome
  let hasTransportQuery := (lookupParam "transport" req.query).isSome
  if ¬ hasTransportHeader ∧ ¬ hasTransportQuery then req
  else
    let query :=
      if hasTransportQuery then removeParam "transport" req.query else req.query
    let headers :=
      if hasTransportHeader then removeParam "x-transport-type" req.headers else req.headers
    { req with query := query, headers := headers }

/-- The transport-routing slice of the fetch handler (index.ts lines
593-602): derive the path transport, resolve the final transport, rewrite
the path, then remove the routing selectors. -/
def routeTransportRequest (req : ReqModel) (defaultTransport : TransportType) :
    TransportType × ReqModel :=
  let parsed := parsePathTransport req.pathname
  let transport := resolveTransport req parsed.1 defaultTransport
  let transportRouted := toForwardedRequest req transport parsed.1 parsed.2 req.pathname
  (transport, stripRoutingSelectors transportRouted)

/-- The request of end-to-end scenario 5: GET /xhttp/foo?transport=ws&ed=0. -/
def xhttpFooRequest : ReqModel :=
  { pathname := "/xhttp/foo"
    query := [("transport", "ws"), ("ed", "0")]
    headers := [] }

/-- C2 counterexample: for GET /xhttp/foo?transport=ws&ed=0 the ws handler
is selected and the transport query parameter is removed, but the /xhttp
prefix is NOT stripped — the forwarded path is /xhttp/foo, not /foo,
because the prefix did not select the transport. -/
theorem xhttp_prefix_not_stripped_on_query_override :
    (routeTransportRequest xhttpFooRequest .xhttp).1 = .ws ∧
    (routeTransportRequest xhttpFooRequest .xhttp).2.pathname = "/xhttp/foo" ∧
    ("/xhttp/foo" : String) ≠ "/foo" ∧
    lookupParam "transport" (routeTransportRequest xhttpFooRequest .xhttp).2.query = none := by
  decide

/-- C2 (amended): when the `transport` query parameter selects a supported
transport different from the path-prefix transport, the selected upgrade
handler is the query-selected transport, the forwarded pathname is the
original pathname (the prefix segment is not stripped, because stripping
happens only when the path prefix selected the transport), and the
`transport` parameter is absent from the forwarded query. -/
theorem transport_selector_routing_amended (req : ReqModel) (dflt t : TransportType)
    (hq : asTransportType (strToLower ((lookupParam "transport" req.query).getD "")) = some t)
    (hne : (parsePathTransport req.pathname).1 ≠ some t) :
    (routeTransportRequest req dflt).1 = t ∧
    (routeTransportRequest req dflt).2.pathname = req.pathname ∧
    lookupParam "transport" (routeTransportRequest req dflt).2.query = none := by
  have hres : resolveTransport req (parsePathTransport req.pathname).1 dflt = t := by
    unfold resolveTransport
    rw [hq]
  have hlookup : (lookupParam "transport" req.query).isSome = true := by
    cases hcase : lookupParam "transport" req.query with
    | none =>
      rw [hcase] at hq
      have hnone : asTransportType (strToLower ((none : Option String).getD "")) =
          (none : Option TransportType) := by decide
      rw [hnone] at hq
      exact absurd hq (by simp)
    | some v => simp
  have hfwd : toForwardedRequest req t (parsePathTransport req.pathname).1
      (parsePathTransport req.pathname).2 req.pathname = req := by
    unfold toForwardedRequest
    cases hpt : (parsePathTransport req.pathname).1 with
    | none => rfl
    | some pt =>
      rw [hpt] at hne
      have hptne : pt ≠ t := fun h => hne (by rw [h])
      simp [hptne]
  refine ⟨?_, ?_, ?_⟩
  · simp only [routeTransportRequest, hres]
  · simp only [routeTransportRequest, hres, hfwd]
    unfold stripRoutingSelectors
    simp only [hlookup]
    split
    · rfl
    · simp
  · simp only [routeTransportRequest, hres, hfwd]
    unfold stripRoutingSelectors
    simp only [hlookup]
    split
    · rename_i hcond
      simp only [not_and, Bool.not_eq_true] at hcond
      simp at hcond
    · simp [hlookup, lookupParam_removeParam]

/-- C2 witness: the amended routing theorem applied to scenario 5's
request. -/
theorem transport_selector_routing_amended_witness :
    (routeTransportRequest xhttpFooRequest .xhttp).1 = .ws ∧
    (routeTransportRequest xhttpFooRequest .xhttp).2.pathname = xhttpFooRequest.pathname ∧
    lookupParam "transport" (routeTransportRequest xhttpFooRequest .xhttp).2.query = none :=
  transport_selector_routing_amended xhttpFooRequest .xhttp .ws (by decide) (by decide)

/-! ## Duplex socket bridge teardown (src/utils/socket.ts)

`bridgeSockets` installs listeners on both sockets; every close event,
error event, forwarding failure and `onReady` disconnector invocation runs
the shared `closeBoth` closure.  The closure's observable effects are
embedded as a state machine: the `closed` / `onClosedNotified` flags plus
counters for listener cleanup, socket-pair closes (with the sanitized
code and truncated reason actually passed) and `onClosed` invocations.
The per-socket `state.client` / `state.backend` strings only feed debug
error messages and are omitted.  JavaScript executes the listeners
sequentially, so a run is a fold over the event sequence. -/

/-- Embeds `sanitizeCloseCode` (socket.ts lines 111-117); close codes are
integers by construction here, mirroring the `Number.isInteger` guard. -/
def sanitizeCloseCode (code : Int) : Int :=
  if 1000 ≤ code ∧ code ≤ 4999 ∧ code ≠ 1005 ∧ code ≠ 1006 then code else 1011

/-- Reason truncation in `safeClose` (socket.ts line 129): `slice(0, 123)`
(ASCII reasons; all reasons produced by the bridge are ASCII literals). -/
def truncateReason (reason : String) : String :=
  String.mk (reason.toList.take 123)

inductive RelayDirection where
  | clientToBackend
  | backendToClient
  deriving DecidableEq, Repr

/-- The events that reach the bridge's teardown path. -/
inductive BridgeEvent where
  | clientClose (code : Int) (reason : String)
  | backendClose (code : Int) (reason : String)
  | clientError
  | backendError
  | forwardFailure (direction : RelayDirection)
  | disconnect (code : Int) (reason : String)
  deriving DecidableEq, Repr

structure BridgeState where
  closed : Bool
  onClosedNotified : Bool
  /-- whether an `onClosed` callback was supplied to `bridgeSockets` -/
  hasOnClosed : Bool
  /-- number of `cleanupListeners()` invocations -/
  cleanupCalls : Nat
  /-- the (sanitized code, truncated reason) of each `closeSocketPair` call -/
  closeSignals : List (Int × String)
  /-- number of `onClosed()` invocations -/
  onClosedCalls : Nat
  deriving DecidableEq, Repr

/-- Embeds the `closeBoth` closure (socket.ts lines 176-198): a no-op once
`closed` is set; otherwise clean up listeners, close both sockets, and
invoke `onClosed` if present and not yet notified. -/
def closeBoth (code : Int) (reason : String) (s : BridgeState) : BridgeState :=
  if s.closed then s
  else
    let s := { s with
      closed := true
      cleanupCalls := s.cleanupCalls + 1
      closeSignals := s.closeSignals ++ [(sanitizeCloseCode code, truncateReason reason)] }
    if ¬ s.onClosedNotified ∧ s.hasOnClosed then
      { s with onClosedNotified := true, onClosedCalls := s.onClosedCalls + 1 }
    else s

/-- Dispatch of the installed listeners and callbacks (socket.ts lines
200-297) onto `closeBoth`, with the default reasons the source supplies. -/
def bridgeStep (e : BridgeEvent) (s : BridgeState) : BridgeState :=
  match e with
  | .clientClose code reason =>
    closeBoth code (if reason = "" then "Client closed connection" else reason) s
  | .backendClose code reason =>
    closeBoth code (if reason = "" then "Backend closed connection" else reason) s
  | .clientError => closeBoth 1011 "Client socket error" s
  | .backendError => closeBoth 1011 "Backend socket error" s
  | .forwardFailure _ => closeBoth 1011 "Relay failure" s
  | .disconnect code reason => closeBoth code reason s

def initialBridgeState (hasOnClosed : Bool) : BridgeState :=
  { closed := false
    onClosedNotified := false
    hasOnClosed := hasOnClosed
    cleanupCalls := 0
    closeSignals := []
    onClosedCalls := 0 }

def runBridge (hasOnClosed : Bool) (events : List BridgeEvent) : BridgeState :=
  events.foldl (fun s e => bridgeStep e s) (initialBridgeState hasOnClosed)

theorem bridgeStep_closed (e : BridgeEvent) (s : BridgeState) (h : s.closed = true) :
    bridgeStep e s = s := by
  cases e <;> simp [bridgeStep, closeBoth, h]

theorem runBridge_closed_fix (s : BridgeState) (h : s.closed = true)
    (events : List BridgeEvent) :
    events.foldl (fun s e => bridgeStep e s) s = s := by
  induction events with
  | nil => rfl
  | cons e rest ih => simp [List.foldl, bridgeStep_closed e s h, ih]

theorem bridgeStep_initial_closed (hasCb : Bool) (e : BridgeEvent) :
    (bridgeStep e (initialBridgeState hasCb)).closed = true ∧
    (bridgeStep e (initialBridgeState hasCb)).cleanupCalls = 1 ∧
    (bridgeStep e (initialBridgeState hasCb)).closeSignals.length = 1 ∧
    (bridgeStep e (initialBridgeState hasCb)).onClosedCalls = (if hasCb then 1 else 0) := by
  cases e <;> cases hasCb <;>
    simp [bridgeStep, closeBoth, initialBridgeState]

/-- C3: over every sequence of close events, error events, forwarding
failures and disconnector calls, the bridge's teardown runs at most once:
`onClosed` fires at most once, listeners are cleaned and the socket pair
closed at most once, any teardown attempt on an already-closed bridge is a
no-op, and as soon as one event has occurred the cleanup and pair-close
have happened exactly once (with `onClosed` fired exactly once when a
callback was supplied). -/
theorem bridge_teardown_idempotent (hasCb : Bool) (events : List BridgeEvent) :
    (runBridge hasCb events).onClosedCalls ≤ 1 ∧
    (runBridge hasCb events).cleanupCalls ≤ 1 ∧
    (runBridge hasCb events).closeSignals.length ≤ 1 ∧
    (∀ e, (runBridge hasCb events).closed = true →
      bridgeStep e (runBridge hasCb events) = runBridge hasCb events) ∧
    (events ≠ [] →
      (runBridge hasCb events).cleanupCalls = 1 ∧
      (runBridge hasCb events).closeSignals.length = 1 ∧
      (runBridge hasCb events).onClosedCalls = (if hasCb then 1 else 0)) := by
  cases events with
  | nil =>
    refine ⟨?_, ?_, ?_, ?_, ?_⟩ <;>
      simp [runBridge, initialBridgeState, bridgeStep_closed]
  | cons e rest =>
    have hstep := bridgeStep_initial_closed hasCb e
    have hrun : runBridge hasCb (e :: rest) = bridgeStep e (initialBridgeState hasCb) := by
      unfold runBridge
      simp only [List.foldl]
      exact runBridge_closed_fix _ hstep.1 rest
    rw [hrun]
    refine ⟨?_, ?_, ?_, ?_, ?_⟩
    · rw [hstep.2.2.2]; cases hasCb <;> simp
    · rw [hstep.2.1]
    · rw [hstep.2.2.1]
    · intro e' hclosed
      exact bridgeStep_closed e' _ hclosed
    · intro _
      exact ⟨hstep.2.1, hstep.2.2.1, hstep.2.2.2⟩

/-- C3 witness: the teardown theorem evaluated on a concrete two-event
run (a client close followed by a redundant backend error). -/
theorem bridge_teardown_idempotent_witness :
    (runBridge true [BridgeEvent.clientClose 1000 "bye", BridgeEvent.backendError]).onClosedCalls ≤ 1 ∧
    bridgeStep BridgeEvent.backendError
        (runBridge true [BridgeEvent.clientClose 1000 "bye", BridgeEvent.backendError]) =
      runBridge true [BridgeEvent.clientClose 1000 "bye", BridgeEvent.backendError] ∧
    (runBridge true [BridgeEvent.clientClose 1000 "bye", BridgeEvent.backendError]).cleanupCalls = 1 := by
  have h := bridge_teardown_idempotent true
    [BridgeEvent.clientClose 1000 "bye", BridgeEvent.backendError]
  refine ⟨h.1, h.2.2.2.1 BridgeEvent.backendError ?_, (h.2.2.2.2 (by simp)).1⟩
  decide

/-! ## Association-list maps

JavaScript `Map` objects preserve insertion order; `set` on an existing
key updates in place, `set` on a new key appends.  They are embedded as
association lists with exactly those operations. -/

section AssocMap

variable {β : Type}

def alookup (k : String) : List (String × β) → Option β
  | [] => none
  | (a, v) :: rest => if a = k then some v else alookup k rest

def aset (k : String) (v : β) : List (String × β) → List (String × β)
  | [] => [(k, v)]
  | (a, w) :: rest => if a = k then (a, v) :: rest else (a, w) :: aset k v rest

def aremove (k : String) : List (String × β) → List (String × β)
  | [] => []
  | (a, w) :: rest => if a = k then rest else (a, w) :: aremove k rest

theorem alookup_aset_self (k : String) (v : β) (m : List (String × β)) :
    alookup k (aset k v m) = some v := by
  induction m with
  | nil => simp [aset, alookup]
  | cons hd tl ih =>
    rcases hd with ⟨a, w⟩
    by_cases h : a = k
    · simp [aset, alookup, h]
    · simp [aset, alookup, h, ih]

theorem alookup_aset_ne (j k : String) (v : β) (m : List (String × β)) (h : j ≠ k) :
    alookup j (aset k v m) = alookup j m := by
  have hkj : ¬ (k = j) := fun hh => h hh.symm
  induction m with
  | nil => simp [aset, alookup, hkj]
  | cons hd tl ih =>
    rcases hd with ⟨a, w⟩
    by_cases ha : a = k
    · subst ha
      simp [aset, alookup, hkj]
    · simp [aset, alookup, ha, ih]

theorem aset_self_of_alookup (k : String) (v : β) (m : List (String × β))
    (h : alookup k m = some v) : aset k v m = m := by
  induction m with
  | nil => simp [alookup] at h
  | cons hd tl ih =>
    rcases hd with ⟨a, w⟩
    by_cases ha : a = k
    · simp [alookup, ha] at h
      simp [aset, ha, h]
    · simp [alookup, ha] at h
      simp [aset, ha, ih h]

theorem alookup_some_mem (k : String) (v : β) (m : List (String × β))
    (h : alookup k m = some v) : (k, v) ∈ m := by
  induction m with
  | nil => simp [alookup] at h
  | cons hd tl ih =>
    rcases hd with ⟨a, w⟩
    by_cases ha : a = k
    · simp [alookup, ha] at h
      simp [ha, h]
    · simp [alookup, ha] at h
      exact List.mem_cons_of_mem _ (ih h)

end AssocMap

/-! ## IP rate limiter (src/ratelimit.ts)

`ConnectionRateLimiter` is embedded with rational token counts (JavaScript
doubles keep the involved values exact at this scale, and the code guards
comparisons with `TOKEN_EPSILON` precisely to absorb rounding), explicit
timestamps in milliseconds, and the state map as an association list. -/

def ONE_MINUTE_MS : Int := 60000

def CLEANUP_INTERVAL_MS : Int := 30000

def IDLE_STATE_TTL_MS : Int := ONE_MINUTE_MS

def TOKEN_EPSILON : ℚ := 1 / 1000000000

/-- JavaScript `String.prototype.trim` (ASCII whitespace suffices for the
IP strings involved). -/
def isJsSpace (c : Char) : Bool :=
  c = ' ' ∨ c = '\t' ∨ c = '\n' ∨ c = '\r'

def strTrim (s : String) : String :=
  String.mk (((s.toList.dropWhile isJsSpace).reverse.dropWhile isJsSpace).reverse)

/-- Embeds `normalizeIp` (ratelimit.ts lines 38-41). -/
def normalizeIp (ip : String) : String :=
  let trimmed := strTrim ip
  if trimmed.toList.length > 0 then trimmed else "unknown"

structure IpTokenBucketState where
  activeConnectionIds : List String
  tokens : ℚ
  lastRefillAt : Int
  lastSeenAt : Int
  deriving DecidableEq, Repr

structure RateLimiterState where
  /-- `Math.max(1, maxConnPerIp)` from the constructor -/
  maxConnPerIp : Nat
  /-- `Math.max(1, maxConnPerMin)` from the constructor -/
  maxConnPerMin : Nat
  stateByIp : List (String × IpTokenBucketState)
  nextCleanupAt : Int
  deriving DecidableEq, Repr

def bucketCapacity (rl : RateLimiterState) : ℚ := rl.maxConnPerMin

def refillTokensPerMs (rl : RateLimiterState) : ℚ := (rl.maxConnPerMin : ℚ) / 60000

/-- Embeds `getOrCreateState`'s freshly created bucket (ratelimit.ts lines
206-221). -/
def freshBucket (rl : RateLimiterState) (now : Int) : IpTokenBucketState :=
  { activeConnectionIds := []
    tokens := bucketCapacity rl
    lastRefillAt := now
    lastSeenAt := now }

/-- Embeds `refillTokens` (ratelimit.ts lines 223-232). -/
def refillTokens (rl : RateLimiterState) (now : Int) (st : IpTokenBucketState) :
    IpTokenBucketState :=
  if now ≤ st.lastRefillAt then st
  else
    { st with
      tokens := min (bucketCapacity rl) (st.tokens + ((now - st.lastRefillAt : Int) : ℚ) * refillTokensPerMs rl)
      lastRefillAt := now }

/-- The `deleteIfIdle` condition (ratelimit.ts lines 234-245). -/
def isIdleDeletable (rl : RateLimiterState) (now : Int) (st : IpTokenBucketState) : Bool :=
  decide (st.activeConnectionIds.length = 0) &&
  decide (bucketCapacity rl - TOKEN_EPSILON ≤ st.tokens) &&
  decide (IDLE_STATE_TTL_MS ≤ now - st.lastSeenAt)

/-- Embeds `cleanupOldAttempts` (ratelimit.ts lines 157-166): refill every
bucket, drop the idle ones, reschedule the next sweep. -/
def cleanupOldAttempts (now : Int) (rl : RateLimiterState) : RateLimiterState :=
  { rl with
    stateByIp :=
      (rl.stateByIp.map (fun p => (p.1, refillTokens rl now p.2))).filter
        (fun p => ! isIdleDeletable rl now p.2)
    nextCleanupAt := now + CLEANUP_INTERVAL_MS }

/-- Embeds `maybeCleanup` (ratelimit.ts lines 198-204). -/
def maybeCleanup (now : Int) (rl : RateLimiterState) : RateLimiterState :=
  if now < rl.nextCleanupAt then rl else cleanupOldAttempts now rl

/-- Embeds `checkConnectionAllowed` (ratelimit.ts lines 90-104); the bucket
mutations (refill, `lastSeenAt`) are visible in the map, mirroring the
in-place object mutation. -/
def checkConnectionAllowed (now : Int) (ip : String) (rl : RateLimiterState) :
    Bool × RateLimiterState :=
  let rl := maybeCleanup now rl
  let nIp := normalizeIp ip
  let st0 := (alookup nIp rl.stateByIp).getD (freshBucket rl now)
  let st1 := refillTokens rl now st0
  let st2 := { st1 with lastSeenAt := now }
  let rl := { rl with stateByIp := aset nIp st2 rl.stateByIp }
  if rl.maxConnPerIp ≤ st2.activeConnectionIds.length then (false, rl)
  else (decide (1 ≤ st2.tokens + TOKEN_EPSILON), rl)

/-- Embeds `registerConnection` (ratelimit.ts lines 109-131). -/
def registerConnection (now : Int) (ip connId : String) (rl : RateLimiterState) :
    RateLimiterState :=
  let rl := maybeCleanup now rl
  let nIp := normalizeIp ip
  let st0 := (alookup nIp rl.stateByIp).getD (freshBucket rl now)
  let st1 := refillTokens rl now st0
  if connId ∈ st1.activeConnectionIds then
    { rl with stateByIp := aset nIp { st1 with lastSeenAt := now } rl.stateByIp }
  else
    let st2 := { st1 with
      activeConnectionIds := st1.activeConnectionIds ++ [connId]
      tokens := if 1 ≤ st1.tokens + TOKEN_EPSILON then max 0 (st1.tokens - 1) else 0
      lastSeenAt := now }
    { rl with stateByIp := aset nIp st2 rl.stateByIp }

/-- Embeds `unregisterConnection` (ratelimit.ts lines 136-152). -/
def unregisterConnection (now : Int) (ip connId : String) (rl : RateLimiterState) :
    RateLimiterState :=
  let rl := maybeCleanup now rl
  let nIp := normalizeIp ip
  match alookup nIp rl.stateByIp with
  | none => rl
  | some st =>
    let st :=
      if connId ∈ st.activeConnectionIds then
        { st with activeConnectionIds := st.activeConnectionIds.erase connId, lastSeenAt := now }
      else st
    if isIdleDeletable rl now st = true then
      { rl with stateByIp := aremove nIp rl.stateByIp }
    else
      { rl with stateByIp := aset nIp st rl.stateByIp }

/-- The token count the limiter associates with a key: an absent bucket
stands for a full one (it is created at capacity on first touch). -/
def tokensOf (rl : RateLimiterState) (k : String) : ℚ :=
  match alookup k rl.stateByIp with
  | some st => st.tokens
  | none => bucketCapacity rl

/-- Token counts never exceed the bucket capacity; this holds for every
state the limiter actually constructs. -/
def WFTokens (rl : RateLimiterState) : Prop :=
  ∀ p ∈ rl.stateByIp, p.2.tokens ≤ bucketCapacity rl

theorem maybeCleanup_now_lt (now : Int) (rl : RateLimiterState) :
    now < (maybeCleanup now rl).nextCleanupAt := by
  unfold maybeCleanup
  split
  · assumption
  · simp [cleanupOldAttempts, CLEANUP_INTERVAL_MS]

theorem maybeCleanup_noop (now : Int) (rl : RateLimiterState) (h : now < rl.nextCleanupAt) :
    maybeCleanup now rl = rl := by
  simp [maybeCleanup, h]

theorem refillTokens_lastRefillAt_ge (rl : RateLimiterState) (now : Int)
    (st : IpTokenBucketState) : now ≤ (refillTokens rl now st).lastRefillAt := by
  unfold refillTokens
  split
  · assumption
  · simp

theorem refillTokens_noop (rl : RateLimiterState) (now : Int) (st : IpTokenBucketState)
    (h : now ≤ st.lastRefillAt) : refillTokens rl now st = st := by
  simp [refillTokens, h]

theorem refillTokens_le_cap (rl : RateLimiterState) (now : Int) (st : IpTokenBucketState)
    (h : st.tokens ≤ bucketCapacity rl) :
    (refillTokens rl now st).tokens ≤ bucketCapacity rl := by
  unfold refillTokens
  split
  · exact h
  · simp

theorem refillTokens_mono (rl : RateLimiterState) (now : Int) (st : IpTokenBucketState)
    (h : st.tokens ≤ bucketCapacity rl) :
    st.tokens ≤ (refillTokens rl now st).tokens := by
  unfold refillTokens
  split
  · exact le_refl _
  · rename_i hlate
    simp only
    have helapsed : (0 : ℚ) ≤ ((now - st.lastRefillAt : Int) : ℚ) := by
      have : (0 : Int) ≤ now - st.lastRefillAt := by omega
      exact_mod_cast this
    have hrate : (0 : ℚ) ≤ refillTokensPerMs rl := by
      unfold refillTokensPerMs
      positivity
    have : st.tokens ≤ st.tokens + ((now - st.lastRefillAt : Int) : ℚ) * refillTokensPerMs rl := by
      nlinarith
    exact le_min h this

/-- Keys survive the refill map unchanged; cleanup keeps a subset. -/
theorem cleanup_keys_sublist (now : Int) (rl : RateLimiterState) :
    ((cleanupOldAttempts now rl).stateByIp.map Prod.fst).Sublist
      (rl.stateByIp.map Prod.fst) := by
  unfold cleanupOldAttempts
  simp only
  have h1 : ((rl.stateByIp.map (fun p => (p.1, refillTokens rl now p.2))).filter
      (fun p => ! isIdleDeletable rl now p.2)).Sublist
      (rl.stateByIp.map (fun p => (p.1, refillTokens rl now p.2))) := List.filter_sublist _
  have h2 := h1.map Prod.fst
  have h3 : (rl.stateByIp.map (fun p => (p.1, refillTokens rl now p.2))).map Prod.fst =
      rl.stateByIp.map Prod.fst := by
    simp [List.map_map, Function.comp]
  rw [h3] at h2
  exact h2

theorem cleanup_nodup (now : Int) (rl : RateLimiterState)
    (h : (rl.stateByIp.map Prod.fst).Nodup) :
    ((cleanupOldAttempts now rl).stateByIp.map Prod.fst).Nodup :=
  (cleanup_keys_sublist now rl).nodup h

theorem cleanup_wf (now : Int) (rl : RateLimiterState) (hwf : WFTokens rl) :
    WFTokens (cleanupOldAttempts now rl) := by
  intro p hp
  unfold cleanupOldAttempts at hp
  simp only [List.mem_filter, List.mem_map] at hp
  obtain ⟨⟨q, hq, hpq⟩, -⟩ := hp
  have : p.2 = refillTokens rl now q.2 := by rw [← hpq]
  rw [this]
  exact refillTokens_le_cap rl now q.2 (hwf q hq)

theorem alookup_none_of_not_mem_keys {β : Type} (k : String) (m : List (String × β))
    (h : k ∉ m.map Prod.fst) : alookup k m = none := by
  induction m with
  | nil => rfl
  | cons hd tl ih =>
    rcases hd with ⟨a, v⟩
    simp only [List.map_cons, List.mem_cons] at h
    push_neg at h
    have ha : ¬ (a = k) := fun hh => h.1 hh.symm
    simp [alookup, ha, ih h.2]

theorem alookup_aremove_self {β : Type} (k : String) (m : List (String × β))
    (h : (m.map Prod.fst).Nodup) : alookup k (aremove k m) = none := by
  induction m with
  | nil => rfl
  | cons hd tl ih =>
    rcases hd with ⟨a, v⟩
    simp only [List.map_cons, List.nodup_cons] at h
    by_cases ha : a = k
    · subst ha
      simp only [aremove, if_pos rfl]
      exact alookup_none_of_not_mem_keys a tl h.1
    · simp [aremove, alookup, ha, ih h.2]

theorem alookup_aremove_ne {β : Type} (j k : String) (m : List (String × β)) (h : j ≠ k) :
    alookup j (aremove k m) = alookup j m := by
  induction m with
  | nil => rfl
  | cons hd tl ih =>
    rcases hd with ⟨a, v⟩
    by_cases ha : a = k
    · subst ha
      have : ¬ (a = j) := fun hh => h hh.symm
      simp [aremove, alookup, this]
    · simp [aremove, alookup, ha, ih]

theorem tokensOf_cleanup_mono_list (rl : RateLimiterState) (now : Int) (j : String)
    (m : List (String × IpTokenBucketState))
    (hnodup : (m.map Prod.fst).Nodup)
    (hwf : ∀ p ∈ m, p.2.tokens ≤ bucketCapacity rl) :
    (match alookup j m with | some st => st.tokens | none => bucketCapacity rl) ≤
    (match alookup j ((m.map (fun p => (p.1, refillTokens rl now p.2))).filter
        (fun p => ! isIdleDeletable rl now p.2)) with
     | some st => st.tokens
     | none => bucketCapacity rl) := by
  induction m with
  | nil => simp [alookup]
  | cons hd tl ih =>
    rcases hd with ⟨a, st⟩
    simp only [List.map_cons, List.nodup_cons] at hnodup
    have hwfhd : st.tokens ≤ bucketCapacity rl := hwf (a, st) (by simp)
    have hwftl : ∀ p ∈ tl, p.2.tokens ≤ bucketCapacity rl := by
      intro p hp
      exact hwf p (List.mem_cons_of_mem _ hp)
    have ihx := ih hnodup.2 hwftl
    by_cases ha : a = j
    · subst ha
      simp only [alookup, if_pos rfl, List.map_cons, List.filter_cons]
      by_cases hidle : isIdleDeletable rl now (refillTokens rl now st) = true
      · have hnone : alookup a ((tl.map (fun p => (p.1, refillTokens rl now p.2))).filter
            (fun p => ! isIdleDeletable rl now p.2)) = none := by
          apply alookup_none_of_not_mem_keys
          intro hmem
          apply hnodup.1
          have h1 : ((tl.map (fun p => (p.1, refillTokens rl now p.2))).filter
              (fun p => ! isIdleDeletable rl now p.2)).Sublist
              (tl.map (fun p => (p.1, refillTokens rl now p.2))) := List.filter_sublist _
          have h2 := h1.map Prod.fst
          have h3 : (tl.map (fun p => (p.1, refillTokens rl now p.2))).map Prod.fst =
              tl.map Prod.fst := by simp [List.map_map, Function.comp]
          rw [h3] at h2
          exact h2.mem hmem
        simp only [hidle, Bool.not_true]
        simp [hnone, hwfhd]
      · simp only [Bool.not_eq_true] at hidle
        simp [hidle, alookup, refillTokens_mono rl now st hwfhd]
    · simp only [alookup, if_neg ha, List.map_cons, List.filter_cons]
      by_cases hidle : isIdleDeletable rl now (refillTokens rl now st) = true
      · simpa [hidle] using ihx
      · simp only [Bool.not_eq_true] at hidle
        simpa [hidle, alookup, ha] using ihx

/-- Cleanup never lowers the token count the limiter associates with a key;
absent entries stand for full buckets. -/
theorem tokensOf_cleanup_mono (now : Int) (rl : RateLimiterState) (j : String)
    (hnodup : (rl.stateByIp.map Prod.fst).Nodup) (hwf : WFTokens rl) :
    tokensOf rl j ≤ tokensOf (cleanupOldAttempts now rl) j := by
  have h := tokensOf_cleanup_mono_list rl now j rl.stateByIp hnodup hwf
  exact h

theorem tokensOf_maybeCleanup_mono (now : Int) (rl : RateLimiterState) (j : String)
    (hnodup : (rl.stateByIp.map Prod.fst).Nodup) (hwf : WFTokens rl) :
    tokensOf rl j ≤ tokensOf (maybeCleanup now rl) j := by
  unfold maybeCleanup
  split
  · exact le_refl _
  · exact tokensOf_cleanup_mono now rl j hnodup hwf

theorem maybeCleanup_nodup (now : Int) (rl : RateLimiterState)
    (h : (rl.stateByIp.map Prod.fst).Nodup) :
    ((maybeCleanup now rl).stateByIp.map Prod.fst).Nodup := by
  unfold maybeCleanup
  split
  · exact h
  · exact cleanup_nodup now rl h

theorem maybeCleanup_wf (now : Int) (rl : RateLimiterState) (hwf : WFTokens rl) :
    WFTokens (maybeCleanup now rl) := by
  unfold maybeCleanup
  split
  · exact hwf
  · exact cleanup_wf now rl hwf

theorem consume_eq_max (t : ℚ) :
    (if 1 ≤ t + TOKEN_EPSILON then max 0 (t - 1) else 0) = max 0 (t - 1) := by
  split
  · rfl
  · rename_i h
    push_neg at h
    have ht : t - 1 ≤ 0 := by
      unfold TOKEN_EPSILON at h
      linarith
    simp [max_eq_left ht]

/-- Closed form of the bucket `checkConnectionAllowed` leaves behind for the
checked key: the refilled (or freshly created) bucket with `lastSeenAt`
set.  Definitionally equal to the corresponding piece of
`checkConnectionAllowed` (see `checkConnectionAllowed_closed_form`). -/
def checkedSt (now : Int) (ip : String) (rl : RateLimiterState) : IpTokenBucketState :=
  let rlc := maybeCleanup now rl
  { refillTokens rlc now
      ((alookup (normalizeIp ip) rlc.stateByIp).getD (freshBucket rlc now)) with
    lastSeenAt := now }

/-- Closed form of the limiter state `checkConnectionAllowed` returns. -/
def checkedRl (now : Int) (ip : String) (rl : RateLimiterState) : RateLimiterState :=
  { maybeCleanup now rl with
    stateByIp :=
      aset (normalizeIp ip) (checkedSt now ip rl) (maybeCleanup now rl).stateByIp }

theorem checkConnectionAllowed_closed_form (now : Int) (ip : String) (rl : RateLimiterState) :
    checkConnectionAllowed now ip rl =
      (if (checkedRl now ip rl).maxConnPerIp ≤ (checkedSt now ip rl).activeConnectionIds.length
       then (false, checkedRl now ip rl)
       else (decide (1 ≤ (checkedSt now ip rl).tokens + TOKEN_EPSILON), checkedRl now ip rl)) :=
  rfl

theorem checkConnectionAllowed_snd (now : Int) (ip : String) (rl : RateLimiterState) :
    (checkConnectionAllowed now ip rl).2 = checkedRl now ip rl := by
  rw [checkConnectionAllowed_closed_form]
  split <;> rfl

theorem maybeCleanup_maxConnPerIp (now : Int) (rl : RateLimiterState) :
    (maybeCleanup now rl).maxConnPerIp = rl.maxConnPerIp := by
  unfold maybeCleanup
  split <;> rfl

theorem maybeCleanup_capacity (now : Int) (rl : RateLimiterState) :
    bucketCapacity (maybeCleanup now rl) = bucketCapacity rl := by
  unfold maybeCleanup bucketCapacity cleanupOldAttempts
  split <;> rfl

/-- When no sweep is due, the key's bucket is present, already refilled at
this instant and already touched at this instant, a check is a pure read:
the state is returned unchanged. -/
theorem check_stable (now : Int) (ip : String) (rl : RateLimiterState)
    (st : IpTokenBucketState)
    (hclean : now < rl.nextCleanupAt)
    (hlook : alookup (normalizeIp ip) rl.stateByIp = some st)
    (hrefill : now ≤ st.lastRefillAt)
    (hseen : st.lastSeenAt = now) :
    checkConnectionAllowed now ip rl =
      (if rl.maxConnPerIp ≤ st.activeConnectionIds.length then (false, rl)
       else (decide (1 ≤ st.tokens + TOKEN_EPSILON), rl)) := by
  have hnoop : maybeCleanup now rl = rl := maybeCleanup_noop now rl hclean
  have hre : refillTokens rl now st = st := refillTokens_noop rl now st hrefill
  have hstx : ({ st with lastSeenAt := now } : IpTokenBucketState) = st := by
    cases st
    simp_all
  have hset : aset (normalizeIp ip) st rl.stateByIp = rl.stateByIp :=
    aset_self_of_alookup _ _ _ hlook
  simp only [checkConnectionAllowed]
  rw [hnoop, hlook]
  simp only [Option.getD_some, hre, hstx, hset]

/-- The second of two checks at the same instant observes exactly the state
the first one left behind, so check-then-check is check. -/
theorem checkConnectionAllowed_idempotent (now : Int) (ip : String) (rl : RateLimiterState) :
    checkConnectionAllowed now ip (checkConnectionAllowed now ip rl).2 =
      checkConnectionAllowed now ip rl := by
  have hsnd := checkConnectionAllowed_snd now ip rl
  have h1 : now < (checkedRl now ip rl).nextCleanupAt := by
    show now < (maybeCleanup now rl).nextCleanupAt
    exact maybeCleanup_now_lt now rl
  have h2 : alookup (normalizeIp ip) (checkedRl now ip rl).stateByIp =
      some (checkedSt now ip rl) := by
    show alookup (normalizeIp ip)
        (aset (normalizeIp ip) (checkedSt now ip rl) (maybeCleanup now rl).stateByIp) = _
    exact alookup_aset_self _ _ _
  have h3 : now ≤ (checkedSt now ip rl).lastRefillAt := by
    show now ≤ (refillTokens (maybeCleanup now rl) now _).lastRefillAt
    exact refillTokens_lastRefillAt_ge _ now _
  have h4 : (checkedSt now ip rl).lastSeenAt = now := rfl
  have hstable := check_stable now ip (checkedRl now ip rl) (checkedSt now ip rl) h1 h2 h3 h4
  rw [hsnd, hstable, checkConnectionAllowed_closed_form now ip rl]

/-- Checking never lowers any token count (it can only refill buckets or
recreate absent ones at capacity). -/
theorem tokensOf_check_mono (now : Int) (ip : String) (rl : RateLimiterState)
    (hnodup : (rl.stateByIp.map Prod.fst).Nodup) (hwf : WFTokens rl) (j : String) :
    tokensOf rl j ≤ tokensOf (checkConnectionAllowed now ip rl).2 j := by
  rw [checkConnectionAllowed_snd now ip rl]
  have hwfc : WFTokens (maybeCleanup now rl) := maybeCleanup_wf now rl hwf
  have hmono1 : tokensOf rl j ≤ tokensOf (maybeCleanup now rl) j :=
    tokensOf_maybeCleanup_mono now rl j hnodup hwf
  refine le_trans hmono1 ?_
  have hcapr : bucketCapacity (checkedRl now ip rl) = bucketCapacity (maybeCleanup now rl) := rfl
  have hstate : (checkedRl now ip rl).stateByIp =
      aset (normalizeIp ip) (checkedSt now ip rl) (maybeCleanup now rl).stateByIp := rfl
  unfold tokensOf
  rw [hcapr, hstate]
  by_cases hj : j = normalizeIp ip
  · rw [hj, alookup_aset_self]
    cases hcase : alookup (normalizeIp ip) (maybeCleanup now rl).stateByIp with
    | some stx =>
      have hmem := alookup_some_mem _ stx _ hcase
      have hwfx : stx.tokens ≤ bucketCapacity (maybeCleanup now rl) :=
        hwfc (normalizeIp ip, stx) hmem
      show stx.tokens ≤ (checkedSt now ip rl).tokens
      have htok : (checkedSt now ip rl).tokens =
          (refillTokens (maybeCleanup now rl) now
            ((alookup (normalizeIp ip) (maybeCleanup now rl).stateByIp).getD
              (freshBucket (maybeCleanup now rl) now))).tokens := rfl
      rw [htok, hcase]
      simp only [Option.getD_some]
      exact refillTokens_mono _ now stx hwfx
    | none =>
      show bucketCapacity (maybeCleanup now rl) ≤ (checkedSt now ip rl).tokens
      have htok : (checkedSt now ip rl).tokens =
          (refillTokens (maybeCleanup now rl) now
            ((alookup (normalizeIp ip) (maybeCleanup now rl).stateByIp).getD
              (freshBucket (maybeCleanup now rl) now))).tokens := rfl
      rw [htok, hcase]
      simp only [Option.getD_none]
      rw [refillTokens_noop _ now _ (le_refl now)]
      exact le_refl _
  · rw [alookup_aset_ne j (normalizeIp ip) _ _ hj]

/-- Unregistering never lowers any token count. -/
theorem tokensOf_unregister_mono (now : Int) (ip connId : String) (rl : RateLimiterState)
    (hnodup : (rl.stateByIp.map Prod.fst).Nodup) (hwf : WFTokens rl) (j : String) :
    tokensOf rl j ≤ tokensOf (unregisterConnection now ip connId rl) j := by
  have hwfc : WFTokens (maybeCleanup now rl) := maybeCleanup_wf now rl hwf
  have hnodupc : ((maybeCleanup now rl).stateByIp.map Prod.fst).Nodup :=
    maybeCleanup_nodup now rl hnodup
  have hmono1 : tokensOf rl j ≤ tokensOf (maybeCleanup now rl) j :=
    tokensOf_maybeCleanup_mono now rl j hnodup hwf
  refine le_trans hmono1 ?_
  simp only [unregisterConnection]
  cases hcase : alookup (normalizeIp ip) (maybeCleanup now rl).stateByIp with
  | none =>
    simp only [hcase]
    exact le_refl _
  | some st =>
    simp only [hcase]
    have hmem := alookup_some_mem _ st _ hcase
    have hwfst : st.tokens ≤ bucketCapacity (maybeCleanup now rl) :=
      hwfc (normalizeIp ip, st) hmem
    by_cases hconn : connId ∈ st.activeConnectionIds <;>
      simp only [hconn, if_true, if_false, reduceIte] <;>
      split <;>
      unfold tokensOf <;>
      by_cases hj : j = normalizeIp ip <;>
      simp only [hj] <;>
      first
      | (rw [alookup_aremove_self _ _ hnodupc]; rw [hcase]; exact hwfst)
      | (rw [alookup_aremove_ne j _ _ hj]; exact le_refl _)
      | (rw [alookup_aset_self]; rw [hcase])
      | (rw [alookup_aset_ne j _ _ _ hj]; exact le_refl _)

/-- When no sweep is due and the key's bucket is present and already
refilled at this instant, registering a fresh connection id appends the id
and consumes exactly one token flooring at zero, while re-registering an
active id only touches `lastSeenAt`. -/
theorem registerConnection_semantics (now : Int) (ip connId : String)
    (rl : RateLimiterState) (st : IpTokenBucketState)
    (hclean : now < rl.nextCleanupAt)
    (hlook : alookup (normalizeIp ip) rl.stateByIp = some st)
    (hrefill : now ≤ st.lastRefillAt) :
    (connId ∉ st.activeConnectionIds →
      alookup (normalizeIp ip) (registerConnection now ip connId rl).stateByIp =
        some { st with
          activeConnectionIds := st.activeConnectionIds ++ [connId]
          tokens := max 0 (st.tokens - 1)
          lastSeenAt := now }) ∧
    (connId ∈ st.activeConnectionIds →
      alookup (normalizeIp ip) (registerConnection now ip connId rl).stateByIp =
        some { st with lastSeenAt := now }) := by
  have hnoop : maybeCleanup now rl = rl := maybeCleanup_noop now rl hclean
  have hre : refillTokens rl now st = st := refillTokens_noop rl now st hrefill
  constructor
  · intro hmem
    simp only [registerConnection, hnoop, hlook, Option.getD_some, hre, hmem, if_false]
    rw [consume_eq_max st.tokens]
    exact alookup_aset_self _ _ _
  · intro hmem
    simp only [registerConnection, hnoop, hlook, Option.getD_some, hre, hmem, if_true]
    exact alookup_aset_self _ _ _

/-- C7: at a fixed timestamp, checking admission twice returns the same
boolean and leaves the state (hence the token count) of the second call
identical to the first, checking never lowers any token count, neither does
unregistering, and only `registerConnection` with a not-yet-active id
consumes a token — exactly one, flooring at zero (an already-active id only
refreshes `lastSeenAt`). -/
theorem ratelimit_check_idempotent_only_register_consumes
    (now : Int) (ip connId : String) (rl : RateLimiterState) (st : IpTokenBucketState)
    (hnodup : (rl.stateByIp.map Prod.fst).Nodup)
    (hwf : WFTokens rl) :
    (checkConnectionAllowed now ip (checkConnectionAllowed now ip rl).2 =
      checkConnectionAllowed now ip rl) ∧
    (∀ j, tokensOf rl j ≤ tokensOf (checkConnectionAllowed now ip rl).2 j) ∧
    (∀ j, tokensOf rl j ≤ tokensOf (unregisterConnection now ip connId rl) j) ∧
    (now < rl.nextCleanupAt →
      alookup (normalizeIp ip) rl.stateByIp = some st →
      now ≤ st.lastRefillAt →
      (connId ∉ st.activeConnectionIds →
        alookup (normalizeIp ip) (registerConnection now ip connId rl).stateByIp =
          some { st with
            activeConnectionIds := st.activeConnectionIds ++ [connId]
            tokens := max 0 (st.tokens - 1)
            lastSeenAt := now }) ∧
      (connId ∈ st.activeConnectionIds →
        alookup (normalizeIp ip) (registerConnection now ip connId rl).stateByIp =
          some { st with lastSeenAt := now })) := by
  refine ⟨checkConnectionAllowed_idempotent now ip rl,
    fun j => tokensOf_check_mono now ip rl hnodup hwf j,
    fun j => tokensOf_unregister_mono now ip connId rl hnodup hwf j,
    fun hclean hlook hrefill => registerConnection_semantics now ip connId rl st hclean hlook hrefill⟩

def bucketExample : IpTokenBucketState :=
  { activeConnectionIds := ["c1"]
    tokens := 5
    lastRefillAt := 0
    lastSeenAt := 0 }

def rlExample : RateLimiterState :=
  { maxConnPerIp := 2
    maxConnPerMin := 5
    stateByIp := [("1.2.3.4", bucketExample)]
    nextCleanupAt := 1000 }

/-- C7 witness: the rate-limiter theorem evaluated on a concrete one-bucket
limiter, with the register clause instantiated for a fresh connection id. -/
theorem ratelimit_check_idempotent_only_register_consumes_witness :
    (checkConnectionAllowed 0 "1.2.3.4" (checkConnectionAllowed 0 "1.2.3.4" rlExample).2 =
      checkConnectionAllowed 0 "1.2.3.4" rlExample) ∧
    tokensOf rlExample "1.2.3.4" ≤ tokensOf (checkConnectionAllowed 0 "1.2.3.4" rlExample).2 "1.2.3.4" ∧
    alookup (normalizeIp "1.2.3.4") (registerConnection 0 "1.2.3.4" "c2" rlExample).stateByIp =
      some { bucketExample with
        activeConnectionIds := bucketExample.activeConnectionIds ++ ["c2"]
        tokens := max 0 (bucketExample.tokens - 1)
        lastSeenAt := 0 } := by
  have h := ratelimit_check_idempotent_only_register_consumes 0 "1.2.3.4" "c2"
    rlExample bucketExample (by decide)
    (by intro p hp; simp only [rlExample, List.mem_singleton] at hp; rw [hp]; decide)
  exact ⟨h.1, h.2.1 "1.2.3.4",
    (h.2.2.2 (by decide) (by decide) (by decide)).1 (by decide)⟩

/-! ## Identity extraction for session limiting (src/uuid-manager.ts)

A request is modelled after URL parsing as its pathname plus the value of
the `id` query parameter (`searchParams.get('id')`).  The canonical
identity regex `^[0-9a-f]{8}-[0-9a-f]{4}-[1-8][0-9a-f]{3}-[89ab][0-9a-f]{3}-
[0-9a-f]{12}$` with the `i` flag is embedded structurally.
`decodeURIComponent` is modelled on single-byte escapes; multi-byte escapes
decode to non-ASCII characters which the identity regex rejects just as it
rejects the raw `%` form, so extraction results agree with the source on
every input (the `catch` branch returning the raw segment is the `none`
fallback here). -/

def isHexDigit (c : Char) : Bool :=
  ('0' ≤ c ∧ c ≤ '9') ∨ ('a' ≤ c ∧ c ≤ 'f') ∨ ('A' ≤ c ∧ c ≤ 'F')

def isUuidVersionChar (c : Char) : Bool :=
  '1' ≤ c ∧ c ≤ '8'

def isUuidVariantChar (c : Char) : Bool :=
  c = '8' ∨ c = '9' ∨ c = 'a' ∨ c = 'b' ∨ c = 'A' ∨ c = 'B'

def hexRun : Nat → List Char → Option (List Char)
  | 0, cs => some cs
  | _ + 1, [] => none
  | n + 1, c :: cs => if isHexDigit c then hexRun n cs else none

def expectChar (c : Char) : List Char → Option (List Char)
  | [] => none
  | d :: cs => if d = c then some cs else none

def expectPred (p : Char → Bool) : List Char → Option (List Char)
  | [] => none
  | d :: cs => if p d then some cs else none

/-- Embeds `isValidUuid` (uuid-manager.ts lines 52-54): the trimmed value
must match the canonical UUID shape, case-insensitively. -/
def isValidUuid (value : String) : Bool :=
  let run : Option (List Char) := do
    let cs := (strTrim value).toList
    let cs ← hexRun 8 cs
    let cs ← expectChar '-' cs
    let cs ← hexRun 4 cs
    let cs ← expectChar '-' cs
    let cs ← expectPred isUuidVersionChar cs
    let cs ← hexRun 3 cs
    let cs ← expectChar '-' cs
    let cs ← expectPred isUuidVariantChar cs
    let cs ← hexRun 3 cs
    let cs ← expectChar '-' cs
    let cs ← hexRun 12 cs
    if cs.isEmpty then some cs else none
  run.isSome

/-- Embeds `normalizeUuid` (uuid-manager.ts lines 56-58). -/
def normalizeUuid (value : String) : String :=
  strToLower (strTrim value)

/-- `String.prototype.split('/')` on the code-point list. -/
def splitOnChar (sep : Char) : List Char → List (List Char)
  | [] => [[]]
  | c :: rest =>
    let r := splitOnChar sep rest
    if c = sep then [] :: r
    else
      match r with
      | h :: t => (c :: h) :: t
      | [] => [[c]]

def hexDigitVal (c : Char) : Option Nat :=
  if '0' ≤ c ∧ c ≤ '9' then some (c.toNat - '0'.toNat)
  else if 'a' ≤ c ∧ c ≤ 'f' then some (c.toNat - 'a'.toNat + 10)
  else if 'A' ≤ c ∧ c ≤ 'F' then some (c.toNat - 'A'.toNat + 10)
  else none

/-- Percent-decoding on the ASCII range; `none` covers both malformed
escapes (where `decodeURIComponent` throws) and multi-byte escapes (whose
decodings the identity regex rejects exactly as it rejects the raw form). -/
def percentDecodeChars : List Char → Option (List Char)
  | [] => some []
  | '%' :: rest =>
    match rest with
    | h1 :: h2 :: rest =>
      match hexDigitVal h1, hexDigitVal h2 with
      | some v1, some v2 =>
        let b := v1 * 16 + v2
        if b < 128 then (percentDecodeChars rest).map (fun r => Char.ofNat b :: r)
        else none
      | _, _ => none
    | _ => none
  | c :: rest => (percentDecodeChars rest).map (fun r => c :: r)

/-- Embeds `decodePathSegment` (uuid-manager.ts lines 44-50): decode, and
fall back to the raw segment when decoding fails. -/
def decodePathSegment (s : String) : String :=
  match percentDecodeChars s.toList with
  | some cs => String.mk cs
  | none => s

structure UrlModel where
  pathname : String
  /-- `searchParams.get('id')` -/
  idParam : Option String
  deriving DecidableEq, Repr

/-- Embeds `extractUuidFromPath` (uuid-manager.ts lines 60-74). -/
def extractUuidFromPath (url : UrlModel) : Option String :=
  let segments := ((splitOnChar '/' url.pathname.toList).filter
      (fun s => 0 < s.length)).map (fun s => decodePathSegment (String.mk s))
  match segments.get? 0 with
  | none => none
  | some first =>
    if isValidUuid first then some (normalizeUuid first)
    else
      match segments.get? 1 with
      | none => none
      | some second =>
        if strToLower first = "sub" ∧ isValidUuid second then some (normalizeUuid second)
        else none

/-- Embeds `extractUuidFromRequest` (uuid-manager.ts lines 87-96): the `id`
query parameter is consulted FIRST, then the path. -/
def extractUuidFromRequest (url : UrlModel) : Option String :=
  match url.idParam with
  | some fromQuery =>
    if isValidUuid fromQuery then some (normalizeUuid fromQuery)
    else extractUuidFromPath url
  | none => extractUuidFromPath url

/-- A request whose first path segment and `id` query parameter carry two
different valid identities. -/
def conflictingIdentityUrl : UrlModel :=
  { pathname := "/aaaaaaaa-aaaa-1aaa-8aaa-aaaaaaaaaaaa/x"
    idParam := some "bbbbbbbb-bbbb-1bbb-9bbb-bbbbbbbbbbbb" }

/-- C8 counterexample: with a valid identity in the first path segment AND a
different valid identity in the `id` query parameter, the extracted
identity is the query parameter's, not the first path segment's: the code
consults the query parameter first, not last. -/
theorem uuid_query_param_wins_over_path :
    isValidUuid "aaaaaaaa-aaaa-1aaa-8aaa-aaaaaaaaaaaa" = true ∧
    isValidUuid "bbbbbbbb-bbbb-1bbb-9bbb-bbbbbbbbbbbb" = true ∧
    extractUuidFromRequest conflictingIdentityUrl =
      some "bbbbbbbb-bbbb-1bbb-9bbb-bbbbbbbbbbbb" ∧
    ("bbbbbbbb-bbbb-1bbb-9bbb-bbbbbbbbbbbb" : String) ≠
      "aaaaaaaa-aaaa-1aaa-8aaa-aaaaaaaaaaaa" := by
  decide

/-- C8 (amended): the identity used for session limiting is extracted in
the order: `id` query parameter when it carries a valid identity
(lower-cased), otherwise the path (first segment, then second segment when
the first is `sub`). -/
theorem uuid_extraction_order_amended (url : UrlModel) (q : String) :
    (url.idParam = some q → isValidUuid q = true →
      extractUuidFromRequest url = some (normalizeUuid q)) ∧
    (url.idParam = some q → isValidUuid q = false →
      extractUuidFromRequest url = extractUuidFromPath url) ∧
    (url.idParam = none →
      extractUuidFromRequest url = extractUuidFromPath url) := by
  refine ⟨?_, ?_, ?_⟩
  · intro hq hv
    simp [extractUuidFromRequest, hq, hv]
  · intro hq hv
    simp [extractUuidFromRequest, hq, hv]
  · intro hq
    simp [extractUuidFromRequest, hq]

/-- C8 witness: the extraction-order theorem evaluated on the conflicting
request. -/
theorem uuid_extraction_order_amended_witness :
    extractUuidFromRequest conflictingIdentityUrl =
      some (normalizeUuid "bbbbbbbb-bbbb-1bbb-9bbb-bbbbbbbbbbbb") :=
  (uuid_extraction_order_amended conflictingIdentityUrl
    "bbbbbbbb-bbbb-1bbb-9bbb-bbbbbbbbbbbb").1 (by rfl) (by decide)

/-! ## Subscription cache (src/subscription/transform.ts)

The TTL + size-bounded LRU cache.  The doubly-linked list with its keying
map is embedded as a single list of entries in MRU order (head = list
head); `nodesByKey.size` is the list length and the tracked `totalBytes`
is carried explicitly, with the source's `Math.max(0, …)` clamps.  The
stored response clone plays no role in the cap invariants and is elided
from the entry; `estimateResponseSize` receives the already-parsed
`content-length` value. -/

namespace SubscriptionCache

def DEFAULT_CACHE_TTL_MS : Int := 300000

def DEFAULT_MAX_CACHE_ENTRIES : Nat := 256

def DEFAULT_MAX_CACHE_BYTES : Nat := 20971520

def DEFAULT_ENTRY_SIZE_BYTES : Nat := 4096

def CACHE_CLEANUP_INTERVAL_MS : Int := 30000

structure Entry where
  key : String
  expiresAt : Int
  sizeBytes : Nat
  deriving DecidableEq, Repr

structure RespModel where
  status : Nat
  /-- the parsed `content-length` header (`parseContentLength`) -/
  contentLength : Option Nat
  deriving DecidableEq, Repr

structure CacheState where
  /-- `Math.max(1000, ttlMs)` from the constructor -/
  ttlMs : Int
  /-- `Math.max(1, maxEntries)` from the constructor -/
  maxEntries : Nat
  /-- `Math.max(DEFAULT_ENTRY_SIZE_BYTES, maxBytes)` from the constructor -/
  maxBytes : Nat
  entries : List Entry
  totalBytes : Int
  nextCleanupAt : Int
  deriving DecidableEq, Repr

/-- Embeds `buildCacheKey` (transform.ts lines 236-238). -/
def buildCacheKey (service token : String) : String :=
  strToLower service ++ ":" ++ token

/-- Embeds `estimateResponseSize` (transform.ts lines 254-262). -/
def estimateResponseSize (r : RespModel) : Nat :=
  r.contentLength.getD DEFAULT_ENTRY_SIZE_BYTES

def entrySizes (l : List Entry) : Int :=
  (l.map (fun e => (e.sizeBytes : Int))).sum

/-- Embeds the `removeNode` call on `nodesByKey.get(key)` (transform.ts
lines 428-432): detach the node, drop its key, clamp-subtract its size. -/
def removeKey (key : String) (s : CacheState) : CacheState :=
  match s.entries.find? (fun e => e.key = key) with
  | none => s
  | some e =>
    { s with
      entries := s.entries.eraseP (fun x => x.key = key)
      totalBytes := max 0 (s.totalBytes - (e.sizeBytes : Int)) }

/-- Embeds `evictIfNeeded` (transform.ts lines 392-402): pop the LRU tail
while over either cap. -/
def evictIfNeeded (s : CacheState) : CacheState :=
  if s.maxEntries < s.entries.length ∨ (s.maxBytes : Int) < s.totalBytes then
    match hlast : s.entries.getLast? with
    | none => s
    | some tailEntry =>
      evictIfNeeded { s with
        entries := s.entries.dropLast
        totalBytes := max 0 (s.totalBytes - (tailEntry.sizeBytes : Int)) }
  else s
  termination_by s.entries.length
  decreasing_by
    simp only [List.length_dropLast]
    have hne : s.entries ≠ [] := by
      intro hnil
      rw [hnil] at hlast
      simp at hlast
    have : 0 < s.entries.length := List.length_pos.mpr hne
    omega

/-- Embeds `cleanup` (transform.ts lines 366-382).  The source walks the
list tail-to-head clamp-subtracting each expired node's size; consecutive
clamped subtractions of non-negative sizes equal one clamped subtraction of
their sum, which is the form used here. -/
def cleanup (now : Int) (s : CacheState) : CacheState :=
  let removed := s.entries.filter (fun e => e.expiresAt ≤ now)
  let s1 : CacheState := { s with
    entries := s.entries.filter (fun e => ! decide (e.expiresAt ≤ now))
    totalBytes := max 0 (s.totalBytes - entrySizes removed) }
  let s2 := evictIfNeeded s1
  { s2 with nextCleanupAt := now + min s2.ttlMs CACHE_CLEANUP_INTERVAL_MS }

/-- Embeds `maybeCleanup` (transform.ts lines 384-390). -/
def maybeCleanup (now : Int) (s : CacheState) : CacheState :=
  if now < s.nextCleanupAt then s else cleanup now s

/-- Embeds `SubscriptionCache.set` (transform.ts lines 321-361). -/
def set (now : Int) (service token : String) (resp : RespModel) (s : CacheState) : CacheState :=
  if resp.status ≠ 200 then s
  else
    let s := maybeCleanup now s
    let key := buildCacheKey service token
    let sizeBytes := estimateResponseSize resp
    if s.maxBytes < sizeBytes then removeKey key s
    else
      let s := removeKey key s
      let s : CacheState := { s with
        entries := { key := key, expiresAt := now + s.ttlMs, sizeBytes := sizeBytes } :: s.entries
        totalBytes := s.totalBytes + (sizeBytes : Int) }
      evictIfNeeded s

/-- The tracked byte total equals the sum of stored entry sizes and keys
are unique — both hold for every state the cache constructs. -/
def Consistent (s : CacheState) : Prop :=
  s.totalBytes = entrySizes s.entries ∧ (s.entries.map (fun e => e.key)).Nodup

/-- Both configured caps are respected. -/
def Bounded (s : CacheState) : Prop :=
  s.entries.length ≤ s.maxEntries ∧ s.totalBytes ≤ (s.maxBytes : Int)

theorem entrySizes_nonneg (l : List Entry) : 0 ≤ entrySizes l := by
  induction l with
  | nil => simp [entrySizes]
  | cons hd tl ih =>
    simp only [entrySizes, List.map_cons, List.sum_cons]
    have : (0 : Int) ≤ hd.sizeBytes := Int.ofNat_nonneg _
    unfold entrySizes at ih
    omega

theorem entrySizes_cons (e : Entry) (l : List Entry) :
    entrySizes (e :: l) = (e.sizeBytes : Int) + entrySizes l := by
  simp [entrySizes]

theorem entrySizes_mem_le (l : List Entry) (e : Entry) (h : e ∈ l) :
    (e.sizeBytes : Int) ≤ entrySizes l := by
  induction l with
  | nil => simp at h
  | cons hd tl ih =>
    rcases List.mem_cons.mp h with h1 | h1
    · subst h1
      rw [entrySizes_cons]
      have := entrySizes_nonneg tl
      omega
    · rw [entrySizes_cons]
      have := ih h1
      have : (0 : Int) ≤ hd.sizeBytes := Int.ofNat_nonneg _
      omega

theorem find_eraseP_facts (l : List Entry) (p : Entry → Bool) (e : Entry)
    (h : l.find? p = some e) :
    e ∈ l ∧
    entrySizes (l.eraseP p) = entrySizes l - (e.sizeBytes : Int) ∧
    (l.eraseP p).length + 1 = l.length ∧
    (∀ x ∈ l.eraseP p, x ∈ l) := by
  induction l with
  | nil => simp at h
  | cons hd tl ih =>
    by_cases hp : p hd
    · rw [List.find?_cons_of_pos _ hp] at h
      injection h with h
      subst h
      rw [List.eraseP_cons_of_pos hp]
      refine ⟨by simp, ?_, by simp, fun x hx => List.mem_cons_of_mem _ hx⟩
      rw [entrySizes_cons]
      ring
    · rw [List.find?_cons_of_neg _ hp] at h
      obtain ⟨hmem, hsz, hlen, hsub⟩ := ih h
      rw [List.eraseP_cons_of_neg hp]
      refine ⟨List.mem_cons_of_mem _ hmem, ?_, by simp [← hlen], ?_⟩
      · rw [entrySizes_cons, entrySizes_cons, hsz]
        ring
      · intro x hx
        rcases List.mem_cons.mp hx with h1 | h1
        · exact h1 ▸ List.mem_cons_self _ _
        · exact List.mem_cons_of_mem _ (hsub x h1)

theorem removeKey_key_absent (l : List Entry) (k : String)
    (hnodup : (l.map (fun e => e.key)).Nodup) :
    ∀ x ∈ l.eraseP (fun e => e.key = k), x.key ≠ k := by
  induction l with
  | nil => simp
  | cons hd tl ih =>
    simp only [List.map_cons, List.nodup_cons] at hnodup
    by_cases hp : hd.key = k
    · have herase : (hd :: tl).eraseP (fun e => e.key = k) = tl := by
        simp [List.eraseP_cons, hp]
      rw [herase]
      intro x hx hxk
      apply hnodup.1
      have hkk : hd.key = x.key := by rw [hp, hxk]
      rw [hkk]
      exact List.mem_map_of_mem _ hx
    · have herase : (hd :: tl).eraseP (fun e => e.key = k) =
          hd :: tl.eraseP (fun e => e.key = k) := by
        simp [List.eraseP_cons, hp]
      rw [herase]
      intro x hx
      rcases List.mem_cons.mp hx with h1 | h1
      · subst h1
        exact hp
      · exact ih hnodup.2 x h1

theorem find_none_key_absent (l : List Entry) (k : String)
    (hfind : l.find? (fun e => e.key = k) = none) :
    ∀ x ∈ l, x.key ≠ k := by
  intro x hx
  have := List.find?_eq_none.mp hfind x hx
  simpa using this

theorem entrySizes_filter_split (l : List Entry) (p : Entry → Bool) :
    entrySizes l = entrySizes (l.filter p) + entrySizes (l.filter (fun e => ! p e)) := by
  induction l with
  | nil => simp [entrySizes]
  | cons hd tl ih =>
    cases hp : p hd with
    | true =>
      simp only [List.filter_cons, hp, Bool.not_true, if_true, entrySizes_cons, ih]
      simp [entrySizes_cons]
      ring
    | false =>
      simp only [List.filter_cons, hp, Bool.not_false, if_true, entrySizes_cons, ih]
      simp [entrySizes_cons]
      ring

theorem entrySizes_append (l₁ l₂ : List Entry) :
    entrySizes (l₁ ++ l₂) = entrySizes l₁ + entrySizes l₂ := by
  simp [entrySizes]

theorem removeKey_facts (k : String) (s : CacheState) (hc : Consistent s) :
    Consistent (removeKey k s) ∧
    (removeKey k s).entries.length ≤ s.entries.length ∧
    (removeKey k s).totalBytes ≤ s.totalBytes ∧
    (∀ x ∈ (removeKey k s).entries, x ∈ s.entries) ∧
    (∀ x ∈ (removeKey k s).entries, x.key ≠ k) ∧
    (removeKey k s).maxEntries = s.maxEntries ∧
    (removeKey k s).maxBytes = s.maxBytes ∧
    (removeKey k s).ttlMs = s.ttlMs := by
  unfold removeKey
  cases hfind : s.entries.find? (fun e => e.key = k) with
  | none =>
    exact ⟨hc, le_refl _, le_refl _, fun x hx => hx,
      fun x hx => find_none_key_absent s.entries k hfind x hx, rfl, rfl, rfl⟩
  | some e =>
    obtain ⟨hmem, hsz, hlen, hsub⟩ := find_eraseP_facts s.entries _ e hfind
    have hszle := entrySizes_mem_le s.entries e hmem
    have h0 := entrySizes_nonneg s.entries
    have hclamp : max 0 (s.totalBytes - (e.sizeBytes : Int)) =
        entrySizes (s.entries.eraseP (fun x => x.key = k)) := by
      rw [hc.1, hsz]
      exact max_eq_right (by omega)
    refine ⟨⟨hclamp, ?_⟩, by simp; omega, ?_, hsub, removeKey_key_absent s.entries k hc.2, rfl, rfl, rfl⟩
    · exact (((List.eraseP_sublist s.entries).map (fun e => e.key)).nodup) hc.2
    · show max 0 (s.totalBytes - (e.sizeBytes : Int)) ≤ s.totalBytes
      rw [hc.1]
      have : (0 : Int) ≤ (e.sizeBytes : Int) := Int.ofNat_nonneg _
      omega

theorem evictIfNeeded_facts (s : CacheState) (hc : Consistent s) :
    Consistent (evictIfNeeded s) ∧
    Bounded (evictIfNeeded s) ∧
    (∀ x ∈ (evictIfNeeded s).entries, x ∈ s.entries) ∧
    (evictIfNeeded s).maxEntries = s.maxEntries ∧
    (evictIfNeeded s).maxBytes = s.maxBytes ∧
    (evictIfNeeded s).ttlMs = s.ttlMs ∧
    (evictIfNeeded s).nextCleanupAt = s.nextCleanupAt := by
  generalize hn : s.entries.length = n
  induction n using Nat.strong_induction_on generalizing s with
  | _ n ih =>
    unfold evictIfNeeded
    split
    · rename_i hcond
      split
      · rename_i hlast
        have hnil : s.entries = [] := by
          cases hcase : s.entries with
          | nil => rfl
          | cons a l => rw [hcase] at hlast; simp at hlast
        refine ⟨hc, ⟨by rw [hnil]; simp, ?_⟩, fun x hx => hx, rfl, rfl, rfl, rfl⟩
        rw [hc.1, hnil]
        show (0 : Int) ≤ s.maxBytes
        exact Int.ofNat_nonneg _
      · rename_i tailEntry hlast
        have hne : s.entries ≠ [] := by
          intro hnil
          rw [hnil] at hlast
          simp at hlast
        have hsplit : s.entries.dropLast ++ [tailEntry] = s.entries := by
          have h1 := List.dropLast_concat_getLast hne
          have h2 : s.entries.getLast hne = tailEntry := by
            have := List.getLast?_eq_getLast s.entries hne
            rw [this] at hlast
            injection hlast
          rw [h2] at h1
          exact h1
        have hsizes : entrySizes s.entries =
            entrySizes s.entries.dropLast + (tailEntry.sizeBytes : Int) := by
          conv_lhs => rw [← hsplit]
          rw [entrySizes_append]
          simp [entrySizes]
        have hdropnn := entrySizes_nonneg s.entries.dropLast
        have hc' : Consistent { s with
            entries := s.entries.dropLast
            totalBytes := max 0 (s.totalBytes - (tailEntry.sizeBytes : Int)) } := by
          constructor
          · show max 0 (s.totalBytes - (tailEntry.sizeBytes : Int)) = entrySizes s.entries.dropLast
            have h1 := hc.1
            omega
          · exact ((List.dropLast_sublist s.entries).map (fun e => e.key)).nodup hc.2
        have hlen : s.entries.dropLast.length < n := by
          rw [← hn, List.length_dropLast]
          have : 0 < s.entries.length := List.length_pos.mpr hne
          omega
        obtain ⟨ih1, ih2, ih3, ih4, ih5, ih6, ih7⟩ :=
          ih s.entries.dropLast.length hlen _ hc' rfl
        refine ⟨ih1, ?_, ?_, ih4, ih5, ih6, ih7⟩
        · exact ih2
        · intro x hx
          have hx' := ih3 x hx
          simp only at hx'
          exact (List.dropLast_sublist s.entries).mem hx'
    · rename_i hcond
      push_neg at hcond
      exact ⟨hc, ⟨hcond.1, hcond.2⟩, fun x hx => hx, rfl, rfl, rfl, rfl⟩

theorem cleanup_facts (now : Int) (s : CacheState) (hc : Consistent s) :
    Consistent (cleanup now s) ∧
    Bounded (cleanup now s) ∧
    (∀ x ∈ (cleanup now s).entries, x ∈ s.entries) ∧
    (cleanup now s).maxEntries = s.maxEntries ∧
    (cleanup now s).maxBytes = s.maxBytes ∧
    (cleanup now s).ttlMs = s.ttlMs := by
  unfold cleanup
  have hsplit := entrySizes_filter_split s.entries (fun e => decide (e.expiresAt ≤ now))
  have hknn := entrySizes_nonneg (s.entries.filter (fun e => ! decide (e.expiresAt ≤ now)))
  have hrnn := entrySizes_nonneg (s.entries.filter (fun e => decide (e.expiresAt ≤ now)))
  have hc1 : Consistent { s with
      entries := s.entries.filter (fun e => ! decide (e.expiresAt ≤ now))
      totalBytes := max 0 (s.totalBytes -
        entrySizes (s.entries.filter (fun e => decide (e.expiresAt ≤ now)))) } := by
    constructor
    · show max 0 (s.totalBytes -
          entrySizes (s.entries.filter (fun e => decide (e.expiresAt ≤ now)))) =
        entrySizes (s.entries.filter (fun e => ! decide (e.expiresAt ≤ now)))
      have h1 := hc.1
      omega
    · exact ((List.filter_sublist s.entries).map (fun e => e.key)).nodup hc.2
  obtain ⟨h1, h2, h3, h4, h5, h6, h7⟩ := evictIfNeeded_facts _ hc1
  refine ⟨⟨h1.1, h1.2⟩, ⟨h2.1, h2.2⟩, ?_, h4, h5, h6⟩
  intro x hx
  have hx' := h3 x hx
  simp only at hx'
  exact (List.filter_sublist s.entries).mem hx'

theorem maybeCleanup_facts (now : Int) (s : CacheState) (hc : Consistent s) :
    Consistent (maybeCleanup now s) ∧
    (Bounded s → Bounded (maybeCleanup now s)) ∧
    (∀ x ∈ (maybeCleanup now s).entries, x ∈ s.entries) ∧
    (maybeCleanup now s).maxEntries = s.maxEntries ∧
    (maybeCleanup now s).maxBytes = s.maxBytes ∧
    (maybeCleanup now s).ttlMs = s.ttlMs := by
  unfold maybeCleanup
  split
  · exact ⟨hc, fun hb => hb, fun x hx => hx, rfl, rfl, rfl⟩
  · obtain ⟨h1, h2, h3, h4, h5, h6⟩ := cleanup_facts now s hc
    exact ⟨h1, fun _ => h2, h3, h4, h5, h6⟩

/-- C5: immediately after every `set`, the tracked byte total is at most
the configured byte cap and the entry count at most the entry cap (and the
state stays consistent); a `set` with a non-200 response changes nothing,
and a `set` whose estimated size exceeds the byte cap stores nothing for
its key (every surviving entry was already present and none carries the
key). -/
theorem subscription_cache_set_invariants (now : Int) (service token : String)
    (resp : RespModel) (s : CacheState) (hc : Consistent s) (hb : Bounded s) :
    Consistent (set now service token resp s) ∧
    Bounded (set now service token resp s) ∧
    (resp.status ≠ 200 → set now service token resp s = s) ∧
    (resp.status = 200 → s.maxBytes < estimateResponseSize resp →
      ∀ x ∈ (set now service token resp s).entries,
        x ∈ s.entries ∧ x.key ≠ buildCacheKey service token) := by
  by_cases hst : resp.status = 200
  · have hne : ¬ (resp.status ≠ 200) := by simp [hst]
    obtain ⟨hmcC, hmcB, hmcSub, hmcE, hmcMB, hmcT⟩ := maybeCleanup_facts now s hc
    by_cases hover : (maybeCleanup now s).maxBytes < estimateResponseSize resp
    · have hset : set now service token resp s =
          removeKey (buildCacheKey service token) (maybeCleanup now s) := by
        simp only [set, hne, if_false, hover, if_true]
      obtain ⟨hrC, hrLen, hrTot, hrSub, hrKey, hrE, hrMB, hrT⟩ :=
        removeKey_facts (buildCacheKey service token) (maybeCleanup now s) hmcC
      rw [hset]
      have hBmc := hmcB hb
      refine ⟨hrC, ⟨?_, ?_⟩, fun h => absurd hst h, ?_⟩
      · rw [hrE, hmcE]
        exact le_trans hrLen (by rw [← hmcE]; exact hBmc.1)
      · rw [hrMB, hmcMB]
        exact le_trans hrTot (by rw [← hmcMB]; exact hBmc.2)
      · intro _ _ x hx
        exact ⟨hmcSub x (hrSub x hx), hrKey x hx⟩
    · have hset : set now service token resp s =
          evictIfNeeded { removeKey (buildCacheKey service token) (maybeCleanup now s) with
            entries := { key := buildCacheKey service token
                         expiresAt := now + (removeKey (buildCacheKey service token)
                           (maybeCleanup now s)).ttlMs
                         sizeBytes := estimateResponseSize resp } ::
              (removeKey (buildCacheKey service token) (maybeCleanup now s)).entries
            totalBytes := (removeKey (buildCacheKey service token)
              (maybeCleanup now s)).totalBytes + (estimateResponseSize resp : Int) } := by
        simp only [set, hne, if_false, hover, if_true]
      obtain ⟨hrC, hrLen, hrTot, hrSub, hrKey, hrE, hrMB, hrT⟩ :=
        removeKey_facts (buildCacheKey service token) (maybeCleanup now s) hmcC
      have hconsIns : Consistent { removeKey (buildCacheKey service token) (maybeCleanup now s) with
          entries := { key := buildCacheKey service token
                       expiresAt := now + (removeKey (buildCacheKey service token)
                         (maybeCleanup now s)).ttlMs
                       sizeBytes := estimateResponseSize resp } ::
            (removeKey (buildCacheKey service token) (maybeCleanup now s)).entries
          totalBytes := (removeKey (buildCacheKey service token)
            (maybeCleanup now s)).totalBytes + (estimateResponseSize resp : Int) } := by
        constructor
        · show _ + _ = entrySizes (_ :: _)
          rw [entrySizes_cons, hrC.1]
          ring
        · simp only [List.map_cons, List.nodup_cons]
          refine ⟨?_, hrC.2⟩
          intro hmem
          obtain ⟨x, hx, hxk⟩ := List.mem_map.mp hmem
          exact hrKey x hx hxk
      obtain ⟨hevC, hevB, hevSub, hevE, hevMB, hevT, hevN⟩ := evictIfNeeded_facts _ hconsIns
      rw [hset]
      refine ⟨hevC, hevB, fun h => absurd hst h, ?_⟩
      intro _ hsize
      exfalso
      rw [hmcMB] at hover
      omega
  · have hset : set now service token resp s = s := by
      simp [set, hst]
    rw [hset]
    exact ⟨hc, hb, fun _ => rfl, fun h200 => absurd h200 hst⟩

def cacheExample : CacheState :=
  { ttlMs := 300000
    maxEntries := 256
    maxBytes := 20971520
    entries := []
    totalBytes := 0
    nextCleanupAt := 50 }

def respExample : RespModel :=
  { status := 200, contentLength := some 100 }

/-- C5 witness: the set-invariants theorem evaluated on an empty cache and
a 100-byte 200 response. -/
theorem subscription_cache_set_invariants_witness :
    Consistent (set 0 "alpha" "tkn" respExample cacheExample) ∧
    Bounded (set 0 "alpha" "tkn" respExample cacheExample) := by
  have h := subscription_cache_set_invariants 0 "alpha" "tkn" respExample cacheExample
    ⟨rfl, by decide⟩ ⟨by decide, by decide⟩
  exact ⟨h.1, h.2.1⟩

end SubscriptionCache

/-! ## Bounded subscription body read (src/subscription/proxy.ts)

`readResponseBodyWithLimit` reads a streamed body into a dynamically grown
contiguous buffer under a strict byte cap.  The stream is embedded as the
list of chunks `reader.read()` yields (each a byte list); the buffer's
content bookkeeping (copy на grow, write at offset, final slice) amounts to
the concatenation of the accepted chunks, while the capacity is tracked as
a number because only the capacity comparisons are observable.  The
capacity-doubling `while` loop is embedded with explicit fuel; the caller
passes `maxBytes` fuel, which exceeds the loop's step count since the
capacity starts at ≥ 1 and strictly increases below `maxBytes`. -/

def MAX_RESPONSE_SIZE_BYTES : Nat := 10 * 1024 * 1024

def INITIAL_READ_BUFFER_BYTES : Nat := 16 * 1024

inductive ReadError where
  | sizeLimitExceeded
  deriving DecidableEq, Repr

/-- The capacity-doubling loop (proxy.ts lines 210-214):
`while (nextCapacity < required && nextCapacity < maxBytes)
   nextCapacity = Math.min(maxBytes, nextCapacity * 2)`. -/
def growCapacity (fuel maxBytes required next : Nat) : Nat :=
  match fuel with
  | 0 => next
  | fuel + 1 =>
    if next < required ∧ next < maxBytes then
      growCapacity fuel maxBytes required (min maxBytes (next * 2))
    else next

/-- The read loop of `readResponseBodyWithLimit` (proxy.ts lines 191-227):
reject as soon as the accumulated length exceeds the cap, otherwise grow
the buffer when needed and append the chunk. -/
def readLoop (maxBytes : Nat) : List (List Nat) → List Nat → Nat → Except ReadError (List Nat)
  | [], acc, _ => Except.ok acc
  | chunk :: rest, acc, capacity =>
    let totalLength := acc.length + chunk.length
    if maxBytes < totalLength then Except.error ReadError.sizeLimitExceeded
    else
      let capacity' :=
        if capacity < totalLength then growCapacity maxBytes maxBytes totalLength capacity
        else capacity
      if capacity' < totalLength then Except.error ReadError.sizeLimitExceeded
      else readLoop maxBytes rest (acc ++ chunk) capacity'

/-- Embeds `readResponseBodyWithLimit` (proxy.ts lines 167-233), after
header parsing: a declared `content-length` beyond the cap rejects
immediately; a declared zero length or an absent body reads as empty;
otherwise the loop runs with the initial buffer
`max(1, min(maxBytes, contentLength ?? INITIAL_READ_BUFFER_BYTES))`. -/
def readResponseBodyWithLimit (contentLength : Option Nat)
    (body : Option (List (List Nat))) (maxBytes : Nat) : Except ReadError (List Nat) :=
  match contentLength with
  | some n =>
    if maxBytes < n then Except.error ReadError.sizeLimitExceeded
    else if n = 0 then Except.ok []
    else
      match body with
      | none => Except.ok []
      | some chunks => readLoop maxBytes chunks [] (max 1 (min maxBytes n))
  | none =>
    match body with
    | none => Except.ok []
    | some chunks => readLoop maxBytes chunks [] (max 1 (min maxBytes INITIAL_READ_BUFFER_BYTES))

/-- The error-to-status mapping of `proxySubscriptionRequest` (proxy.ts
lines 280-317): a successful read forwards the upstream status; a
size-limit error produces the 502 size-limit response. -/
def proxyResponseStatus (upstreamStatus : Nat) : Except ReadError (List Nat) → Nat
  | Except.ok _ => upstreamStatus
  | Except.error ReadError.sizeLimitExceeded => 502

theorem growCapacity_facts (fuel : Nat) :
    ∀ maxBytes required next : Nat, 1 ≤ next → required ≤ maxBytes → next ≤ maxBytes →
      maxBytes ≤ next + fuel →
      required ≤ growCapacity fuel maxBytes required next ∧
      next ≤ growCapacity fuel maxBytes required next ∧
      growCapacity fuel maxBytes required next ≤ maxBytes := by
  induction fuel with
  | zero =>
    intro maxBytes required next h1 h2 h3 h4
    unfold growCapacity
    omega
  | succ fuel ih =>
    intro maxBytes required next h1 h2 h3 h4
    unfold growCapacity
    split
    · rename_i hcond
      have hnext : next + 1 ≤ min maxBytes (next * 2) := by omega
      obtain ⟨g1, g2, g3⟩ := ih maxBytes required (min maxBytes (next * 2))
        (by omega) h2 (by omega) (by omega)
      exact ⟨g1, by omega, g3⟩
    · rename_i hcond
      push_neg at hcond
      refine ⟨?_, le_refl _, h3⟩
      by_cases hr : required ≤ next
      · exact hr
      · have := hcond (by omega)
        omega

theorem readLoop_ok (maxBytes : Nat) (chunks : List (List Nat)) :
    ∀ acc : List Nat, ∀ capacity : Nat,
      1 ≤ capacity → capacity ≤ maxBytes →
      acc.length + chunks.flatten.length ≤ maxBytes →
      readLoop maxBytes chunks acc capacity = Except.ok (acc ++ chunks.flatten) := by
  induction chunks with
  | nil =>
    intro acc capacity h1 h2 h3
    simp [readLoop]
  | cons chunk rest ih =>
    intro acc capacity h1 h2 h3
    simp only [List.flatten_cons, List.length_append] at h3
    unfold readLoop
    have htot : acc.length + chunk.length ≤ maxBytes := by omega
    rw [if_neg (by omega)]
    by_cases hgrow : capacity < acc.length + chunk.length
    · simp only [hgrow, if_true]
      obtain ⟨g1, g2, g3⟩ := growCapacity_facts maxBytes maxBytes
        (acc.length + chunk.length) capacity h1 htot h2 (by omega)
      rw [if_neg (by omega)]
      rw [ih (acc ++ chunk) _ (by omega) g3 (by rw [List.length_append]; omega)]
      simp
    · simp only [hgrow, if_false]
      rw [ih (acc ++ chunk) capacity h1 h2 (by rw [List.length_append]; omega)]
      simp

theorem readLoop_over (maxBytes : Nat) (chunks : List (List Nat)) :
    ∀ acc : List Nat, ∀ capacity : Nat,
      acc.length ≤ maxBytes →
      maxBytes < acc.length + chunks.flatten.length →
      readLoop maxBytes chunks acc capacity = Except.error ReadError.sizeLimitExceeded := by
  induction chunks with
  | nil =>
    intro acc capacity h1 h2
    simp at h2
    omega
  | cons chunk rest ih =>
    intro acc capacity h1 h2
    simp only [List.flatten_cons, List.length_append] at h2
    unfold readLoop
    by_cases hfirst : maxBytes < acc.length + chunk.length
    · rw [if_pos hfirst]
    · rw [if_neg hfirst]
      split
      · show (if growCapacity maxBytes maxBytes (acc.length + chunk.length) capacity <
              acc.length + chunk.length then Except.error ReadError.sizeLimitExceeded
            else readLoop maxBytes rest (acc ++ chunk)
              (growCapacity maxBytes maxBytes (acc.length + chunk.length) capacity)) =
          Except.error ReadError.sizeLimitExceeded
        split
        · rfl
        · exact ih (acc ++ chunk) _ (by rw [List.length_append]; omega)
            (by rw [List.length_append]; omega)
      · show (if capacity < acc.length + chunk.length then
              Except.error ReadError.sizeLimitExceeded
            else readLoop maxBytes rest (acc ++ chunk) capacity) =
          Except.error ReadError.sizeLimitExceeded
        split
        · rfl
        · exact ih (acc ++ chunk) _ (by rw [List.length_append]; omega)
            (by rw [List.length_append]; omega)

/-- C6: a subscription body of exactly 10 MiB (with an absent or truthful
`content-length`) is read in full and unchanged, and the request forwards
the upstream status; a body of 10 MiB + 1 bytes — or a `content-length`
declaring more than 10 MiB — fails the bounded read with the size-limit
error, and the request yields the 502 size-limit response. -/
theorem subscription_read_limit_boundary (contentLength : Option Nat)
    (chunks : List (List Nat)) (upstreamStatus : Nat)
    (hcl : contentLength = none ∨ contentLength = some chunks.flatten.length) :
    (chunks.flatten.length = MAX_RESPONSE_SIZE_BYTES →
      readResponseBodyWithLimit contentLength (some chunks) MAX_RESPONSE_SIZE_BYTES =
        Except.ok chunks.flatten ∧
      proxyResponseStatus upstreamStatus
        (readResponseBodyWithLimit contentLength (some chunks) MAX_RESPONSE_SIZE_BYTES) =
        upstreamStatus) ∧
    (chunks.flatten.length = MAX_RESPONSE_SIZE_BYTES + 1 →
      readResponseBodyWithLimit contentLength (some chunks) MAX_RESPONSE_SIZE_BYTES =
        Except.error ReadError.sizeLimitExceeded ∧
      proxyResponseStatus upstreamStatus
        (readResponseBodyWithLimit contentLength (some chunks) MAX_RESPONSE_SIZE_BYTES) =
        502) ∧
    (∀ n, MAX_RESPONSE_SIZE_BYTES < n →
      ∀ body, readResponseBodyWithLimit (some n) body MAX_RESPONSE_SIZE_BYTES =
        Except.error ReadError.sizeLimitExceeded) := by
  have hmax1 : 1 ≤ MAX_RESPONSE_SIZE_BYTES := by norm_num [MAX_RESPONSE_SIZE_BYTES]
  refine ⟨?_, ?_, ?_⟩
  · intro hlen
    have hok : readResponseBodyWithLimit contentLength (some chunks) MAX_RESPONSE_SIZE_BYTES =
        Except.ok chunks.flatten := by
      rcases hcl with hcl | hcl
      · subst hcl
        show readLoop MAX_RESPONSE_SIZE_BYTES chunks []
            (max 1 (min MAX_RESPONSE_SIZE_BYTES INITIAL_READ_BUFFER_BYTES)) = _
        have := readLoop_ok MAX_RESPONSE_SIZE_BYTES chunks []
          (max 1 (min MAX_RESPONSE_SIZE_BYTES INITIAL_READ_BUFFER_BYTES))
          (le_max_left _ _) (by omega) (by simp [hlen])
        simpa using this
      · subst hcl
        rw [hlen]
        simp only [readResponseBodyWithLimit]
        rw [if_neg (by omega), if_neg (by omega)]
        have := readLoop_ok MAX_RESPONSE_SIZE_BYTES chunks []
          (max 1 (min MAX_RESPONSE_SIZE_BYTES MAX_RESPONSE_SIZE_BYTES))
          (le_max_left _ _) (by omega) (by simp [hlen])
        simpa using this
    exact ⟨hok, by rw [hok]; rfl⟩
  · intro hlen
    have herr : readResponseBodyWithLimit contentLength (some chunks) MAX_RESPONSE_SIZE_BYTES =
        Except.error ReadError.sizeLimitExceeded := by
      rcases hcl with hcl | hcl
      · subst hcl
        show readLoop MAX_RESPONSE_SIZE_BYTES chunks []
            (max 1 (min MAX_RESPONSE_SIZE_BYTES INITIAL_READ_BUFFER_BYTES)) = _
        exact readLoop_over MAX_RESPONSE_SIZE_BYTES chunks [] _ (by simp) (by simp [hlen])
      · subst hcl
        rw [hlen]
        simp only [readResponseBodyWithLimit]
        rw [if_pos (by omega)]
    exact ⟨herr, by rw [herr]; rfl⟩
  · intro n hn body
    simp only [readResponseBodyWithLimit]
    rw [if_pos hn]

/-- C6 witness: the boundary theorem applied to a single-chunk body of
exactly 10 MiB with the header absent. -/
theorem subscription_read_limit_boundary_witness :
    readResponseBodyWithLimit none (some [List.replicate MAX_RESPONSE_SIZE_BYTES 7])
        MAX_RESPONSE_SIZE_BYTES =
      Except.ok ([List.replicate MAX_RESPONSE_SIZE_BYTES 7] : List (List Nat)).join :=
  ((subscription_read_limit_boundary none [List.replicate MAX_RESPONSE_SIZE_BYTES 7] 200
    (Or.inl rfl)).1 (by simp)).1

/-! ## Weighted backend selection (src/backend.ts)

`BackendManager.getBackend` with the Vose alias tables.  Backends are the
list of runtime states in configured order; `initializeBackends`
re-indexes them so that each backend's `index` field equals its list
position, so candidate sets are embedded as `(position, backend)` pairs.
`Math.random()` draws become explicit rational streams (one pair of draws
per `sampleAliasTable` call; the healthy-subset pass and the full-set pass
receive separate streams).  JavaScript `Array.prototype.push`/`pop`
operate on the array end; the work stacks are embedded head-as-top, with
the initial stacks reversed so that pop order matches the source.  The
opportunistic health-probe scheduling at the top of `getBackend` mutates
no selection state synchronously and is omitted. -/

namespace Pool

def DEFAULT_BACKEND_WEIGHT : Nat := 1

def ALIAS_MIN_SAMPLE_ATTEMPTS : Nat := 4

def ALIAS_SAMPLE_ATTEMPTS_MULTIPLIER : Nat := 2

/-- Canonical form of `DEFAULT_BACKEND_URL` (config.ts). -/
def DEFAULT_BACKEND_URL_KEY : String := "http://127.0.0.1:10000/"

structure PoolBackend where
  /-- canonical URL string, the pool's lookup key -/
  key : String
  weight : Nat
  healthy : Bool
  deriving DecidableEq, Repr

structure AliasTable where
  probabilities : List ℚ
  aliases : List Nat
  backendIndexes : List Nat
  deriving DecidableEq, Repr

structure PoolState where
  backends : List PoolBackend
  stickySession : Bool
  deriving DecidableEq, Repr

def enumFrom (i : Nat) : List PoolBackend → List (Nat × PoolBackend)
  | [] => []
  | b :: rest => (i, b) :: enumFrom (i + 1) rest

/-- The `while (small.length > 0 && large.length > 0)` loop of
`buildAliasTable` (backend.ts lines 217-252) together with the two drain
loops; stacks are head-as-top. -/
def drainStack : List ℚ → List Nat → List Nat → List ℚ × List Nat
  | probs, aliases, [] => (probs, aliases)
  | probs, aliases, i :: rest => drainStack (probs.set i 1) (aliases.set i i) rest

def voseLoop (probs : List ℚ) (aliases : List Nat) (scaled : List ℚ) :
    List Nat → List Nat → List ℚ × List Nat
  | less :: small, more :: large =>
    if scaled.getD more 0 + scaled.getD less 0 - 1 < 1 then
      voseLoop (probs.set less (scaled.getD less 0)) (aliases.set less more)
        (scaled.set more (scaled.getD more 0 + scaled.getD less 0 - 1)) (more :: small) large
    else
      voseLoop (probs.set less (scaled.getD less 0)) (aliases.set less more)
        (scaled.set more (scaled.getD more 0 + scaled.getD less 0 - 1)) small (more :: large)
  | small, large =>
    drainStack (drainStack probs aliases large).1 (drainStack probs aliases large).2 small
  termination_by small large => small.length + large.length
  decreasing_by
    all_goals simp
    all_goals omega

/-- The size ≥ 2 body of `buildAliasTable` (backend.ts lines 178-258):
degenerate all-ones table when the summed weight is non-positive (dead in
practice since clamped weights are ≥ 1), otherwise the Vose construction. -/
def buildAliasTableMulti (candidates : List (Nat × PoolBackend)) : AliasTable :=
  let size := candidates.length
  let backendIndexes := candidates.map Prod.fst
  let totalWeight : Nat := (candidates.map (fun c => max DEFAULT_BACKEND_WEIGHT c.2.weight)).sum
  if totalWeight = 0 then
    { probabilities := List.replicate size 1
      aliases := List.range size
      backendIndexes := backendIndexes }
  else
    let scaled := candidates.map
      (fun c => ((max DEFAULT_BACKEND_WEIGHT c.2.weight : Nat) : ℚ) * size / totalWeight)
    let small := ((List.range size).filter (fun i => decide (scaled.getD i 0 < 1))).reverse
    let large := ((List.range size).filter (fun i => ! decide (scaled.getD i 0 < 1))).reverse
    let pa := voseLoop (List.replicate size 0) (List.replicate size 0) scaled small large
    { probabilities := pa.1, aliases := pa.2, backendIndexes := backendIndexes }

/-- Embeds `buildAliasTable` (backend.ts lines 157-259). -/
def buildAliasTable (candidates : List (Nat × PoolBackend)) : Option AliasTable :=
  match candidates with
  | [] => none
  | [only] =>
    some { probabilities := [1], aliases := [0], backendIndexes := [only.1] }
  | _ => some (buildAliasTableMulti candidates)

/-- Embeds `sampleAliasTable` (backend.ts lines 261-278); the two uniform
draws are explicit. -/
def sampleAliasTable (table : AliasTable) (r1 r2 : ℚ) : Int :=
  let size := table.backendIndexes.length
  if size = 0 then -1
  else if size = 1 then ((table.backendIndexes.get? 0).map Int.ofNat).getD (-1)
  else
    let bucket := (⌊r1 * (size : ℚ)⌋).toNat
    let threshold := table.probabilities.getD bucket 1
    let aliasPosition := table.aliases.getD bucket bucket
    let selectedPosition := if r2 < threshold then bucket else aliasPosition
    ((table.backendIndexes.get? selectedPosition).map Int.ofNat).getD (-1)

/-- The bounded sampling loop of `pickFromAlias` (backend.ts lines
730-742); `i` numbers the draws consumed so far. -/
def sampleLoop (backends : List PoolBackend) (table : AliasTable)
    (excluded : List String) (draws : Nat → ℚ × ℚ) :
    Nat → Nat → Option PoolBackend
  | 0, _ => none
  | n + 1, i =>
    let selectedIndex := sampleAliasTable table (draws i).1 (draws i).2
    if selectedIndex < 0 then sampleLoop backends table excluded draws n (i + 1)
    else
      match backends.get? selectedIndex.toNat with
      | none => sampleLoop backends table excluded draws n (i + 1)
      | some candidate =>
        if candidate.key ∈ excluded then sampleLoop backends table excluded draws n (i + 1)
        else some candidate

/-- The in-order scan over `table.backendIndexes` (backend.ts lines
744-751). -/
def scanList (backends : List PoolBackend) (excluded : List String) :
    List Nat → Option PoolBackend
  | [] => none
  | idx :: rest =>
    match backends.get? idx with
    | none => scanList backends excluded rest
    | some candidate =>
      if candidate.key ∈ excluded then scanList backends excluded rest
      else some candidate

/-- Embeds `pickFromAlias` (backend.ts lines 715-754). -/
def pickFromAlias (backends : List PoolBackend) (table : Option AliasTable)
    (excluded : List String) (draws : Nat → ℚ × ℚ) : Option PoolBackend :=
  match table with
  | none => none
  | some table =>
    if table.backendIndexes.length = 0 then none
    else if excluded = [] then
      let selectedIndex := sampleAliasTable table (draws 0).1 (draws 0).2
      if 0 ≤ selectedIndex then backends.get? selectedIndex.toNat else none
    else
      let sampleAttempts := max ALIAS_MIN_SAMPLE_ATTEMPTS
        (table.backendIndexes.length * ALIAS_SAMPLE_ATTEMPTS_MULTIPLIER)
      match sampleLoop backends table excluded draws sampleAttempts 0 with
      | some candidate => some candidate
      | none => scanList backends excluded table.backendIndexes

/-- Embeds `pickByOrder` (backend.ts lines 697-713). -/
def pickByOrder (candidates : List PoolBackend) (excluded : List String)
    (healthyOnly : Bool) : Option PoolBackend :=
  candidates.find? (fun c => (! healthyOnly || c.healthy) && ! decide (c.key ∈ excluded))

/-- The healthy-subset candidates in configured order, as
`rebuildHealthySelectionStructures` collects them. -/
def healthyCandidates (st : PoolState) : List (Nat × PoolBackend) :=
  (enumFrom 0 st.backends).filter (fun p => p.2.healthy)

def healthyAliasTable (st : PoolState) : Option AliasTable :=
  buildAliasTable (healthyCandidates st)

def allAliasTable (st : PoolState) : Option AliasTable :=
  buildAliasTable (enumFrom 0 st.backends)

/-- Embeds `pickStickyHealthy` (backend.ts lines 684-695); the min-index
heap holds exactly the healthy indexes, so its peek is the smallest
healthy index. -/
def pickStickyHealthy (st : PoolState) (excluded : List String) : Option PoolBackend :=
  let topHealthyIndex := ((List.range st.backends.length).filter
    (fun i => (st.backends.get? i).any (fun b => b.healthy))).head?
  match topHealthyIndex with
  | some i =>
    match st.backends.get? i with
    | some candidate =>
      if candidate.healthy ∧ candidate.key ∉ excluded then some candidate
      else pickByOrder st.backends excluded true
    | none => pickByOrder st.backends excluded true
  | none => pickByOrder st.backends excluded true

/-- Embeds `createFallbackBackend` (backend.ts lines 626-636). -/
def createFallbackBackend : PoolBackend :=
  { key := DEFAULT_BACKEND_URL_KEY, weight := DEFAULT_BACKEND_WEIGHT, healthy := true }

/-- Embeds `getBackend` (backend.ts lines 469-489): healthy pick, full-set
fallback pick, then the first configured backend (or the synthetic
default when the pool is empty). -/
def getBackend (st : PoolState) (excludedKeys : List String)
    (drawsHealthy drawsAny : Nat → ℚ × ℚ) : PoolBackend :=
  let healthyPick :=
    if st.stickySession then pickStickyHealthy st excludedKeys
    else pickFromAlias st.backends (healthyAliasTable st) excludedKeys drawsHealthy
  match healthyPick with
  | some b => b
  | none =>
    let anyPick :=
      if st.stickySession then pickByOrder st.backends excludedKeys false
      else pickFromAlias st.backends (allAliasTable st) excludedKeys drawsAny
    match anyPick with
    | some b => b
    | none => st.backends.headD createFallbackBackend

theorem enumFrom_mem_get (l : List PoolBackend) :
    ∀ i p, p ∈ enumFrom i l → i ≤ p.1 ∧ l.get? (p.1 - i) = some p.2 := by
  induction l with
  | nil => intro i p hp; simp [enumFrom] at hp
  | cons b rest ih =>
    intro i p hp
    simp only [enumFrom, List.mem_cons] at hp
    rcases hp with hp | hp
    · subst hp
      simp
    · obtain ⟨h1, h2⟩ := ih (i + 1) p hp
      refine ⟨by omega, ?_⟩
      have hsub : p.1 - i = (p.1 - (i + 1)) + 1 := by omega
      rw [hsub]
      simpa using h2

theorem get_mem_enumFrom (l : List PoolBackend) :
    ∀ i j b, l.get? j = some b → (i + j, b) ∈ enumFrom i l := by
  induction l with
  | nil => intro i j b h; simp at h
  | cons hd rest ih =>
    intro i j b h
    cases j with
    | zero =>
      simp at h
      simp [enumFrom, h]
    | succ j =>
      simp only [List.get?_cons_succ] at h
      have := ih (i + 1) j b h
      simp only [enumFrom, List.mem_cons]
      right
      have harith : i + 1 + j = i + (j + 1) := by omega
      rw [← harith]
      exact this

theorem drainStack_facts (n : Nat) :
    ∀ stack probs aliases, aliases.length = n → (∀ a ∈ aliases, a < n) →
      (∀ i ∈ stack, i < n) →
      (drainStack probs aliases stack).2.length = n ∧
      (∀ a ∈ (drainStack probs aliases stack).2, a < n) := by
  intro stack
  induction stack with
  | nil => intro probs aliases h1 h2 _; exact ⟨h1, h2⟩
  | cons i rest ih =>
    intro probs aliases h1 h2 h3
    simp only [drainStack]
    apply ih
    · simp [h1]
    · intro a ha
      rcases List.mem_or_eq_of_mem_set ha with h | h
      · exact h2 a h
      · rw [h]; exact h3 i (by simp)
    · intro j hj
      exact h3 j (by simp [hj])

theorem voseLoop_facts (n : Nat) :
    ∀ small large probs aliases scaled, aliases.length = n → (∀ a ∈ aliases, a < n) →
      (∀ i ∈ small, i < n) → (∀ i ∈ large, i < n) →
      (voseLoop probs aliases scaled small large).2.length = n ∧
      (∀ a ∈ (voseLoop probs aliases scaled small large).2, a < n) := by
  intro small large
  generalize hm : small.length + large.length = m
  induction m using Nat.strong_induction_on generalizing small large with
  | _ m ih =>
    intro probs aliases scaled h1 h2 h3 h4
    match small, large with
    | [], large =>
      unfold voseLoop
      obtain ⟨d1, d2⟩ := drainStack_facts n large probs aliases h1 h2 h4
      exact drainStack_facts n [] _ _ d1 d2 (by simp)
    | less :: small, [] =>
      unfold voseLoop
      obtain ⟨d1, d2⟩ := drainStack_facts n [] probs aliases h1 h2 (by simp)
      exact drainStack_facts n (less :: small) _ _ d1 d2 h3
    | less :: small, more :: large =>
      unfold voseLoop
      have hless : less < n := h3 less (by simp)
      have hmore : more < n := h4 more (by simp)
      have halias : ∀ a ∈ aliases.set less more, a < n := by
        intro a ha
        rcases List.mem_or_eq_of_mem_set ha with h | h
        · exact h2 a h
        · rw [h]; exact hmore
      have hlen : (aliases.set less more).length = n := by simp [h1]
      have hsmall : ∀ i ∈ small, i < n := fun i hi => h3 i (by simp [hi])
      have hlarge : ∀ i ∈ large, i < n := fun i hi => h4 i (by simp [hi])
      split
      · exact ih ((more :: small).length + large.length) (by simp at hm ⊢; omega)
          (more :: small) large rfl _ _ _ hlen halias
          (by intro i hi; rcases List.mem_cons.mp hi with h | h
              · rw [h]; exact hmore
              · exact hsmall i h)
          hlarge
      · exact ih (small.length + (more :: large).length) (by simp at hm ⊢; omega)
          small (more :: large) rfl _ _ _ hlen halias hsmall
          (by intro i hi; rcases List.mem_cons.mp hi with h | h
              · rw [h]; exact hmore
              · exact hlarge i h)

theorem buildAliasTableMulti_backendIndexes (candidates : List (Nat × PoolBackend)) :
    (buildAliasTableMulti candidates).backendIndexes = candidates.map Prod.fst := by
  simp only [buildAliasTableMulti]
  split <;> rfl

theorem buildAliasTableMulti_aliases_bound (candidates : List (Nat × PoolBackend)) :
    (buildAliasTableMulti candidates).aliases.length = candidates.length ∧
    ∀ a ∈ (buildAliasTableMulti candidates).aliases, a < candidates.length := by
  simp only [buildAliasTableMulti]
  split
  · refine ⟨by simp, ?_⟩
    intro x hx
    simpa using List.mem_range.mp (by simpa using hx)
  · exact voseLoop_facts (candidates.length) _ _
      (List.replicate candidates.length 0)
      (List.replicate candidates.length 0)
      _
      (by simp)
      (by intro x hx
          obtain ⟨hn, hx0⟩ := List.mem_replicate.mp hx
          subst hx0
          omega)
      (by intro i hi
          rw [List.mem_reverse] at hi
          exact List.mem_range.mp (List.mem_of_mem_filter hi))
      (by intro i hi
          rw [List.mem_reverse] at hi
          exact List.mem_range.mp (List.mem_of_mem_filter hi))

theorem buildAliasTable_some (candidates : List (Nat × PoolBackend))
    (hne : candidates ≠ []) : ∃ t, buildAliasTable candidates = some t := by
  match candidates with
  | [] => exact absurd rfl hne
  | [only] => exact ⟨_, rfl⟩
  | a :: b :: rest => exact ⟨_, rfl⟩

theorem buildAliasTable_backendIndexes (candidates : List (Nat × PoolBackend))
    (t : AliasTable) (h : buildAliasTable candidates = some t) :
    t.backendIndexes = candidates.map Prod.fst := by
  match candidates with
  | [] => simp [buildAliasTable] at h
  | [only] =>
    simp only [buildAliasTable, Option.some_inj] at h
    rw [← h]
    rfl
  | a :: b :: rest =>
    have h' : buildAliasTableMulti (a :: b :: rest) = t := Option.some_inj.mp h
    rw [← h']
    exact buildAliasTableMulti_backendIndexes _

theorem buildAliasTable_aliases_bound (candidates : List (Nat × PoolBackend))
    (t : AliasTable) (h : buildAliasTable candidates = some t) :
    t.aliases.length = candidates.length ∧ ∀ a ∈ t.aliases, a < candidates.length := by
  match candidates with
  | [] => simp [buildAliasTable] at h
  | [only] =>
    simp only [buildAliasTable, Option.some_inj] at h
    rw [← h]
    simp
  | a :: b :: rest =>
    have h' : buildAliasTableMulti (a :: b :: rest) = t := Option.some_inj.mp h
    rw [← h']
    exact buildAliasTableMulti_aliases_bound _

theorem getD_sentinel (l : List Nat) (pos : Nat) :
    ((l.get? pos).map Int.ofNat).getD (-1) = -1 ∨
      ∃ idx ∈ l, ((l.get? pos).map Int.ofNat).getD (-1) = Int.ofNat idx := by
  cases hget : l.get? pos with
  | none => simp
  | some idx =>
    right
    exact ⟨idx, List.get?_mem hget, by simp⟩

theorem sampleAliasTable_mem (table : AliasTable) (r1 r2 : ℚ) :
    sampleAliasTable table r1 r2 = -1 ∨
      ∃ idx ∈ table.backendIndexes, sampleAliasTable table r1 r2 = Int.ofNat idx := by
  simp only [sampleAliasTable]
  split
  · exact Or.inl rfl
  · split
    · exact getD_sentinel _ _
    · exact getD_sentinel _ _

theorem sampleAliasTable_valid (table : AliasTable) (r1 r2 : ℚ)
    (hlen : ¬ table.backendIndexes.length = 0)
    (halen : table.aliases.length = table.backendIndexes.length)
    (hab : ∀ a ∈ table.aliases, a < table.backendIndexes.length)
    (hr0 : 0 ≤ r1) (hr1 : r1 < 1) :
    ∃ idx ∈ table.backendIndexes, sampleAliasTable table r1 r2 = Int.ofNat idx := by
  simp only [sampleAliasTable]
  rw [if_neg hlen]
  by_cases h1 : table.backendIndexes.length = 1
  · rw [if_pos h1]
    have h0 : 0 < table.backendIndexes.length := by omega
    rw [List.get?_eq_get h0]
    refine ⟨table.backendIndexes.get ⟨0, h0⟩, List.get_mem _ _ _, by simp⟩
  · rw [if_neg h1]
    have hnpos : (0 : ℚ) < (table.backendIndexes.length : ℚ) := by
      have : 0 < table.backendIndexes.length := by omega
      exact_mod_cast this
    have hprod0 : (0 : ℚ) ≤ r1 * (table.backendIndexes.length : ℚ) :=
      mul_nonneg hr0 (le_of_lt hnpos)
    have hprodlt : r1 * (table.backendIndexes.length : ℚ) <
        (table.backendIndexes.length : ℚ) := by
      calc r1 * (table.backendIndexes.length : ℚ)
          < 1 * (table.backendIndexes.length : ℚ) :=
            mul_lt_mul_of_pos_right hr1 hnpos
        _ = (table.backendIndexes.length : ℚ) := one_mul _
    have hfloor : ⌊r1 * (table.backendIndexes.length : ℚ)⌋ <
        (table.backendIndexes.length : ℤ) := by
      rw [Int.floor_lt]
      exact_mod_cast hprodlt
    have hbucket : (⌊r1 * (table.backendIndexes.length : ℚ)⌋).toNat <
        table.backendIndexes.length := by omega
    have hsel : (if r2 < table.probabilities.getD
          (⌊r1 * (table.backendIndexes.length : ℚ)⌋).toNat 1
        then (⌊r1 * (table.backendIndexes.length : ℚ)⌋).toNat
        else table.aliases.getD (⌊r1 * (table.backendIndexes.length : ℚ)⌋).toNat
          (⌊r1 * (table.backendIndexes.length : ℚ)⌋).toNat) <
        table.backendIndexes.length := by
      split
      · exact hbucket
      · have hbl : (⌊r1 * (table.backendIndexes.length : ℚ)⌋).toNat <
            table.aliases.length := by omega
        have hmem : table.aliases.getD
            (⌊r1 * (table.backendIndexes.length : ℚ)⌋).toNat
            (⌊r1 * (table.backendIndexes.length : ℚ)⌋).toNat ∈ table.aliases := by
          rw [List.getD_eq_get? , List.get?_eq_get hbl]
          simp only [Option.getD_some]
          exact List.get_mem _ _ _
        exact hab _ hmem
    rw [List.get?_eq_get hsel]
    refine ⟨table.backendIndexes.get ⟨_, hsel⟩, List.get_mem _ _ _, by simp⟩

theorem sampleLoop_some (backends : List PoolBackend) (table : AliasTable)
    (excluded : List String) (draws : Nat → ℚ × ℚ) :
    ∀ n i c, sampleLoop backends table excluded draws n i = some c →
      c.key ∉ excluded ∧ ∃ idx ∈ table.backendIndexes, backends.get? idx = some c := by
  intro n
  induction n with
  | zero => intro i c h; simp [sampleLoop] at h
  | succ n ih =>
    intro i c h
    simp only [sampleLoop] at h
    split at h
    · exact ih _ _ h
    · next hneg =>
      split at h
      · exact ih _ _ h
      · next candidate hget =>
        split at h
        · exact ih _ _ h
        · next hexc =>
          have hcand : candidate = c := Option.some_inj.mp h
          subst hcand
          refine ⟨hexc, ?_⟩
          rcases sampleAliasTable_mem table (draws i).1 (draws i).2 with hm | ⟨idx, hmem, hval⟩
          · rw [hm] at hneg
            omega
          · rw [hval] at hget
            exact ⟨idx, hmem, by simpa using hget⟩

theorem scanList_some (backends : List PoolBackend) (excluded : List String) :
    ∀ idxs c, scanList backends excluded idxs = some c →
      c.key ∉ excluded ∧ ∃ idx ∈ idxs, backends.get? idx = some c := by
  intro idxs
  induction idxs with
  | nil => intro c h; simp [scanList] at h
  | cons idx rest ih =>
    intro c h
    simp only [scanList] at h
    split at h
    · obtain ⟨h1, idx2, h2, h3⟩ := ih _ h
      exact ⟨h1, idx2, by simp [h2], h3⟩
    · next candidate hget =>
      split at h
      · obtain ⟨h1, idx2, h2, h3⟩ := ih _ h
        exact ⟨h1, idx2, by simp [h2], h3⟩
      · next hexc =>
        have hcand : candidate = c := Option.some_inj.mp h
        subst hcand
        exact ⟨hexc, idx, by simp, hget⟩

theorem scanList_isSome (backends : List PoolBackend) (excluded : List String) :
    ∀ idxs, (∃ idx ∈ idxs, ∃ b, backends.get? idx = some b ∧ b.key ∉ excluded) →
      ∃ c, scanList backends excluded idxs = some c := by
  intro idxs
  induction idxs with
  | nil => intro ⟨idx, hmem, _⟩; simp at hmem
  | cons j rest ih =>
    intro ⟨idx, hmem, b, hget, hexc⟩
    simp only [scanList]
    rcases List.mem_cons.mp hmem with heq | hmem
    · subst heq
      simp only [hget]
      rw [if_neg hexc]
      exact ⟨b, rfl⟩
    · cases hj : backends.get? j with
      | none =>
        simp only [hj]
        exact ih ⟨idx, hmem, b, hget, hexc⟩
      | some candidate =>
        simp only [hj]
        by_cases hce : candidate.key ∈ excluded
        · rw [if_pos hce]
          exact ih ⟨idx, hmem, b, hget, hexc⟩
        · rw [if_neg hce]
          exact ⟨candidate, rfl⟩

theorem pickFromAlias_sound (backends : List PoolBackend) (t : AliasTable)
    (excluded : List String) (draws : Nat → ℚ × ℚ) (c : PoolBackend)
    (h : pickFromAlias backends (some t) excluded draws = some c) :
    c.key ∉ excluded ∧ ∃ idx ∈ t.backendIndexes, backends.get? idx = some c := by
  simp only [pickFromAlias] at h
  split at h
  · exact absurd h (by simp)
  · split at h
    · next hexc =>
      split at h
      · next hpos =>
        rcases sampleAliasTable_mem t (draws 0).1 (draws 0).2 with hm | ⟨idx, hmem, hval⟩
        · rw [hm] at hpos
          omega
        · rw [hval] at h
          subst hexc
          exact ⟨by simp, idx, hmem, by simpa using h⟩
      · exact absurd h (by simp)
    · split at h
      · next cand hloop =>
        obtain ⟨h1, h2⟩ := sampleLoop_some backends t excluded draws _ _ _ hloop
        have : cand = c := Option.some_inj.mp h
        subst this
        exact ⟨h1, h2⟩
      · exact scanList_some backends excluded _ _ h

theorem pickFromAlias_isSome (backends : List PoolBackend) (t : AliasTable)
    (excluded : List String) (draws : Nat → ℚ × ℚ)
    (hlen : ¬ t.backendIndexes.length = 0)
    (halen : t.aliases.length = t.backendIndexes.length)
    (hab : ∀ a ∈ t.aliases, a < t.backendIndexes.length)
    (hall : ∀ idx ∈ t.backendIndexes, (backends.get? idx).isSome = true)
    (hwit : ∃ idx ∈ t.backendIndexes, ∃ b, backends.get? idx = some b ∧ b.key ∉ excluded)
    (hdraw : 0 ≤ (draws 0).1 ∧ (draws 0).1 < 1) :
    ∃ c, pickFromAlias backends (some t) excluded draws = some c := by
  simp only [pickFromAlias]
  rw [if_neg hlen]
  by_cases hexc : excluded = []
  · rw [if_pos hexc]
    obtain ⟨idx, hmem, hval⟩ :=
      sampleAliasTable_valid t (draws 0).1 (draws 0).2 hlen halen hab hdraw.1 hdraw.2
    rw [hval]
    rw [if_pos (by simp)]
    have := hall idx hmem
    cases hb : backends.get? idx with
    | none => rw [hb] at this; simp at this
    | some b => exact ⟨b, by simpa using hb⟩
  · rw [if_neg hexc]
    cases hloop : sampleLoop backends t excluded draws
        (max ALIAS_MIN_SAMPLE_ATTEMPTS
          (t.backendIndexes.length * ALIAS_SAMPLE_ATTEMPTS_MULTIPLIER)) 0 with
    | some cand => exact ⟨cand, rfl⟩
    | none => exact scanList_isSome backends excluded t.backendIndexes hwit

theorem pickByOrder_sound (candidates : List PoolBackend) (excluded : List String)
    (healthyOnly : Bool) (c : PoolBackend)
    (h : pickByOrder candidates excluded healthyOnly = some c) :
    c ∈ candidates ∧ (healthyOnly = true → c.healthy = true) ∧ c.key ∉ excluded := by
  have hmem := List.mem_of_find?_eq_some h
  have hpred := List.find?_some h
  simp only [Bool.and_eq_true, Bool.or_eq_true, Bool.not_eq_true'] at hpred
  refine ⟨hmem, ?_, ?_⟩
  · intro hho
    rcases hpred.1 with h1 | h1
    · rw [hho] at h1; simp at h1
    · exact h1
  · have := hpred.2
    simpa using this

theorem pickByOrder_isSome (candidates : List PoolBackend) (excluded : List String)
    (healthyOnly : Bool)
    (hwit : ∃ b ∈ candidates, (healthyOnly = true → b.healthy = true) ∧ b.key ∉ excluded) :
    ∃ c, pickByOrder candidates excluded healthyOnly = some c := by
  obtain ⟨b, hmem, hh, hexc⟩ := hwit
  have : (candidates.find? (fun c => (! healthyOnly || c.healthy) && ! decide (c.key ∈ excluded))).isSome = true := by
    rw [List.find?_isSome]
    refine ⟨b, hmem, ?_⟩
    simp only [Bool.and_eq_true, Bool.or_eq_true, Bool.not_eq_true']
    constructor
    · cases healthyOnly with
      | false => left; rfl
      | true => right; exact hh rfl
    · simpa using hexc
  rw [Option.isSome_iff_exists] at this
  exact this

theorem pickStickyHealthy_sound (st : PoolState) (excluded : List String) (c : PoolBackend)
    (h : pickStickyHealthy st excluded = some c) :
    c ∈ st.backends ∧ c.healthy = true ∧ c.key ∉ excluded := by
  simp only [pickStickyHealthy] at h
  split at h
  · next i hi =>
    split at h
    · next cand hget =>
      split at h
      · next hcond =>
        have : cand = c := Option.some_inj.mp h
        subst this
        exact ⟨List.get?_mem hget, by simpa using hcond.1, hcond.2⟩
      · obtain ⟨h1, h2, h3⟩ := pickByOrder_sound _ _ _ _ h
        exact ⟨h1, h2 rfl, h3⟩
    · obtain ⟨h1, h2, h3⟩ := pickByOrder_sound _ _ _ _ h
      exact ⟨h1, h2 rfl, h3⟩
  · obtain ⟨h1, h2, h3⟩ := pickByOrder_sound _ _ _ _ h
    exact ⟨h1, h2 rfl, h3⟩

theorem pickStickyHealthy_isSome (st : PoolState) (excluded : List String)
    (hwit : ∃ b ∈ st.backends, b.healthy = true ∧ b.key ∉ excluded) :
    ∃ c, pickStickyHealthy st excluded = some c := by
  obtain ⟨b, hmem, hh, hexc⟩ := hwit
  have hfallback : ∃ c, pickByOrder st.backends excluded true = some c :=
    pickByOrder_isSome _ _ _ ⟨b, hmem, fun _ => hh, hexc⟩
  simp only [pickStickyHealthy]
  split
  · split
    · split
      · exact ⟨_, rfl⟩
      · exact hfallback
    · exact hfallback
  · exact hfallback

theorem healthyCandidates_mem (st : PoolState) (p : Nat × PoolBackend)
    (hp : p ∈ healthyCandidates st) :
    st.backends.get? p.1 = some p.2 ∧ p.2.healthy = true := by
  simp only [healthyCandidates, List.mem_filter] at hp
  obtain ⟨hmem, hh⟩ := hp
  obtain ⟨_, hget⟩ := enumFrom_mem_get st.backends 0 p hmem
  refine ⟨by simpa using hget, by simpa using hh⟩

theorem mem_healthyCandidates (st : PoolState) (i : Nat) (b : PoolBackend)
    (hget : st.backends.get? i = some b) (hh : b.healthy = true) :
    (i, b) ∈ healthyCandidates st := by
  simp only [healthyCandidates, List.mem_filter]
  refine ⟨?_, by simpa using hh⟩
  have := get_mem_enumFrom st.backends 0 i b hget
  simpa using this

/-- The healthy pick of `getBackend`, in either strategy, returns a
healthy non-excluded member of the pool. -/
theorem healthyPick_sound (st : PoolState) (excludedKeys : List String)
    (drawsHealthy : Nat → ℚ × ℚ) (c : PoolBackend)
    (h : (if st.stickySession then pickStickyHealthy st excludedKeys
        else pickFromAlias st.backends (healthyAliasTable st) excludedKeys drawsHealthy) =
        some c) :
    c ∈ st.backends ∧ c.healthy = true ∧ c.key ∉ excludedKeys := by
  by_cases hs : st.stickySession
  · rw [if_pos hs] at h
    exact pickStickyHealthy_sound st excludedKeys c h
  · rw [if_neg hs] at h
    cases hat : healthyAliasTable st with
    | none =>
      rw [hat] at h
      exact absurd h (by simp [pickFromAlias])
    | some t =>
      rw [hat] at h
      obtain ⟨hexc, idx, hmem, hget⟩ := pickFromAlias_sound _ _ _ _ _ h
      have hbi : t.backendIndexes = (healthyCandidates st).map Prod.fst :=
        buildAliasTable_backendIndexes _ _ hat
      rw [hbi] at hmem
      obtain ⟨p, hp, hfst⟩ := List.mem_map.mp hmem
      obtain ⟨hpget, hph⟩ := healthyCandidates_mem st p hp
      rw [hfst] at hpget
      rw [hget] at hpget
      have : c = p.2 := Option.some_inj.mp hpget
      rw [← this] at hph
      exact ⟨List.get?_mem hget, hph, hexc⟩

/-- The fallback pick of `getBackend`, in either strategy, returns a
non-excluded member of the pool. -/
theorem anyPick_sound (st : PoolState) (excludedKeys : List String)
    (drawsAny : Nat → ℚ × ℚ) (c : PoolBackend)
    (h : (if st.stickySession then pickByOrder st.backends excludedKeys false
        else pickFromAlias st.backends (allAliasTable st) excludedKeys drawsAny) = some c) :
    c ∈ st.backends ∧ c.key ∉ excludedKeys := by
  by_cases hs : st.stickySession
  · rw [if_pos hs] at h
    obtain ⟨h1, _, h3⟩ := pickByOrder_sound _ _ _ _ h
    exact ⟨h1, h3⟩
  · rw [if_neg hs] at h
    cases hat : allAliasTable st with
    | none =>
      rw [hat] at h
      exact absurd h (by simp [pickFromAlias])
    | some t =>
      rw [hat] at h
      obtain ⟨hexc, idx, _, hget⟩ := pickFromAlias_sound _ _ _ _ _ h
      exact ⟨List.get?_mem hget, hexc⟩

/-- When a healthy non-excluded backend exists and the first healthy draw
is a valid uniform sample, the healthy pick succeeds. -/
theorem healthyPick_isSome (st : PoolState) (excludedKeys : List String)
    (drawsHealthy : Nat → ℚ × ℚ)
    (hex : ∃ b ∈ st.backends, b.healthy = true ∧ b.key ∉ excludedKeys)
    (hdraw : 0 ≤ (drawsHealthy 0).1 ∧ (drawsHealthy 0).1 < 1) :
    ∃ c, (if st.stickySession then pickStickyHealthy st excludedKeys
        else pickFromAlias st.backends (healthyAliasTable st) excludedKeys drawsHealthy) =
        some c := by
  by_cases hs : st.stickySession
  · rw [if_pos hs]
    exact pickStickyHealthy_isSome st excludedKeys hex
  · rw [if_neg hs]
    obtain ⟨b, hmem, hh, hexc⟩ := hex
    obtain ⟨i, hget⟩ := List.get?_of_mem hmem
    have hhc : (i, b) ∈ healthyCandidates st := mem_healthyCandidates st i b hget hh
    have hne : healthyCandidates st ≠ [] := by
      intro hnil
      rw [hnil] at hhc
      simp at hhc
    obtain ⟨t, hat⟩ := buildAliasTable_some _ hne
    have hat' : healthyAliasTable st = some t := hat
    rw [hat']
    have hbi : t.backendIndexes = (healthyCandidates st).map Prod.fst :=
      buildAliasTable_backendIndexes _ _ hat
    have hblen : t.backendIndexes.length = (healthyCandidates st).length := by
      rw [hbi, List.length_map]
    obtain ⟨hal1, hal2⟩ := buildAliasTable_aliases_bound _ _ hat
    apply pickFromAlias_isSome
    · rw [hblen]
      intro h0
      exact hne (List.eq_nil_of_length_eq_zero h0)
    · rw [hblen]; exact hal1
    · rw [hblen]; exact hal2
    · intro idx hidx
      rw [hbi] at hidx
      obtain ⟨p, hp, hfst⟩ := List.mem_map.mp hidx
      obtain ⟨hpget, _⟩ := healthyCandidates_mem st p hp
      rw [hfst] at hpget
      rw [hpget]
      rfl
    · refine ⟨i, ?_, b, hget, hexc⟩
      rw [hbi]
      exact List.mem_map.mpr ⟨(i, b), hhc, rfl⟩
    · exact hdraw

/-- **C4.** `getBackend` is total: it always returns a backend (a pool
member, or the synthetic default backend when the pool is empty). When at
least one healthy backend is not excluded, it returns a healthy
non-excluded backend for every sequence of draws whose first healthy draw
is a valid uniform sample (the bounded sampling is followed by an
in-order scan of the table). When every backend is excluded it returns
the first configured backend (or the synthetic default for an empty
pool). -/
theorem pool_getBackend_selection (st : PoolState) (excludedKeys : List String)
    (drawsHealthy drawsAny : Nat → ℚ × ℚ)
    (hdraw : 0 ≤ (drawsHealthy 0).1 ∧ (drawsHealthy 0).1 < 1) :
    (getBackend st excludedKeys drawsHealthy drawsAny ∈ st.backends ∨
      getBackend st excludedKeys drawsHealthy drawsAny = createFallbackBackend) ∧
    ((∃ b ∈ st.backends, b.healthy = true ∧ b.key ∉ excludedKeys) →
      (getBackend st excludedKeys drawsHealthy drawsAny).healthy = true ∧
      (getBackend st excludedKeys drawsHealthy drawsAny).key ∉ excludedKeys) ∧
    ((∀ b ∈ st.backends, b.key ∈ excludedKeys) →
      getBackend st excludedKeys drawsHealthy drawsAny =
        st.backends.headD createFallbackBackend) := by
  refine ⟨?_, ?_, ?_⟩
  · cases hH : (if st.stickySession then pickStickyHealthy st excludedKeys
        else pickFromAlias st.backends (healthyAliasTable st) excludedKeys drawsHealthy) with
    | some c =>
      have hres : getBackend st excludedKeys drawsHealthy drawsAny = c := by
        simp only [getBackend, hH]
      rw [hres]
      exact Or.inl (healthyPick_sound st excludedKeys drawsHealthy c hH).1
    | none =>
      cases hA : (if st.stickySession then pickByOrder st.backends excludedKeys false
          else pickFromAlias st.backends (allAliasTable st) excludedKeys drawsAny) with
      | some c =>
        have hres : getBackend st excludedKeys drawsHealthy drawsAny = c := by
          simp only [getBackend, hH, hA]
        rw [hres]
        exact Or.inl (anyPick_sound st excludedKeys drawsAny c hA).1
      | none =>
        have hres : getBackend st excludedKeys drawsHealthy drawsAny =
            st.backends.headD createFallbackBackend := by
          simp only [getBackend, hH, hA]
        rw [hres]
        cases hb : st.backends with
        | nil => exact Or.inr (by simp)
        | cons hd tl => exact Or.inl (by simp)
  · intro hex
    obtain ⟨c, hc⟩ := healthyPick_isSome st excludedKeys drawsHealthy hex hdraw
    have hres : getBackend st excludedKeys drawsHealthy drawsAny = c := by
      simp only [getBackend, hc]
    rw [hres]
    obtain ⟨_, h2, h3⟩ := healthyPick_sound st excludedKeys drawsHealthy c hc
    exact ⟨h2, h3⟩
  · intro hallex
    have hH : (if st.stickySession then pickStickyHealthy st excludedKeys
        else pickFromAlias st.backends (healthyAliasTable st) excludedKeys drawsHealthy) =
        none := by
      cases hH : (if st.stickySession then pickStickyHealthy st excludedKeys
          else pickFromAlias st.backends (healthyAliasTable st) excludedKeys drawsHealthy) with
      | none => rfl
      | some c =>
        obtain ⟨h1, _, h3⟩ := healthyPick_sound st excludedKeys drawsHealthy c hH
        exact absurd (hallex c h1) h3
    have hA : (if st.stickySession then pickByOrder st.backends excludedKeys false
        else pickFromAlias st.backends (allAliasTable st) excludedKeys drawsAny) = none := by
      cases hA : (if st.stickySession then pickByOrder st.backends excludedKeys false
          else pickFromAlias st.backends (allAliasTable st) excludedKeys drawsAny) with
      | none => rfl
      | some c =>
        obtain ⟨h1, h3⟩ := anyPick_sound st excludedKeys drawsAny c hA
        exact absurd (hallex c h1) h3
    simp only [getBackend, hH, hA]

def poolDraws : Nat → ℚ × ℚ := fun _ => ((1 : ℚ)/2, (1 : ℚ)/2)

def poolStExample : PoolState :=
  { backends := [{ key := "http://a/", weight := 1, healthy := false },
                 { key := "http://b/", weight := 2, healthy := true }]
    stickySession := false }

/-- Witness for `pool_getBackend_selection` at a concrete two-backend
pool with valid draws. -/
theorem pool_getBackend_selection_witness :
    (0 ≤ (poolDraws 0).1 ∧ (poolDraws 0).1 < 1) ∧
    ((getBackend poolStExample ["http://x/"] poolDraws poolDraws ∈ poolStExample.backends ∨
      getBackend poolStExample ["http://x/"] poolDraws poolDraws = createFallbackBackend) ∧
    ((∃ b ∈ poolStExample.backends, b.healthy = true ∧ b.key ∉ ["http://x/"]) →
      (getBackend poolStExample ["http://x/"] poolDraws poolDraws).healthy = true ∧
      (getBackend poolStExample ["http://x/"] poolDraws poolDraws).key ∉ ["http://x/"]) ∧
    ((∀ b ∈ poolStExample.backends, b.key ∈ ["http://x/"]) →
      getBackend poolStExample ["http://x/"] poolDraws poolDraws =
        poolStExample.backends.headD createFallbackBackend)) :=
  ⟨by constructor <;> norm_num [poolDraws],
   pool_getBackend_selection poolStExample ["http://x/"] poolDraws poolDraws
     (by constructor <;> norm_num [poolDraws])⟩

end Pool

/-! ## UUID connection manager (src/uuid-manager.ts)

`UUIDConnectionManager` is embedded with the two-level index structure as
insertion-ordered association lists: `bucketsByUuid` maps a normalized
UUID to a bucket, each bucket maps connection ids to tracked records and
IPs to sets of connection ids, and `uuidByConnectionId` is the reverse
index. JavaScript `Map.set` replaces in place or appends, `Set.add`
appends new members, and object aliasing is modelled explicitly: a bucket
mutated after being deleted from `bucketsByUuid` (the detached case in
`registerConnection`) leaves the map unchanged. Disconnect callbacks and
close codes do not affect the tracked state and are not modelled. The
JavaScript truthiness test `if (existingUuid)` is modelled faithfully:
an empty-string UUID is treated as absent. -/

namespace UuidMgr

def UUID_CLEANUP_INTERVAL_MS : Int := 60000

def UUID_ENTRY_STALE_MS : Int := 7 * 24 * 60 * 60 * 1000

def UUID_IDLE_BUCKET_TTL_MS : Int := 10 * 60000

def UUID_MAX_TRACKED_BUCKETS : Nat := 10000

structure UUIDTrackedConnection where
  ip : String
  timestamp : Int
  deriving DecidableEq, Repr

structure UUIDBucket where
  byConnectionId : List (String × UUIDTrackedConnection)
  byIp : List (String × List String)
  lastTouchedAt : Int
  deriving DecidableEq, Repr

structure ManagerState where
  maxConnections : Nat
  bucketsByUuid : List (String × UUIDBucket)
  uuidByConnectionId : List (String × String)
  nextCleanupAt : Int
  deriving DecidableEq, Repr

/-- `Set.add`: appends when absent (JS sets keep insertion order). -/
def addToSet (s : List String) (x : String) : List String :=
  if x ∈ s then s else s ++ [x]

/-- `Set.delete`. -/
def setDelete (s : List String) (x : String) : List String :=
  s.filter (fun y => ! decide (y = x))

/-- Embeds `removeConnection` (uuid-manager.ts lines 295-333) acting on
one bucket and the reverse index; the returned flag records whether the
bucket was deleted from `bucketsByUuid` (empty and not kept). -/
def removeConnection (b : UUIDBucket) (idx : List (String × String))
    (cid : String) (keepBucketWhenEmpty : Bool) :
    UUIDBucket × List (String × String) × Bool :=
  match alookup cid b.byConnectionId with
  | none => (b, aremove cid idx, false)
  | some conn =>
    let byConn := aremove cid b.byConnectionId
    let idx' := aremove cid idx
    let byIp :=
      match alookup conn.ip b.byIp with
      | none => b.byIp
      | some ipConnections =>
        let remaining := setDelete ipConnections cid
        if remaining = [] then aremove conn.ip b.byIp
        else aset conn.ip remaining b.byIp
    ({ b with byConnectionId := byConn, byIp := byIp },
     idx', ! keepBucketWhenEmpty && decide (byConn = []))

/-- The `for (const existingConnectionId of Array.from(sameIpConnections))`
loop of `registerConnection` and the stale-removal loop of `cleanup`, as a
fold of `removeConnection`; the flag accumulates bucket deletion. -/
def removeLoop (keep : Bool) : List String → UUIDBucket → List (String × String) →
    UUIDBucket × List (String × String) × Bool
  | [], b, idx => (b, idx, false)
  | cid :: rest, b, idx =>
    let r := removeConnection b idx cid keep
    let r2 := removeLoop keep rest r.1 r.2.1
    (r2.1, r2.2.1, r.2.2 || r2.2.2)

/-- Embeds `getOrCreateBucket` (uuid-manager.ts lines 276-293); the caller
stores the result back under the key. -/
def getOrCreateBucket (uuid : String) (now : Int)
    (m : List (String × UUIDBucket)) : UUIDBucket :=
  match alookup uuid m with
  | some existing => { existing with lastTouchedAt := now }
  | none => { byConnectionId := [], byIp := [], lastTouchedAt := now }

def insertSorted (x : String × Int) : List (String × Int) → List (String × Int)
  | [] => [x]
  | y :: ys => if y.2 ≤ x.2 then y :: insertSorted x ys else x :: y :: ys

/-- Stable ascending sort by `lastTouchedAt`
(`idleCandidates.sort((a, b) => a.lastTouchedAt - b.lastTouchedAt)`). -/
def sortByTouched (l : List (String × Int)) : List (String × Int) :=
  l.foldl (fun acc x => insertSorted x acc) []

/-- The deletion loop of `evictIdleBucketsIfNeeded`. -/
def evictLoop (now : Int) : List (String × Int) → List (String × UUIDBucket) →
    List (String × UUIDBucket)
  | [], m => m
  | c :: rest, m =>
    if m.length ≤ UUID_MAX_TRACKED_BUCKETS then m
    else if now - c.2 < UUID_IDLE_BUCKET_TTL_MS then evictLoop now rest m
    else evictLoop now rest (aremove c.1 m)

/-- Embeds `evictIdleBucketsIfNeeded` (uuid-manager.ts lines 375-406). -/
def evictIdleBucketsIfNeeded (now : Int) (st : ManagerState) : ManagerState :=
  if st.bucketsByUuid.length ≤ UUID_MAX_TRACKED_BUCKETS then st
  else
    let idleCandidates := (st.bucketsByUuid.filter
        (fun p => decide (p.2.byConnectionId = []))).map (fun p => (p.1, p.2.lastTouchedAt))
    if idleCandidates = [] then st
    else
      { st with bucketsByUuid := evictLoop now (sortByTouched idleCandidates) st.bucketsByUuid }

/-- `cleanup`'s work on one bucket (uuid-manager.ts lines 344-368):
remove stale connections through `removeConnection`; the flag is whether
the bucket survives (not emptied by a removal, and not both empty and
idle). -/
def cleanupBucketStep (now : Int) (b : UUIDBucket) (idx : List (String × String)) :
    UUIDBucket × List (String × String) × Bool :=
  let stale := (b.byConnectionId.filter
      (fun p => decide (UUID_ENTRY_STALE_MS ≤ now - p.2.timestamp))).map Prod.fst
  let r := removeLoop false stale b idx
  (r.1, r.2.1, ! r.2.2 &&
    (! decide (r.1.byConnectionId = []) ||
      decide (now - r.1.lastTouchedAt < UUID_IDLE_BUCKET_TTL_MS)))

/-- Embeds `cleanup`'s per-bucket pass (uuid-manager.ts lines 343-368). -/
def cleanupBuckets (now : Int) :
    List (String × UUIDBucket) → List (String × String) →
    List (String × UUIDBucket) × List (String × String)
  | [], idx => ([], idx)
  | (u, b) :: rest, idx =>
    let s := cleanupBucketStep now b idx
    let r2 := cleanupBuckets now rest s.2.1
    (if s.2.2 then (u, s.1) :: r2.1 else r2.1, r2.2)

/-- Embeds `cleanup` (uuid-manager.ts lines 343-373). -/
def cleanup (now : Int) (st : ManagerState) : ManagerState :=
  let r := cleanupBuckets now st.bucketsByUuid st.uuidByConnectionId
  let st' := evictIdleBucketsIfNeeded now
    { st with bucketsByUuid := r.1, uuidByConnectionId := r.2 }
  { st' with nextCleanupAt := now + UUID_CLEANUP_INTERVAL_MS }

def maybeCleanup (now : Int) (st : ManagerState) : ManagerState :=
  if now < st.nextCleanupAt then st else cleanup now st

/-- Embeds `checkConnectionAllowed` (uuid-manager.ts lines 128-164). -/
def checkConnectionAllowed (uuid ip : String) (now : Int) (st : ManagerState) :
    Bool × ManagerState :=
  if st.maxConnections = 0 then (true, st)
  else
    let st := maybeCleanup now st
    let nu := normalizeUuid uuid
    let ni := normalizeIp ip
    match alookup nu st.bucketsByUuid with
    | none => (true, st)
    | some bucket =>
      let bucket := { bucket with lastTouchedAt := now }
      let st := { st with bucketsByUuid := aset nu bucket st.bucketsByUuid }
      if bucket.byConnectionId.length < st.maxConnections then (true, st)
      else if (alookup ni bucket.byIp).isSome then (true, st)
      else (false, st)

/-- The bucket-creation and same-IP replacement stage of
`registerConnection` (uuid-manager.ts lines 180-199): get or create the
bucket, store it, and run the replacement loop over a snapshot of the
same-IP set; returns the updated state and the post-loop bucket. -/
def registerStage2 (nu ni : String) (now : Int) (stc : ManagerState) :
    ManagerState × UUIDBucket :=
  let bucket0 := getOrCreateBucket nu now stc.bucketsByUuid
  let st1 := { stc with bucketsByUuid := aset nu bucket0 stc.bucketsByUuid }
  let lr := removeLoop true ((alookup ni bucket0.byIp).getD []) bucket0 st1.uuidByConnectionId
  ({ st1 with
      bucketsByUuid := aset nu lr.1 st1.bucketsByUuid
      uuidByConnectionId := lr.2.1 }, lr.1)

/-- The cross-bucket removal stage of `registerConnection` (uuid-manager.ts
lines 214-223), returning the updated map, reverse index, the bucket the
insertion will mutate, and whether that bucket was detached from the map
(JS object aliasing: `existingUuid === nu` and the removal emptied and so
deleted the bucket). An empty-string existing UUID is falsy in JS and
skips the whole block. -/
def registerCross (nu cid : String) (st : ManagerState) (bucket1 : UUIDBucket) :
    List (String × UUIDBucket) × List (String × String) × UUIDBucket × Bool :=
  match alookup cid st.uuidByConnectionId with
  | none => (st.bucketsByUuid, st.uuidByConnectionId, bucket1, false)
  | some existingUuid =>
    if existingUuid = "" then (st.bucketsByUuid, st.uuidByConnectionId, bucket1, false)
    else
      match alookup existingUuid st.bucketsByUuid with
      | none => (st.bucketsByUuid, aremove cid st.uuidByConnectionId, bucket1, false)
      | some existingBucket =>
        let r := removeConnection existingBucket st.uuidByConnectionId cid false
        if existingUuid = nu then
          (if r.2.2 then aremove nu st.bucketsByUuid
           else aset nu r.1 st.bucketsByUuid, r.2.1, r.1, r.2.2)
        else
          (if r.2.2 then aremove existingUuid st.bucketsByUuid
           else aset existingUuid r.1 st.bucketsByUuid, r.2.1, bucket1, false)

/-- The insertion stage of `registerConnection` (uuid-manager.ts lines
225-246): cross-bucket removal, then tracking the new connection in the
bucket (invisible to the map when the bucket was detached), updating the
reverse index, and evicting idle buckets. -/
def registerFinish (nu ni cid : String) (now : Int) (st2 : ManagerState)
    (bucket1 : UUIDBucket) : ManagerState :=
  let cross := registerCross nu cid st2 bucket1
  let tracked : UUIDTrackedConnection := { ip := ni, timestamp := now }
  let bucket3 := { cross.2.2.1 with
    byConnectionId := aset cid tracked cross.2.2.1.byConnectionId
    byIp := aset ni (addToSet ((alookup ni cross.2.2.1.byIp).getD []) cid) cross.2.2.1.byIp
    lastTouchedAt := now }
  let st3 := { st2 with
    bucketsByUuid := if cross.2.2.2 then cross.1 else aset nu bucket3 cross.1
    uuidByConnectionId := aset cid nu cross.2.1 }
  evictIdleBucketsIfNeeded now st3

/-- Embeds `registerConnection` (uuid-manager.ts lines 169-247). -/
def registerConnection (uuid ip cid : String) (now : Int) (st : ManagerState) :
    ManagerState :=
  if st.maxConnections = 0 then st
  else
    let stc := maybeCleanup now st
    let nu := normalizeUuid uuid
    let ni := normalizeIp ip
    let s2 := registerStage2 nu ni now stc
    if st.maxConnections ≤ s2.2.byConnectionId.length ∧ alookup ni s2.2.byIp = none then
      s2.1
    else
      registerFinish nu ni cid now s2.1 s2.2

/-- Embeds `unregisterConnection` (uuid-manager.ts lines 252-274): with no
bucket for the UUID the reverse-index entry of the connection id is
deleted unconditionally; otherwise the connection is removed and the
bucket dropped when empty. -/
def unregisterConnection (uuid cid : String) (now : Int) (st : ManagerState) :
    ManagerState :=
  if st.maxConnections = 0 then st
  else
    let st := maybeCleanup now st
    let nu := normalizeUuid uuid
    match alookup nu st.bucketsByUuid with
    | none => { st with uuidByConnectionId := aremove cid st.uuidByConnectionId }
    | some bucket =>
      let r := removeConnection bucket st.uuidByConnectionId cid false
      let b' := { r.1 with lastTouchedAt := now }
      { st with
        bucketsByUuid :=
          if r.2.2 then aremove nu st.bucketsByUuid
          else if b'.byConnectionId = [] then aremove nu st.bucketsByUuid
          else aset nu b' st.bucketsByUuid
        uuidByConnectionId := r.2.1 }

/-- One public operation of the manager, with its `Date.now()` value. -/
inductive UuidOp where
  | check (now : Int) (uuid ip : String)
  | register (now : Int) (uuid ip cid : String)
  | unregister (now : Int) (uuid cid : String)
  deriving DecidableEq, Repr

def stepOp : UuidOp → ManagerState → ManagerState
  | .check now uuid ip, st => (checkConnectionAllowed uuid ip now st).2
  | .register now uuid ip cid, st => registerConnection uuid ip cid now st
  | .unregister now uuid cid, st => unregisterConnection uuid cid now st

def runOps : List UuidOp → ManagerState → ManagerState
  | [], st => st
  | op :: rest, st => runOps rest (stepOp op st)

/-- The constructor state: `Math.max(0, maxConnections)` is reflected by
the `Nat` cap, and the first cleanup is scheduled one interval ahead. -/
def initState (max : Nat) (startAt : Int) : ManagerState :=
  { maxConnections := max
    bucketsByUuid := []
    uuidByConnectionId := []
    nextCleanupAt := startAt + UUID_CLEANUP_INTERVAL_MS }

theorem mem_keys_aset {β : Type} (j k : String) (v : β) (m : List (String × β))
    (h : j ∈ (aset k v m).map Prod.fst) : j ∈ m.map Prod.fst ∨ j = k := by
  induction m with
  | nil => simpa [aset] using h
  | cons hd tl ih =>
    rcases hd with ⟨a, w⟩
    by_cases ha : a = k
    · simp only [aset, if_pos ha, List.map_cons, List.mem_cons] at h
      rcases h with h | h
      · exact Or.inl (by simp [h])
      · exact Or.inl (by simp [h])
    · simp only [aset, if_neg ha, List.map_cons, List.mem_cons] at h
      rcases h with h | h
      · exact Or.inl (by simp [h])
      · rcases ih h with h' | h'
        · exact Or.inl (by simp [h'])
        · exact Or.inr h'

theorem keys_aset_nodup {β : Type} (k : String) (v : β) (m : List (String × β))
    (h : (m.map Prod.fst).Nodup) : ((aset k v m).map Prod.fst).Nodup := by
  induction m with
  | nil => simp [aset]
  | cons hd tl ih =>
    rcases hd with ⟨a, w⟩
    simp only [List.map_cons, List.nodup_cons] at h
    by_cases ha : a = k
    · simp only [aset, if_pos ha, List.map_cons, List.nodup_cons]
      exact h
    · simp only [aset, if_neg ha, List.map_cons, List.nodup_cons]
      refine ⟨?_, ih h.2⟩
      intro hmem
      rcases mem_keys_aset a k v tl hmem with h' | h'
      · exact h.1 h'
      · exact ha h'

theorem mem_keys_aremove {β : Type} (j k : String) (m : List (String × β))
    (h : j ∈ (aremove k m).map Prod.fst) : j ∈ m.map Prod.fst := by
  induction m with
  | nil => simpa [aremove] using h
  | cons hd tl ih =>
    rcases hd with ⟨a, w⟩
    by_cases ha : a = k
    · simp only [aremove, if_pos ha] at h
      simp [h]
    · simp only [aremove, if_neg ha, List.map_cons, List.mem_cons] at h
      rcases h with h | h
      · simp [h]
      · simp [ih h]

theorem keys_aremove_nodup {β : Type} (k : String) (m : List (String × β))
    (h : (m.map Prod.fst).Nodup) : ((aremove k m).map Prod.fst).Nodup := by
  induction m with
  | nil => simp [aremove]
  | cons hd tl ih =>
    rcases hd with ⟨a, w⟩
    simp only [List.map_cons, List.nodup_cons] at h
    by_cases ha : a = k
    · simp only [aremove, if_pos ha]
      exact h.2
    · simp only [aremove, if_neg ha, List.map_cons, List.nodup_cons]
      exact ⟨fun hmem => h.1 (mem_keys_aremove a k tl hmem), ih h.2⟩

theorem length_aset_le {β : Type} (k : String) (v : β) (m : List (String × β)) :
    (aset k v m).length ≤ m.length + 1 := by
  induction m with
  | nil => simp [aset]
  | cons hd tl ih =>
    rcases hd with ⟨a, w⟩
    by_cases ha : a = k
    · simp [aset, ha]
    · simp only [aset, if_neg ha, List.length_cons]
      omega

theorem length_aremove_le {β : Type} (k : String) (m : List (String × β)) :
    (aremove k m).length ≤ m.length := by
  induction m with
  | nil => simp [aremove]
  | cons hd tl ih =>
    rcases hd with ⟨a, w⟩
    by_cases ha : a = k
    · simp [aremove, ha]
    · simp only [aremove, if_neg ha, List.length_cons]
      omega

theorem alookup_of_mem_nodup {β : Type} (k : String) (v : β) (m : List (String × β))
    (hn : (m.map Prod.fst).Nodup) (h : (k, v) ∈ m) : alookup k m = some v := by
  induction m with
  | nil => simp at h
  | cons hd tl ih =>
    rcases hd with ⟨a, w⟩
    simp only [List.map_cons, List.nodup_cons] at hn
    rcases List.mem_cons.mp h with h' | h'
    · have h1 : k = a := congrArg Prod.fst h'
      have h2 : v = w := congrArg Prod.snd h'
      subst h1
      subst h2
      simp [alookup]
    · have ha : ¬ (a = k) := by
        intro hak
        subst hak
        exact hn.1 (by simpa using List.mem_map_of_mem Prod.fst h')
      simp only [alookup, if_neg ha]
      exact ih hn.2 h'

theorem mem_setDelete (s : List String) (c x : String) :
    x ∈ setDelete s c ↔ x ∈ s ∧ ¬ (x = c) := by
  simp [setDelete]

theorem mem_addToSet (s : List String) (y x : String) :
    x ∈ addToSet s y ↔ x ∈ s ∨ x = y := by
  unfold addToSet
  by_cases h : y ∈ s
  · rw [if_pos h]
    constructor
    · exact Or.inl
    · rintro (hx | rfl)
      exacts [hx, h]
  · rw [if_neg h]
    simp

/-- Well-formedness of one bucket: duplicate-free keys, non-empty `byIp`
sets, the `byIp` grouping is exactly `byConnectionId` grouped by recorded
IP, and the active-session count respects the cap. -/
def BucketWF (max : Nat) (b : UUIDBucket) : Prop :=
  (b.byConnectionId.map Prod.fst).Nodup ∧
  (b.byIp.map Prod.fst).Nodup ∧
  (∀ ip s, alookup ip b.byIp = some s → s ≠ []) ∧
  (∀ ip s cid, alookup ip b.byIp = some s → cid ∈ s →
    ∃ c, alookup cid b.byConnectionId = some c ∧ c.ip = ip) ∧
  (∀ cid c, alookup cid b.byConnectionId = some c →
    ∃ s, alookup c.ip b.byIp = some s ∧ cid ∈ s) ∧
  b.byConnectionId.length ≤ max

theorem removeConnection_facts (max : Nat) (b : UUIDBucket)
    (idx : List (String × String)) (cid : String) (keep : Bool)
    (hb : BucketWF max b) (hidx : (idx.map Prod.fst).Nodup) :
    BucketWF max (removeConnection b idx cid keep).1 ∧
    (∀ cid', alookup cid' (removeConnection b idx cid keep).1.byConnectionId =
      if cid' = cid then none else alookup cid' b.byConnectionId) ∧
    (removeConnection b idx cid keep).1.byConnectionId.length ≤ b.byConnectionId.length ∧
    (∀ cid', alookup cid' (removeConnection b idx cid keep).2.1 =
      if cid' = cid then none else alookup cid' idx) ∧
    ((removeConnection b idx cid keep).2.1.map Prod.fst).Nodup := by
  obtain ⟨w1, w2, w3, w4, w5, w6⟩ := hb
  cases hc : alookup cid b.byConnectionId with
  | none =>
    simp only [removeConnection, hc]
    refine ⟨⟨w1, w2, w3, w4, w5, w6⟩, ?_, le_refl _, ?_, keys_aremove_nodup _ _ hidx⟩
    · intro cid'
      by_cases h' : cid' = cid
      · subst h'; rw [if_pos rfl]; exact hc
      · rw [if_neg h']
    · intro cid'
      by_cases h' : cid' = cid
      · subst h'; rw [if_pos rfl]; exact alookup_aremove_self _ _ hidx
      · rw [if_neg h']; exact alookup_aremove_ne _ _ _ h'
  | some conn =>
    obtain ⟨s0, hs0, hcs0⟩ := w5 cid conn hc
    simp only [removeConnection, hc, hs0]
    have hconnlookup : ∀ cid', alookup cid' (aremove cid b.byConnectionId) =
        if cid' = cid then none else alookup cid' b.byConnectionId := by
      intro cid'
      by_cases h' : cid' = cid
      · subst h'; rw [if_pos rfl]; exact alookup_aremove_self _ _ w1
      · rw [if_neg h']; exact alookup_aremove_ne _ _ _ h'
    by_cases hrem : setDelete s0 cid = []
    case pos =>
      rw [if_pos hrem]
      refine ⟨⟨keys_aremove_nodup _ _ w1, keys_aremove_nodup _ _ w2, ?_, ?_, ?_, ?_⟩,
        hconnlookup, length_aremove_le _ _, ?_, keys_aremove_nodup _ _ hidx⟩
      · intro ip s hip
        by_cases hipc : ip = conn.ip
        · subst hipc
          rw [alookup_aremove_self _ _ w2] at hip
          exact absurd hip (by simp)
        · rw [alookup_aremove_ne _ _ _ hipc] at hip
          exact w3 ip s hip
      · intro ip s cid'' hip hmem
        by_cases hipc : ip = conn.ip
        · subst hipc
          rw [alookup_aremove_self _ _ w2] at hip
          exact absurd hip (by simp)
        · rw [alookup_aremove_ne _ _ _ hipc] at hip
          obtain ⟨c, hcl, hcip⟩ := w4 ip s cid'' hip hmem
          have hne : ¬ (cid'' = cid) := by
            intro heq
            subst heq
            rw [hc] at hcl
            have : c = conn := by
              have := Option.some_inj.mp hcl
              rw [this]
            rw [this] at hcip
            exact hipc hcip.symm
          refine ⟨c, ?_, hcip⟩
          rw [hconnlookup cid'', if_neg hne]
          exact hcl
      · intro cid'' c hcl
        rw [hconnlookup cid''] at hcl
        by_cases hne : cid'' = cid
        · rw [if_pos hne] at hcl; exact absurd hcl (by simp)
        · rw [if_neg hne] at hcl
          obtain ⟨s, hsl, hsm⟩ := w5 cid'' c hcl
          by_cases hipc : c.ip = conn.ip
          · rw [hipc] at hsl
            have hseq : s = s0 := by
              rw [hs0] at hsl
              exact (Option.some_inj.mp hsl).symm
            rw [hseq] at hsm
            have : cid'' ∈ setDelete s0 cid := (mem_setDelete _ _ _).mpr ⟨hsm, hne⟩
            rw [hrem] at this
            exact absurd this (by simp)
          · refine ⟨s, ?_, hsm⟩
            rw [alookup_aremove_ne _ _ _ hipc]
            exact hsl
      · exact le_trans (length_aremove_le _ _) w6
      · intro cid'
        by_cases h' : cid' = cid
        · subst h'; rw [if_pos rfl]; exact alookup_aremove_self _ _ hidx
        · rw [if_neg h']; exact alookup_aremove_ne _ _ _ h'
    case neg =>
      rw [if_neg hrem]
      have hiplookup : ∀ ip, alookup ip (aset conn.ip (setDelete s0 cid) b.byIp) =
          if ip = conn.ip then some (setDelete s0 cid) else alookup ip b.byIp := by
        intro ip
        by_cases hipc : ip = conn.ip
        · subst hipc; rw [if_pos rfl]; exact alookup_aset_self _ _ _
        · rw [if_neg hipc]; exact alookup_aset_ne _ _ _ _ hipc
      refine ⟨⟨keys_aremove_nodup _ _ w1, keys_aset_nodup _ _ _ w2, ?_, ?_, ?_, ?_⟩,
        hconnlookup, length_aremove_le _ _, ?_, keys_aremove_nodup _ _ hidx⟩
      · intro ip s hip
        rw [hiplookup ip] at hip
        by_cases hipc : ip = conn.ip
        · rw [if_pos hipc] at hip
          rw [← Option.some_inj.mp hip]
          exact hrem
        · rw [if_neg hipc] at hip
          exact w3 ip s hip
      · intro ip s cid'' hip hmem
        rw [hiplookup ip] at hip
        by_cases hipc : ip = conn.ip
        · rw [if_pos hipc] at hip
          rw [← Option.some_inj.mp hip] at hmem
          obtain ⟨hmem0, hne⟩ := (mem_setDelete _ _ _).mp hmem
          obtain ⟨c, hcl, hcip⟩ := w4 conn.ip s0 cid'' hs0 hmem0
          refine ⟨c, ?_, by rw [hcip, hipc]⟩
          rw [hconnlookup cid'', if_neg hne]
          exact hcl
        · rw [if_neg hipc] at hip
          obtain ⟨c, hcl, hcip⟩ := w4 ip s cid'' hip hmem
          have hne : ¬ (cid'' = cid) := by
            intro heq
            subst heq
            rw [hc] at hcl
            have : c = conn := (Option.some_inj.mp hcl).symm
            rw [this] at hcip
            exact hipc hcip.symm
          refine ⟨c, ?_, hcip⟩
          rw [hconnlookup cid'', if_neg hne]
          exact hcl
      · intro cid'' c hcl
        rw [hconnlookup cid''] at hcl
        by_cases hne : cid'' = cid
        · rw [if_pos hne] at hcl; exact absurd hcl (by simp)
        · rw [if_neg hne] at hcl
          obtain ⟨s, hsl, hsm⟩ := w5 cid'' c hcl
          rw [hiplookup c.ip]
          by_cases hipc : c.ip = conn.ip
          · rw [if_pos hipc]
            refine ⟨setDelete s0 cid, rfl, ?_⟩
            rw [hipc] at hsl
            have hseq : s = s0 := by
              rw [hs0] at hsl
              exact (Option.some_inj.mp hsl).symm
            subst hseq
            exact (mem_setDelete _ _ _).mpr ⟨hsm, hne⟩
          · rw [if_neg hipc]
            exact ⟨s, hsl, hsm⟩
      · exact le_trans (length_aremove_le _ _) w6
      · intro cid'
        by_cases h' : cid' = cid
        · subst h'; rw [if_pos rfl]; exact alookup_aremove_self _ _ hidx
        · rw [if_neg h']; exact alookup_aremove_ne _ _ _ h'

theorem removeLoop_facts (max : Nat) (keep : Bool) :
    ∀ (S : List String) (b : UUIDBucket) (idx : List (String × String)),
      BucketWF max b → (idx.map Prod.fst).Nodup →
      BucketWF max (removeLoop keep S b idx).1 ∧
      (∀ cid' c, alookup cid' (removeLoop keep S b idx).1.byConnectionId = some c →
        alookup cid' b.byConnectionId = some c) ∧
      (∀ cid' ∈ S, alookup cid' (removeLoop keep S b idx).1.byConnectionId = none) ∧
      (removeLoop keep S b idx).1.byConnectionId.length ≤ b.byConnectionId.length ∧
      (∀ cid', cid' ∉ S →
        alookup cid' (removeLoop keep S b idx).1.byConnectionId =
          alookup cid' b.byConnectionId) ∧
      (∀ cid', cid' ∉ S →
        alookup cid' (removeLoop keep S b idx).2.1 = alookup cid' idx) ∧
      (∀ cid' u, alookup cid' (removeLoop keep S b idx).2.1 = some u →
        alookup cid' idx = some u) ∧
      ((removeLoop keep S b idx).2.1.map Prod.fst).Nodup := by
  intro S
  induction S with
  | nil =>
    intro b idx hb hidx
    refine ⟨hb, fun _ _ h => h, by simp, le_refl _, fun _ _ => rfl, fun _ _ => rfl,
      fun _ _ h => h, hidx⟩
  | cons cid rest ih =>
    intro b idx hb hidx
    obtain ⟨p1, p2, p3, p4, p5⟩ := removeConnection_facts max b idx cid keep hb hidx
    simp only [removeLoop]
    obtain ⟨q1, q2, q3, q4, q5, q6, q7, q8⟩ :=
      ih (removeConnection b idx cid keep).1 (removeConnection b idx cid keep).2.1 p1 p5
    refine ⟨q1, ?_, ?_, le_trans q4 p3, ?_, ?_, ?_, q8⟩
    · intro cid' c h
      have := q2 cid' c h
      rw [p2 cid'] at this
      by_cases hne : cid' = cid
      · rw [if_pos hne] at this; exact absurd this (by simp)
      · rw [if_neg hne] at this; exact this
    · intro cid' hmem
      rcases List.mem_cons.mp hmem with heq | hmem'
      · subst heq
        cases hfin : alookup cid' (removeLoop keep rest (removeConnection b idx cid' keep).1
            (removeConnection b idx cid' keep).2.1).1.byConnectionId with
        | none => rfl
        | some c =>
          have := q2 cid' c hfin
          rw [p2 cid', if_pos rfl] at this
          exact absurd this (by simp)
      · exact q3 cid' hmem'
    · intro cid' hnot
      have hne : ¬ (cid' = cid) := fun h => hnot (by simp [h])
      have hrest : cid' ∉ rest := fun h => hnot (by simp [h])
      rw [q5 cid' hrest, p2 cid', if_neg hne]
    · intro cid' hnot
      have hne : ¬ (cid' = cid) := fun h => hnot (by simp [h])
      have hrest : cid' ∉ rest := fun h => hnot (by simp [h])
      rw [q6 cid' hrest, p4 cid', if_neg hne]
    · intro cid' u h
      have := q7 cid' u h
      rw [p4 cid'] at this
      by_cases hne : cid' = cid
      · rw [if_pos hne] at this; exact absurd this (by simp)
      · rw [if_neg hne] at this; exact this

/-- Manager-level well-formedness: duplicate-free keys, well-formed
buckets, every tracked connection's reverse-index entry names its bucket
(dangling reverse entries are allowed: the detached-bucket path of
`registerConnection` creates them), and no reverse entry holds the empty
string (so the JS truthiness test on `existingUuid` never skips the
cross-bucket removal). -/
def MgrWF (st : ManagerState) : Prop :=
  (st.bucketsByUuid.map Prod.fst).Nodup ∧
  (st.uuidByConnectionId.map Prod.fst).Nodup ∧
  (∀ u b, alookup u st.bucketsByUuid = some b → BucketWF st.maxConnections b) ∧
  (∀ u b cid c, alookup u st.bucketsByUuid = some b →
    alookup cid b.byConnectionId = some c →
    alookup cid st.uuidByConnectionId = some u) ∧
  (∀ cid u, alookup cid st.uuidByConnectionId = some u → u ≠ "")

theorem evictLoop_facts (now : Int) :
    ∀ (cands : List (String × Int)) (m : List (String × UUIDBucket)),
      (m.map Prod.fst).Nodup →
      ((evictLoop now cands m).map Prod.fst).Nodup ∧
      (∀ u b, alookup u (evictLoop now cands m) = some b → alookup u m = some b) := by
  intro cands
  induction cands with
  | nil => intro m hm; exact ⟨hm, fun _ _ h => h⟩
  | cons c rest ih =>
    intro m hm
    simp only [evictLoop]
    split
    · exact ⟨hm, fun _ _ h => h⟩
    · split
      · exact ih m hm
      · obtain ⟨h1, h2⟩ := ih (aremove c.1 m) (keys_aremove_nodup _ _ hm)
        refine ⟨h1, ?_⟩
        intro u b h
        have := h2 u b h
        by_cases hu : u = c.1
        · subst hu
          rw [alookup_aremove_self _ _ hm] at this
          exact absurd this (by simp)
        · rw [alookup_aremove_ne _ _ _ hu] at this
          exact this

theorem mgr_shrink (st : ManagerState) (m' : List (String × UUIDBucket))
    (h : MgrWF st) (hnodup : (m'.map Prod.fst).Nodup)
    (hsub : ∀ u b, alookup u m' = some b → alookup u st.bucketsByUuid = some b) :
    MgrWF { st with bucketsByUuid := m' } := by
  obtain ⟨n1, n2, n3, n4, n5⟩ := h
  exact ⟨hnodup, n2, fun u b hb => n3 u b (hsub u b hb),
    fun u b cid c hb hc => n4 u b cid c (hsub u b hb) hc, n5⟩

theorem evictIdle_preserves (now : Int) (st : ManagerState) (h : MgrWF st) :
    MgrWF (evictIdleBucketsIfNeeded now st) := by
  simp only [evictIdleBucketsIfNeeded]
  split
  · exact h
  · split
    · exact h
    · exact mgr_shrink st _ h
        (evictLoop_facts now _ _ h.1).1
        (evictLoop_facts now _ _ h.1).2

theorem cleanupBucketStep_facts (now : Int) (max : Nat) (b : UUIDBucket)
    (idx : List (String × String)) (hb : BucketWF max b)
    (hidx : (idx.map Prod.fst).Nodup) :
    BucketWF max (cleanupBucketStep now b idx).1 ∧
    (∀ cid c, alookup cid (cleanupBucketStep now b idx).1.byConnectionId = some c →
      alookup cid b.byConnectionId = some c) ∧
    (∀ cid, alookup cid b.byConnectionId = none →
      alookup cid (cleanupBucketStep now b idx).2.1 = alookup cid idx) ∧
    (∀ cid c, alookup cid (cleanupBucketStep now b idx).1.byConnectionId = some c →
      alookup cid (cleanupBucketStep now b idx).2.1 = alookup cid idx) ∧
    (∀ cid u₀, alookup cid (cleanupBucketStep now b idx).2.1 = some u₀ →
      alookup cid idx = some u₀) ∧
    ((cleanupBucketStep now b idx).2.1.map Prod.fst).Nodup := by
  obtain ⟨p1, p2, p3, p4, p5, p6, p7, p8⟩ := removeLoop_facts max false
    ((b.byConnectionId.filter
      (fun p => decide (UUID_ENTRY_STALE_MS ≤ now - p.2.timestamp))).map Prod.fst)
    b idx hb hidx
  simp only [cleanupBucketStep]
  refine ⟨p1, p2, ?_, ?_, p7, p8⟩
  · intro cid hnone
    apply p6
    intro hmem
    obtain ⟨p, hp, hfst⟩ := List.mem_map.mp hmem
    have hl := alookup_of_mem_nodup p.1 p.2 _ hb.1 (List.mem_of_mem_filter hp)
    rw [hfst] at hl
    rw [hnone] at hl
    exact absurd hl (by simp)
  · intro cid c hsome
    apply p6
    intro hmem
    rw [p3 cid hmem] at hsome
    exact absurd hsome (by simp)

theorem cleanupBuckets_facts (now : Int) (max : Nat) :
    ∀ (m : List (String × UUIDBucket)) (idx : List (String × String)),
      (m.map Prod.fst).Nodup → (idx.map Prod.fst).Nodup →
      (∀ u b, alookup u m = some b → BucketWF max b) →
      (∀ u b cid c, alookup u m = some b → alookup cid b.byConnectionId = some c →
        alookup cid idx = some u) →
      (((cleanupBuckets now m idx).1.map Prod.fst).Nodup ∧
        (∀ u, u ∈ (cleanupBuckets now m idx).1.map Prod.fst → u ∈ m.map Prod.fst)) ∧
      ((cleanupBuckets now m idx).2.map Prod.fst).Nodup ∧
      (∀ u b, alookup u (cleanupBuckets now m idx).1 = some b → BucketWF max b) ∧
      (∀ u b cid c, alookup u (cleanupBuckets now m idx).1 = some b →
        alookup cid b.byConnectionId = some c →
        alookup cid (cleanupBuckets now m idx).2 = some u) ∧
      (∀ cid u, alookup cid (cleanupBuckets now m idx).2 = some u →
        alookup cid idx = some u) ∧
      (∀ cid, (∀ w bw, alookup w m = some bw → alookup cid bw.byConnectionId = none) →
        alookup cid (cleanupBuckets now m idx).2 = alookup cid idx) := by
  intro m
  induction m with
  | nil =>
    intro idx _ hidx _ _
    refine ⟨⟨by simp [cleanupBuckets], by simp [cleanupBuckets]⟩, hidx,
      ?_, ?_, fun _ _ h => h, fun _ _ => rfl⟩
    · intro u b h
      simp [cleanupBuckets, alookup] at h
    · intro u b cid c h
      simp [cleanupBuckets, alookup] at h
  | cons hd rest ih =>
    rcases hd with ⟨u, b⟩
    intro idx hm hidx h3 h4
    simp only [List.map_cons, List.nodup_cons] at hm
    have hb : BucketWF max b := h3 u b (by simp [alookup])
    obtain ⟨s1, s2, s3, s4, s5, s6⟩ := cleanupBucketStep_facts now max b idx hb hidx
    have hother : ∀ u' b', alookup u' rest = some b' → ¬ (u = u') := by
      intro u' b' h' heq
      apply hm.1
      have hmem := alookup_some_mem u' b' rest h'
      rw [heq]
      simpa using List.mem_map_of_mem Prod.fst hmem
    have hrest3 : ∀ u' b', alookup u' rest = some b' → BucketWF max b' := by
      intro u' b' h'
      exact h3 u' b' (by simpa [alookup, hother u' b' h'] using h')
    have hcidother : ∀ u' b' cid c, alookup u' rest = some b' →
        alookup cid b'.byConnectionId = some c → alookup cid b.byConnectionId = none := by
      intro u' b' cid c h' hc
      cases hcb : alookup cid b.byConnectionId with
      | none => rfl
      | some c₀ =>
        have h1 : alookup cid idx = some u := h4 u b cid c₀ (by simp [alookup]) hcb
        have h2 : alookup cid idx = some u' :=
          h4 u' b' cid c (by simpa [alookup, hother u' b' h'] using h') hc
        rw [h1] at h2
        exact absurd (Option.some_inj.mp h2) (hother u' b' h')
    have hbother : ∀ cid c₀, alookup cid b.byConnectionId = some c₀ →
        ∀ w bw, alookup w rest = some bw → alookup cid bw.byConnectionId = none := by
      intro cid c₀ hcb w bw hw
      cases hcw : alookup cid bw.byConnectionId with
      | none => rfl
      | some cw =>
        rw [hcidother w bw cid cw hw hcw] at hcb
        exact absurd hcb (by simp)
    have hrest4 : ∀ u' b' cid c, alookup u' rest = some b' →
        alookup cid b'.byConnectionId = some c →
        alookup cid (cleanupBucketStep now b idx).2.1 = some u' := by
      intro u' b' cid c h' hc
      rw [s3 cid (hcidother u' b' cid c h' hc)]
      exact h4 u' b' cid c (by simpa [alookup, hother u' b' h'] using h') hc
    obtain ⟨c1, c2, c3, c4, c5, c6⟩ :=
      ih (cleanupBucketStep now b idx).2.1 hm.2 s6 hrest3 hrest4
    simp only [cleanupBuckets]
    by_cases hkeep : (cleanupBucketStep now b idx).2.2 = true
    · rw [if_pos hkeep]
      refine ⟨⟨?_, ?_⟩, c2, ?_, ?_, ?_, ?_⟩
      · simp only [List.map_cons, List.nodup_cons]
        exact ⟨fun hmem => hm.1 (c1.2 u hmem), c1.1⟩
      · intro u' hmem
        simp only [List.map_cons, List.mem_cons] at hmem ⊢
        rcases hmem with h' | h'
        · exact Or.inl h'
        · exact Or.inr (c1.2 u' h')
      · intro u' b' h'
        by_cases hne : u = u'
        · simp only [alookup, if_pos hne] at h'
          rw [← Option.some_inj.mp h']
          exact s1
        · simp only [alookup, if_neg hne] at h'
          exact c3 u' b' h'
      · intro u' b' cid c h' hc
        by_cases hne : u = u'
        · simp only [alookup, if_pos hne] at h'
          rw [← Option.some_inj.mp h'] at hc
          have hcb := s2 cid c hc
          have hpre : alookup cid idx = some u := h4 u b cid c (by simp [alookup]) hcb
          rw [c6 cid (hbother cid c hcb), s4 cid c hc, hpre, hne]
        · simp only [alookup, if_neg hne] at h'
          exact c4 u' b' cid c h' hc
      · intro cid u₀ h'
        exact s5 cid u₀ (c5 cid u₀ h')
      · intro cid hnone
        have hhead : alookup cid b.byConnectionId = none :=
          hnone u b (by simp [alookup])
        have hrestnone : ∀ w bw, alookup w rest = some bw →
            alookup cid bw.byConnectionId = none := by
          intro w bw hw
          exact hnone w bw (by simpa [alookup, hother w bw hw] using hw)
        rw [c6 cid hrestnone, s3 cid hhead]
    · rw [if_neg hkeep]
      refine ⟨⟨c1.1, ?_⟩, c2, c3, c4, ?_, ?_⟩
      · intro u' hmem
        simp only [List.map_cons, List.mem_cons]
        exact Or.inr (c1.2 u' hmem)
      · intro cid u₀ h'
        exact s5 cid u₀ (c5 cid u₀ h')
      · intro cid hnone
        have hhead : alookup cid b.byConnectionId = none :=
          hnone u b (by simp [alookup])
        have hrestnone : ∀ w bw, alookup w rest = some bw →
            alookup cid bw.byConnectionId = none := by
          intro w bw hw
          exact hnone w bw (by simpa [alookup, hother w bw hw] using hw)
        rw [c6 cid hrestnone, s3 cid hhead]

theorem cleanup_preserves (now : Int) (st : ManagerState) (h : MgrWF st) :
    MgrWF (cleanup now st) := by
  obtain ⟨n1, n2, n3, n4, n5⟩ := h
  obtain ⟨⟨d1, _⟩, d2, d3, d4, d5, _⟩ :=
    cleanupBuckets_facts now st.maxConnections st.bucketsByUuid st.uuidByConnectionId
      n1 n2 n3 n4
  have hmid : MgrWF { st with
      bucketsByUuid := (cleanupBuckets now st.bucketsByUuid st.uuidByConnectionId).1
      uuidByConnectionId := (cleanupBuckets now st.bucketsByUuid st.uuidByConnectionId).2 } :=
    ⟨d1, d2, d3, d4, fun cid u hcu => n5 cid u (d5 cid u hcu)⟩
  have hev := evictIdle_preserves now _ hmid
  obtain ⟨e1, e2, e3, e4, e5⟩ := hev
  exact ⟨e1, e2, e3, e4, e5⟩

theorem maybeCleanup_preserves (now : Int) (st : ManagerState) (h : MgrWF st) :
    MgrWF (maybeCleanup now st) := by
  unfold maybeCleanup
  split
  · exact h
  · exact cleanup_preserves now st h

theorem evictIdle_max (now : Int) (st : ManagerState) :
    (evictIdleBucketsIfNeeded now st).maxConnections = st.maxConnections := by
  simp only [evictIdleBucketsIfNeeded]
  split
  · rfl
  · split
    · rfl
    · rfl

theorem evictIdle_idx (now : Int) (st : ManagerState) :
    (evictIdleBucketsIfNeeded now st).uuidByConnectionId = st.uuidByConnectionId := by
  simp only [evictIdleBucketsIfNeeded]
  split
  · rfl
  · split
    · rfl
    · rfl

theorem maybeCleanup_max (now : Int) (st : ManagerState) :
    (maybeCleanup now st).maxConnections = st.maxConnections := by
  unfold maybeCleanup
  split
  · rfl
  · show (cleanup now st).maxConnections = st.maxConnections
    unfold cleanup
    rw [evictIdle_max]

theorem maybeCleanup_idx_sub (now : Int) (st : ManagerState) (h : MgrWF st) :
    ∀ cid u, alookup cid (maybeCleanup now st).uuidByConnectionId = some u →
      alookup cid st.uuidByConnectionId = some u := by
  obtain ⟨n1, n2, n3, n4, _⟩ := h
  unfold maybeCleanup
  split
  · exact fun _ _ h' => h'
  · show ∀ cid u, alookup cid (cleanup now st).uuidByConnectionId = some u → _
    unfold cleanup
    rw [evictIdle_idx]
    obtain ⟨_, _, _, _, d5, _⟩ :=
      cleanupBuckets_facts now st.maxConnections st.bucketsByUuid st.uuidByConnectionId
        n1 n2 n3 n4
    exact fun cid u h' => d5 cid u h'

theorem check_preserves (uuid ip : String) (now : Int) (st : ManagerState)
    (h : MgrWF st) : MgrWF (checkConnectionAllowed uuid ip now st).2 := by
  simp only [checkConnectionAllowed]
  split
  · exact h
  · have hmc := maybeCleanup_preserves now st h
    split
    · exact hmc
    · next bucket heq =>
      obtain ⟨n1, n2, n3, n4, n5⟩ := hmc
      have hst : MgrWF { maybeCleanup now st with bucketsByUuid :=
          (aset (normalizeUuid uuid) { bucket with lastTouchedAt := now }
            (maybeCleanup now st).bucketsByUuid) } := by
        refine ⟨keys_aset_nodup _ _ _ n1, n2, ?_, ?_, n5⟩
        · intro u b hb
          by_cases hne : u = normalizeUuid uuid
          · rw [hne, alookup_aset_self] at hb
            rw [← Option.some_inj.mp hb]
            obtain ⟨a1, a2, a3, a4, a5, a6⟩ := n3 (normalizeUuid uuid) bucket heq
            exact ⟨a1, a2, a3, a4, a5, a6⟩
          · rw [alookup_aset_ne _ _ _ _ hne] at hb
            exact n3 u b hb
        · intro u b cid c hb hc
          by_cases hne : u = normalizeUuid uuid
          · rw [hne, alookup_aset_self] at hb
            rw [← Option.some_inj.mp hb] at hc
            rw [hne]
            exact n4 (normalizeUuid uuid) bucket cid c heq hc
          · rw [alookup_aset_ne _ _ _ _ hne] at hb
            exact n4 u b cid c hb hc
      split
      · exact hst
      · split
        · exact hst
        · exact hst

theorem unregister_preserves (uuid cid : String) (now : Int) (st : ManagerState)
    (h : MgrWF st)
    (hsafe : ∀ u, alookup cid st.uuidByConnectionId = some u → u = normalizeUuid uuid) :
    MgrWF (unregisterConnection uuid cid now st) := by
  simp only [unregisterConnection]
  split
  · exact h
  · have hmc := maybeCleanup_preserves now st h
    have hsafec : ∀ u, alookup cid (maybeCleanup now st).uuidByConnectionId = some u →
        u = normalizeUuid uuid :=
      fun u hu => hsafe u (maybeCleanup_idx_sub now st h cid u hu)
    obtain ⟨n1, n2, n3, n4, n5⟩ := hmc
    split
    · next heq =>
      refine ⟨n1, keys_aremove_nodup _ _ n2, n3, ?_, ?_⟩
      · intro u b cid' c hb hc
        by_cases hcc : cid' = cid
        · subst hcc
          have hentry := n4 u b cid' c hb hc
          rw [hsafec u hentry] at hb
          rw [heq] at hb
          exact absurd hb (by simp)
        · rw [alookup_aremove_ne _ _ _ hcc]
          exact n4 u b cid' c hb hc
      · intro cid' u hcu
        by_cases hcc : cid' = cid
        · subst hcc
          rw [alookup_aremove_self _ _ n2] at hcu
          exact absurd hcu (by simp)
        · rw [alookup_aremove_ne _ _ _ hcc] at hcu
          exact n5 cid' u hcu
    · next bucket heq =>
      obtain ⟨p1, p2, p3, p4, p5⟩ := removeConnection_facts (maybeCleanup now st).maxConnections
        bucket (maybeCleanup now st).uuidByConnectionId cid false (n3 _ _ heq) n2
      have hidxgood : ∀ u b cid' c,
          alookup u (maybeCleanup now st).bucketsByUuid = some b →
          ¬ (u = normalizeUuid uuid) →
          alookup cid' b.byConnectionId = some c →
          alookup cid' (removeConnection bucket
            (maybeCleanup now st).uuidByConnectionId cid false).2.1 = some u := by
        intro u b cid' c hb hne hc
        have hentry := n4 u b cid' c hb hc
        by_cases hcc : cid' = cid
        · subst hcc
          exact absurd (hsafec u hentry) hne
        · rw [p4 cid', if_neg hcc]
          exact hentry
      have hn5' : ∀ cid' u, alookup cid' (removeConnection bucket
          (maybeCleanup now st).uuidByConnectionId cid false).2.1 = some u → u ≠ "" := by
        intro cid' u hcu
        have := p4 cid'
        rw [this] at hcu
        by_cases hcc : cid' = cid
        · rw [if_pos hcc] at hcu
          exact absurd hcu (by simp)
        · rw [if_neg hcc] at hcu
          exact n5 cid' u hcu
      have hremwf : ∀ m', m' = aremove (normalizeUuid uuid)
            (maybeCleanup now st).bucketsByUuid →
          MgrWF { maybeCleanup now st with
            bucketsByUuid := m'
            uuidByConnectionId := (removeConnection bucket
              (maybeCleanup now st).uuidByConnectionId cid false).2.1 } := by
        intro m' hm'
        subst hm'
        refine ⟨keys_aremove_nodup _ _ n1, p5, ?_, ?_, hn5'⟩
        · intro u b hb
          by_cases hne : u = normalizeUuid uuid
          · rw [hne, alookup_aremove_self _ _ n1] at hb
            exact absurd hb (by simp)
          · rw [alookup_aremove_ne _ _ _ hne] at hb
            exact n3 u b hb
        · intro u b cid' c hb hc
          by_cases hne : u = normalizeUuid uuid
          · rw [hne, alookup_aremove_self _ _ n1] at hb
            exact absurd hb (by simp)
          · rw [alookup_aremove_ne _ _ _ hne] at hb
            exact hidxgood u b cid' c hb hne hc
      split
      · exact hremwf _ rfl
      · split
        · exact hremwf _ rfl
        · refine ⟨keys_aset_nodup _ _ _ n1, p5, ?_, ?_, hn5'⟩
          · intro u b hb
            by_cases hne : u = normalizeUuid uuid
            · rw [hne, alookup_aset_self] at hb
              rw [← Option.some_inj.mp hb]
              exact p1
            · rw [alookup_aset_ne _ _ _ _ hne] at hb
              exact n3 u b hb
          · intro u b cid' c hb hc
            by_cases hne : u = normalizeUuid uuid
            · rw [hne, alookup_aset_self] at hb
              rw [← Option.some_inj.mp hb] at hc
              have hc' : alookup cid' (removeConnection bucket
                  (maybeCleanup now st).uuidByConnectionId cid false).1.byConnectionId =
                  some c := hc
              rw [p2 cid'] at hc'
              by_cases hcc : cid' = cid
              · rw [if_pos hcc] at hc'
                exact absurd hc' (by simp)
              · rw [if_neg hcc] at hc'
                have hentry := n4 (normalizeUuid uuid) bucket cid' c heq hc'
                rw [p4 cid', if_neg hcc, hne]
                exact hentry
            · rw [alookup_aset_ne _ _ _ _ hne] at hb
              exact hidxgood u b cid' c hb hne hc

theorem getOrCreateBucket_WF (nu : String) (now : Int) (stc : ManagerState)
    (h : MgrWF stc) :
    BucketWF stc.maxConnections (getOrCreateBucket nu now stc.bucketsByUuid) ∧
    (∀ cid c, alookup cid (getOrCreateBucket nu now stc.bucketsByUuid).byConnectionId =
      some c → alookup cid stc.uuidByConnectionId = some nu) := by
  obtain ⟨n1, n2, n3, n4, n5⟩ := h
  cases hg : alookup nu stc.bucketsByUuid with
  | some existing =>
    simp only [getOrCreateBucket, hg]
    obtain ⟨a1, a2, a3, a4, a5, a6⟩ := n3 nu existing hg
    exact ⟨⟨a1, a2, a3, a4, a5, a6⟩, fun cid c hc => n4 nu existing cid c hg hc⟩
  | none =>
    simp only [getOrCreateBucket, hg]
    refine ⟨⟨by simp, by simp, ?_, ?_, ?_, by simp⟩, ?_⟩
    · intro ip s h'
      simp [alookup] at h'
    · intro ip s cid h' _
      simp [alookup] at h'
    · intro cid c h'
      simp [alookup] at h'
    · intro cid c h'
      simp [alookup] at h'

theorem registerStage2_facts (nu ni : String) (now : Int) (stc : ManagerState)
    (h : MgrWF stc) :
    MgrWF (registerStage2 nu ni now stc).1 ∧
    alookup ni (registerStage2 nu ni now stc).2.byIp = none ∧
    alookup nu (registerStage2 nu ni now stc).1.bucketsByUuid =
      some (registerStage2 nu ni now stc).2 ∧
    (registerStage2 nu ni now stc).1.maxConnections = stc.maxConnections := by
  obtain ⟨hbwf0, hbentries⟩ := getOrCreateBucket_WF nu now stc h
  obtain ⟨n1, n2, n3, n4, n5⟩ := h
  obtain ⟨p1, p2, p3, p4, p5, p6, p7, p8⟩ := removeLoop_facts stc.maxConnections true
    ((alookup ni (getOrCreateBucket nu now stc.bucketsByUuid).byIp).getD [])
    (getOrCreateBucket nu now stc.bucketsByUuid) stc.uuidByConnectionId hbwf0 n2
  have hSconns : ∀ cid' ∈ ((alookup ni
      (getOrCreateBucket nu now stc.bucketsByUuid).byIp).getD []),
      ∃ c, alookup cid' (getOrCreateBucket nu now stc.bucketsByUuid).byConnectionId =
        some c := by
    intro cid' hm
    cases hip : alookup ni (getOrCreateBucket nu now stc.bucketsByUuid).byIp with
    | none =>
      rw [hip] at hm
      exact absurd hm (by simp)
    | some s0 =>
      rw [hip] at hm
      simp only [Option.getD_some] at hm
      obtain ⟨c, hc, _⟩ := hbwf0.2.2.2.1 ni s0 cid' hip hm
      exact ⟨c, hc⟩
  have hkey1 : alookup ni (removeLoop true
      ((alookup ni (getOrCreateBucket nu now stc.bucketsByUuid).byIp).getD [])
      (getOrCreateBucket nu now stc.bucketsByUuid) stc.uuidByConnectionId).1.byIp =
      none := by
    cases hip2 : alookup ni (removeLoop true
        ((alookup ni (getOrCreateBucket nu now stc.bucketsByUuid).byIp).getD [])
        (getOrCreateBucket nu now stc.bucketsByUuid) stc.uuidByConnectionId).1.byIp with
    | none => rfl
    | some s' =>
      exfalso
      have hne := p1.2.2.1 ni s' hip2
      obtain ⟨cid'', hcm⟩ := List.exists_mem_of_ne_nil s' hne
      obtain ⟨c'', hc'', hcip⟩ := p1.2.2.2.1 ni s' cid'' hip2 hcm
      have hb0 := p2 cid'' c'' hc''
      obtain ⟨s, hs, hsm⟩ := hbwf0.2.2.2.2.1 cid'' c'' hb0
      rw [hcip] at hs
      have hmemS : cid'' ∈ ((alookup ni
          (getOrCreateBucket nu now stc.bucketsByUuid).byIp).getD []) := by
        rw [hs]
        simpa using hsm
      rw [p3 cid'' hmemS] at hc''
      exact absurd hc'' (by simp)
  have hloopidx : ∀ cid' c, alookup cid' (removeLoop true
      ((alookup ni (getOrCreateBucket nu now stc.bucketsByUuid).byIp).getD [])
      (getOrCreateBucket nu now stc.bucketsByUuid) stc.uuidByConnectionId).1.byConnectionId =
      some c →
      alookup cid' (removeLoop true
        ((alookup ni (getOrCreateBucket nu now stc.bucketsByUuid).byIp).getD [])
        (getOrCreateBucket nu now stc.bucketsByUuid) stc.uuidByConnectionId).2.1 =
      some nu := by
    intro cid' c hc
    have hb0 := p2 cid' c hc
    have hentry := hbentries cid' c hb0
    have hnot : cid' ∉ ((alookup ni
        (getOrCreateBucket nu now stc.bucketsByUuid).byIp).getD []) := by
      intro hm
      rw [p3 cid' hm] at hc
      exact absurd hc (by simp)
    rw [p6 cid' hnot]
    exact hentry
  have hotheridx : ∀ cid', alookup cid' stc.uuidByConnectionId ≠ some nu →
      alookup cid' (removeLoop true
        ((alookup ni (getOrCreateBucket nu now stc.bucketsByUuid).byIp).getD [])
        (getOrCreateBucket nu now stc.bucketsByUuid) stc.uuidByConnectionId).2.1 =
      alookup cid' stc.uuidByConnectionId := by
    intro cid' hne
    have hnot : cid' ∉ ((alookup ni
        (getOrCreateBucket nu now stc.bucketsByUuid).byIp).getD []) := by
      intro hm
      obtain ⟨c, hc⟩ := hSconns cid' hm
      exact hne (hbentries cid' c hc)
    exact p6 cid' hnot
  simp only [registerStage2]
  refine ⟨⟨?_, p8, ?_, ?_, ?_⟩, hkey1, ?_, by trivial⟩
  · exact keys_aset_nodup _ _ _ (keys_aset_nodup _ _ _ n1)
  · intro u b hb
    by_cases hne : u = nu
    · rw [hne, alookup_aset_self] at hb
      rw [← Option.some_inj.mp hb]
      exact p1
    · rw [alookup_aset_ne _ _ _ _ hne, alookup_aset_ne _ _ _ _ hne] at hb
      exact n3 u b hb
  · intro u b cid' c hb hc
    by_cases hne : u = nu
    · rw [hne, alookup_aset_self] at hb
      rw [← Option.some_inj.mp hb] at hc
      rw [hne]
      exact hloopidx cid' c hc
    · rw [alookup_aset_ne _ _ _ _ hne, alookup_aset_ne _ _ _ _ hne] at hb
      have hentry := n4 u b cid' c hb hc
      rw [hotheridx cid' (by rw [hentry]; intro hcon; exact hne (Option.some_inj.mp hcon))]
      exact hentry
  · intro cid' u hcu
    exact n5 cid' u (p7 cid' u hcu)
  · exact alookup_aset_self _ _ _

theorem registerInsert_WF (max : Nat) (b : UUIDBucket) (ni cid : String) (now : Int)
    (hb : BucketWF max b) (hlen : b.byConnectionId.length < max)
    (hnc : alookup cid b.byConnectionId = none) :
    BucketWF max { b with
      byConnectionId := aset cid { ip := ni, timestamp := now } b.byConnectionId
      byIp := aset ni (addToSet ((alookup ni b.byIp).getD []) cid) b.byIp
      lastTouchedAt := now } := by
  obtain ⟨w1, w2, w3, w4, w5, w6⟩ := hb
  have hconn : ∀ cid', alookup cid'
      (aset cid { ip := ni, timestamp := now } b.byConnectionId) =
      if cid' = cid then some { ip := ni, timestamp := now }
      else alookup cid' b.byConnectionId := by
    intro cid'
    by_cases h' : cid' = cid
    · rw [if_pos h', h']
      exact alookup_aset_self _ _ _
    · rw [if_neg h']
      exact alookup_aset_ne _ _ _ _ h'
  have hip : ∀ ip', alookup ip'
      (aset ni (addToSet ((alookup ni b.byIp).getD []) cid) b.byIp) =
      if ip' = ni then some (addToSet ((alookup ni b.byIp).getD []) cid)
      else alookup ip' b.byIp := by
    intro ip'
    by_cases h' : ip' = ni
    · rw [if_pos h', h']
      exact alookup_aset_self _ _ _
    · rw [if_neg h']
      exact alookup_aset_ne _ _ _ _ h'
  refine ⟨keys_aset_nodup _ _ _ w1, keys_aset_nodup _ _ _ w2, ?_, ?_, ?_, ?_⟩
  · intro ip s h'
    rw [hip ip] at h'
    by_cases hipn : ip = ni
    · rw [if_pos hipn] at h'
      rw [← Option.some_inj.mp h']
      intro hemp
      have : cid ∈ addToSet ((alookup ni b.byIp).getD []) cid :=
        (mem_addToSet _ _ _).mpr (Or.inr rfl)
      rw [hemp] at this
      exact absurd this (by simp)
    · rw [if_neg hipn] at h'
      exact w3 ip s h'
  · intro ip s cid'' h' hm
    rw [hip ip] at h'
    by_cases hipn : ip = ni
    · rw [if_pos hipn] at h'
      rw [← Option.some_inj.mp h'] at hm
      rcases (mem_addToSet _ _ _).mp hm with hm' | hm'
      · -- an old member of the set at ni
        cases hipold : alookup ni b.byIp with
        | none =>
          rw [hipold] at hm'
          exact absurd hm' (by simp)
        | some s₁ =>
          rw [hipold] at hm'
          simp only [Option.getD_some] at hm'
          obtain ⟨c, hc, hcip⟩ := w4 ni s₁ cid'' hipold hm'
          have hne : ¬ (cid'' = cid) := by
            intro heq
            rw [heq, hnc] at hc
            exact absurd hc (by simp)
          refine ⟨c, ?_, by rw [hcip, hipn]⟩
          rw [hconn cid'', if_neg hne]
          exact hc
      · refine ⟨{ ip := ni, timestamp := now }, ?_, by rw [hipn]⟩
        rw [hconn cid'', if_pos hm']
    · rw [if_neg hipn] at h'
      obtain ⟨c, hc, hcip⟩ := w4 ip s cid'' h' hm
      have hne : ¬ (cid'' = cid) := by
        intro heq
        rw [heq, hnc] at hc
        exact absurd hc (by simp)
      refine ⟨c, ?_, hcip⟩
      rw [hconn cid'', if_neg hne]
      exact hc
  · intro cid'' c h'
    rw [hconn cid''] at h'
    by_cases hne : cid'' = cid
    · rw [if_pos hne] at h'
      have hceq : c = { ip := ni, timestamp := now } := (Option.some_inj.mp h').symm
      rw [hceq]
      rw [show ({ ip := ni, timestamp := now } : UUIDTrackedConnection).ip = ni from rfl]
      rw [hip ni, if_pos rfl]
      refine ⟨_, rfl, ?_⟩
      rw [hne]
      exact (mem_addToSet _ _ _).mpr (Or.inr rfl)
    · rw [if_neg hne] at h'
      obtain ⟨s, hs, hsm⟩ := w5 cid'' c h'
      rw [hip c.ip]
      by_cases hipn : c.ip = ni
      · rw [if_pos hipn]
        refine ⟨_, rfl, ?_⟩
        apply (mem_addToSet _ _ _).mpr
        left
        rw [hipn] at hs
        rw [hs]
        simpa using hsm
      · rw [if_neg hipn]
        exact ⟨s, hs, hsm⟩
  · exact le_trans (length_aset_le _ _ _) (by omega)

theorem registerCross_facts (nu cid : String) (st2 : ManagerState) (bucket1 : UUIDBucket)
    (h : MgrWF st2) (hb1 : alookup nu st2.bucketsByUuid = some bucket1) :
    ((registerCross nu cid st2 bucket1).1.map Prod.fst).Nodup ∧
    ((registerCross nu cid st2 bucket1).2.1.map Prod.fst).Nodup ∧
    (∀ u b, alookup u (registerCross nu cid st2 bucket1).1 = some b →
      BucketWF st2.maxConnections b) ∧
    (∀ u b cid' c, alookup u (registerCross nu cid st2 bucket1).1 = some b →
      alookup cid' b.byConnectionId = some c →
      ¬ (cid' = cid) ∧ alookup cid' (registerCross nu cid st2 bucket1).2.1 = some u) ∧
    (∀ cid' u, alookup cid' (registerCross nu cid st2 bucket1).2.1 = some u → u ≠ "") ∧
    alookup cid (registerCross nu cid st2 bucket1).2.2.1.byConnectionId = none ∧
    BucketWF st2.maxConnections (registerCross nu cid st2 bucket1).2.2.1 ∧
    (registerCross nu cid st2 bucket1).2.2.1.byConnectionId.length ≤
      bucket1.byConnectionId.length ∧
    (∀ cid' c, alookup cid' (registerCross nu cid st2 bucket1).2.2.1.byConnectionId =
      some c → alookup cid' (registerCross nu cid st2 bucket1).2.1 = some nu) := by
  obtain ⟨n1, n2, n3, n4, n5⟩ := h
  have hbwf1 := n3 nu bucket1 hb1
  cases hidx : alookup cid st2.uuidByConnectionId with
  | none =>
    simp only [registerCross, hidx]
    have hnocid : ∀ u b, alookup u st2.bucketsByUuid = some b →
        alookup cid b.byConnectionId = none := by
      intro u b hb
      cases hcb : alookup cid b.byConnectionId with
      | none => rfl
      | some c =>
        have h2 := n4 u b cid c hb hcb
        rw [hidx] at h2
        exact absurd h2 (by simp)
    refine ⟨n1, n2, n3, ?_, n5, hnocid nu bucket1 hb1, hbwf1, le_refl _, ?_⟩
    · intro u b cid' c hb hc
      refine ⟨?_, n4 u b cid' c hb hc⟩
      intro heq
      rw [heq, hnocid u b hb] at hc
      exact absurd hc (by simp)
    · intro cid' c hc
      exact n4 nu bucket1 cid' c hb1 hc
  | some eu =>
    have heu : ¬ (eu = "") := n5 cid eu hidx
    simp only [registerCross, hidx]
    rw [if_neg heu]
    cases heb : alookup eu st2.bucketsByUuid with
    | none =>
      simp only [heb]
      have hnocid : ∀ u b, alookup u st2.bucketsByUuid = some b →
          alookup cid b.byConnectionId = none := by
        intro u b hb
        cases hcb : alookup cid b.byConnectionId with
        | none => rfl
        | some c =>
          have h2 := n4 u b cid c hb hcb
          rw [hidx] at h2
          have h3 : eu = u := Option.some_inj.mp h2
          rw [← h3] at hb
          rw [heb] at hb
          exact absurd hb (by simp)
      have hne4 : ∀ u b cid' c, alookup u st2.bucketsByUuid = some b →
          alookup cid' b.byConnectionId = some c → ¬ (cid' = cid) := by
        intro u b cid' c hb hc heq
        rw [heq, hnocid u b hb] at hc
        exact absurd hc (by simp)
      refine ⟨n1, keys_aremove_nodup _ _ n2, n3, ?_, ?_,
        hnocid nu bucket1 hb1, hbwf1, le_refl _, ?_⟩
      · intro u b cid' c hb hc
        refine ⟨hne4 u b cid' c hb hc, ?_⟩
        rw [alookup_aremove_ne _ _ _ (hne4 u b cid' c hb hc)]
        exact n4 u b cid' c hb hc
      · intro cid' u hcu
        by_cases hcc : cid' = cid
        · rw [hcc, alookup_aremove_self _ _ n2] at hcu
          exact absurd hcu (by simp)
        · rw [alookup_aremove_ne _ _ _ hcc] at hcu
          exact n5 cid' u hcu
      · intro cid' c hc
        rw [alookup_aremove_ne _ _ _ (hne4 nu bucket1 cid' c hb1 hc)]
        exact n4 nu bucket1 cid' c hb1 hc
    | some eb =>
      simp only [heb]
      have hebwf := n3 eu eb heb
      obtain ⟨p1, p2, p3, p4, p5⟩ := removeConnection_facts st2.maxConnections eb
        st2.uuidByConnectionId cid false hebwf n2
      have hidx' : ∀ cid', alookup cid' (removeConnection eb
          st2.uuidByConnectionId cid false).2.1 =
          if cid' = cid then none else alookup cid' st2.uuidByConnectionId := p4
      have hn5' : ∀ cid' u, alookup cid' (removeConnection eb
          st2.uuidByConnectionId cid false).2.1 = some u → u ≠ "" := by
        intro cid' u hcu
        rw [hidx' cid'] at hcu
        by_cases hcc : cid' = cid
        · rw [if_pos hcc] at hcu
          exact absurd hcu (by simp)
        · rw [if_neg hcc] at hcu
          exact n5 cid' u hcu
      by_cases heunu : eu = nu
      · rw [if_pos heunu]
        have hebeq : eb = bucket1 := by
          rw [heunu] at heb
          rw [heb] at hb1
          exact Option.some_inj.mp hb1
      -- bucket2 = r.1 in this branch
        have hr9 : ∀ cid' c, alookup cid' (removeConnection eb
            st2.uuidByConnectionId cid false).1.byConnectionId = some c →
            alookup cid' (removeConnection eb
              st2.uuidByConnectionId cid false).2.1 = some nu := by
          intro cid' c hc
          rw [p2 cid'] at hc
          by_cases hcc : cid' = cid
          · rw [if_pos hcc] at hc
            exact absurd hc (by simp)
          · rw [if_neg hcc] at hc
            rw [hidx' cid', if_neg hcc]
            rw [← heunu]
            exact n4 eu eb cid' c heb hc
        have hmapdel : ∀ u b cid' c,
            alookup u (aremove nu st2.bucketsByUuid) = some b →
            alookup cid' b.byConnectionId = some c →
            ¬ (cid' = cid) ∧ alookup cid' (removeConnection eb
              st2.uuidByConnectionId cid false).2.1 = some u := by
          intro u b cid' c hb hc
          have hune : ¬ (u = nu) := by
            intro heq
            rw [heq, alookup_aremove_self _ _ n1] at hb
            exact absurd hb (by simp)
          rw [alookup_aremove_ne _ _ _ hune] at hb
          have hentry := n4 u b cid' c hb hc
          have hcc : ¬ (cid' = cid) := by
            intro heq
            rw [heq] at hentry
            rw [hidx] at hentry
            have : eu = u := Option.some_inj.mp hentry
            rw [heunu] at this
            exact hune this.symm
          refine ⟨hcc, ?_⟩
          rw [hidx' cid', if_neg hcc]
          exact hentry
        by_cases hdel : (removeConnection eb st2.uuidByConnectionId cid false).2.2 = true
        · rw [if_pos hdel]
          refine ⟨keys_aremove_nodup _ _ n1, p5, ?_, hmapdel, hn5', ?_, p1, ?_, hr9⟩
          · intro u b hb
            have hune : ¬ (u = nu) := by
              intro heq
              rw [heq, alookup_aremove_self _ _ n1] at hb
              exact absurd hb (by simp)
            rw [alookup_aremove_ne _ _ _ hune] at hb
            exact n3 u b hb
          · rw [p2 cid, if_pos rfl]
          · rw [← hebeq]
            exact p3
        · rw [if_neg hdel]
          refine ⟨keys_aset_nodup _ _ _ n1, p5, ?_, ?_, hn5', ?_, p1, ?_, hr9⟩
          · intro u b hb
            by_cases hune : u = nu
            · rw [hune, alookup_aset_self] at hb
              rw [← Option.some_inj.mp hb]
              exact p1
            · rw [alookup_aset_ne _ _ _ _ hune] at hb
              exact n3 u b hb
          · intro u b cid' c hb hc
            by_cases hune : u = nu
            · rw [hune, alookup_aset_self] at hb
              rw [← Option.some_inj.mp hb] at hc
              have := hr9 cid' c hc
              have hcc : ¬ (cid' = cid) := by
                intro heq
                rw [heq] at hc
                have hc2 : alookup cid (removeConnection eb
                    st2.uuidByConnectionId cid false).1.byConnectionId = some c := hc
                rw [p2 cid, if_pos rfl] at hc2
                exact absurd hc2 (by simp)
              rw [hune]
              exact ⟨hcc, this⟩
            · rw [alookup_aset_ne _ _ _ _ hune] at hb
              have hentry := n4 u b cid' c hb hc
              have hcc : ¬ (cid' = cid) := by
                intro heq
                rw [heq] at hentry
                rw [hidx] at hentry
                have : eu = u := Option.some_inj.mp hentry
                rw [heunu] at this
                exact hune this.symm
              refine ⟨hcc, ?_⟩
              rw [hidx' cid', if_neg hcc]
              exact hentry
          · rw [p2 cid, if_pos rfl]
          · rw [← hebeq]
            exact p3
      · rw [if_neg heunu]
        have hnocid1 : alookup cid bucket1.byConnectionId = none := by
          cases hcb : alookup cid bucket1.byConnectionId with
          | none => rfl
          | some c =>
            have h2 := n4 nu bucket1 cid c hb1 hcb
            rw [hidx] at h2
            exact absurd (Option.some_inj.mp h2) heunu
        have hr9 : ∀ cid' c, alookup cid' bucket1.byConnectionId = some c →
            alookup cid' (removeConnection eb
              st2.uuidByConnectionId cid false).2.1 = some nu := by
          intro cid' c hc
          have hcc : ¬ (cid' = cid) := by
            intro heq
            rw [heq, hnocid1] at hc
            exact absurd hc (by simp)
          rw [hidx' cid', if_neg hcc]
          exact n4 nu bucket1 cid' c hb1 hc
        by_cases hdel : (removeConnection eb st2.uuidByConnectionId cid false).2.2 = true
        · rw [if_pos hdel]
          refine ⟨keys_aremove_nodup _ _ n1, p5, ?_, ?_, hn5',
            hnocid1, hbwf1, le_refl _, hr9⟩
          · intro u b hb
            have hune : ¬ (u = eu) := by
              intro heq
              rw [heq, alookup_aremove_self _ _ n1] at hb
              exact absurd hb (by simp)
            rw [alookup_aremove_ne _ _ _ hune] at hb
            exact n3 u b hb
          · intro u b cid' c hb hc
            have hune : ¬ (u = eu) := by
              intro heq
              rw [heq, alookup_aremove_self _ _ n1] at hb
              exact absurd hb (by simp)
            rw [alookup_aremove_ne _ _ _ hune] at hb
            have hentry := n4 u b cid' c hb hc
            have hcc : ¬ (cid' = cid) := by
              intro heq
              rw [heq] at hentry
              rw [hidx] at hentry
              exact hune (Option.some_inj.mp hentry).symm
            refine ⟨hcc, ?_⟩
            rw [hidx' cid', if_neg hcc]
            exact hentry
        · rw [if_neg hdel]
          refine ⟨keys_aset_nodup _ _ _ n1, p5, ?_, ?_, hn5',
            hnocid1, hbwf1, le_refl _, hr9⟩
          · intro u b hb
            by_cases hune : u = eu
            · rw [hune, alookup_aset_self] at hb
              rw [← Option.some_inj.mp hb]
              exact p1
            · rw [alookup_aset_ne _ _ _ _ hune] at hb
              exact n3 u b hb
          · intro u b cid' c hb hc
            by_cases hune : u = eu
            · rw [hune, alookup_aset_self] at hb
              rw [← Option.some_inj.mp hb] at hc
              have hc2 := hc
              rw [p2 cid'] at hc2
              by_cases hcc : cid' = cid
              · rw [if_pos hcc] at hc2
                exact absurd hc2 (by simp)
              · rw [if_neg hcc] at hc2
                refine ⟨hcc, ?_⟩
                rw [hidx' cid', if_neg hcc, hune]
                exact n4 eu eb cid' c heb hc2
            · rw [alookup_aset_ne _ _ _ _ hune] at hb
              have hentry := n4 u b cid' c hb hc
              have hcc : ¬ (cid' = cid) := by
                intro heq
                rw [heq] at hentry
                rw [hidx] at hentry
                exact hune (Option.some_inj.mp hentry).symm
              refine ⟨hcc, ?_⟩
              rw [hidx' cid', if_neg hcc]
              exact hentry

theorem registerFinish_preserves (nu ni cid : String) (now : Int) (st2 : ManagerState)
    (bucket1 : UUIDBucket) (h : MgrWF st2)
    (hb1 : alookup nu st2.bucketsByUuid = some bucket1)
    (hlen : bucket1.byConnectionId.length < st2.maxConnections)
    (hnu : ¬ (nu = "")) :
    MgrWF (registerFinish nu ni cid now st2 bucket1) := by
  obtain ⟨c1, c2, c3, c4, c5, c6, c7, c8, c9⟩ := registerCross_facts nu cid st2 bucket1 h hb1
  simp only [registerFinish]
  apply evictIdle_preserves
  have hidx3 : ∀ cid', alookup cid'
      (aset cid nu (registerCross nu cid st2 bucket1).2.1) =
      if cid' = cid then some nu
      else alookup cid' (registerCross nu cid st2 bucket1).2.1 := by
    intro cid'
    by_cases h' : cid' = cid
    · rw [if_pos h', h']
      exact alookup_aset_self _ _ _
    · rw [if_neg h']
      exact alookup_aset_ne _ _ _ _ h'
  have hn5 : ∀ cid' u, alookup cid'
      (aset cid nu (registerCross nu cid st2 bucket1).2.1) = some u → u ≠ "" := by
    intro cid' u hcu
    rw [hidx3 cid'] at hcu
    by_cases h' : cid' = cid
    · rw [if_pos h'] at hcu
      rw [← Option.some_inj.mp hcu]
      exact hnu
    · rw [if_neg h'] at hcu
      exact c5 cid' u hcu
  by_cases hdet : (registerCross nu cid st2 bucket1).2.2.2 = true
  · rw [if_pos hdet]
    refine ⟨c1, keys_aset_nodup _ _ _ c2, c3, ?_, hn5⟩
    intro u b cid' c hb hc
    obtain ⟨hcc, hentry⟩ := c4 u b cid' c hb hc
    rw [hidx3 cid', if_neg hcc]
    exact hentry
  · rw [if_neg hdet]
    have hbwf3 := registerInsert_WF st2.maxConnections
      (registerCross nu cid st2 bucket1).2.2.1 ni cid now c7
      (lt_of_le_of_lt c8 hlen) c6
    refine ⟨keys_aset_nodup _ _ _ c1, keys_aset_nodup _ _ _ c2, ?_, ?_, hn5⟩
    · intro u b hb
      by_cases hune : u = nu
      · rw [hune, alookup_aset_self] at hb
        rw [← Option.some_inj.mp hb]
        exact hbwf3
      · rw [alookup_aset_ne _ _ _ _ hune] at hb
        exact c3 u b hb
    · intro u b cid' c hb hc
      by_cases hune : u = nu
      · rw [hune, alookup_aset_self] at hb
        rw [← Option.some_inj.mp hb] at hc
        have hc2 : alookup cid' (aset cid { ip := ni, timestamp := now }
            (registerCross nu cid st2 bucket1).2.2.1.byConnectionId) = some c := hc
        by_cases hcc : cid' = cid
        · rw [hune, hidx3 cid', if_pos hcc]
        · rw [alookup_aset_ne _ _ _ _ hcc] at hc2
          rw [hune, hidx3 cid', if_neg hcc]
          exact c9 cid' c hc2
      · rw [alookup_aset_ne _ _ _ _ hune] at hb
        obtain ⟨hcc, hentry⟩ := c4 u b cid' c hb hc
        rw [hidx3 cid', if_neg hcc]
        exact hentry

theorem register_preserves (uuid ip cid : String) (now : Int) (st : ManagerState)
    (h : MgrWF st) (hnu : ¬ (normalizeUuid uuid = "")) :
    MgrWF (registerConnection uuid ip cid now st) := by
  simp only [registerConnection]
  split
  · exact h
  · obtain ⟨hs2wf, hs2ip, hs2lookup, hs2max⟩ :=
      registerStage2_facts (normalizeUuid uuid) (normalizeIp ip) now (maybeCleanup now st)
        (maybeCleanup_preserves now st h)
    split
    · exact hs2wf
    · next hskip =>
      apply registerFinish_preserves _ _ _ _ _ _ hs2wf hs2lookup ?_ hnu
      rcases not_and_or.mp hskip with hlt | hne
      · rw [hs2max, maybeCleanup_max]
        omega
      · exact absurd hs2ip hne

/-- The per-operation discipline under which the cap invariant is
restored: every `unregisterConnection` names the UUID under which its
connection id is currently registered (or an untracked connection id),
and every `registerConnection` carries a UUID that does not normalize to
the empty string. -/
def opSafe : UuidOp → ManagerState → Bool
  | .register _ uuid _ _, _ => ! decide (normalizeUuid uuid = "")
  | .unregister _ uuid cid, st =>
    match alookup cid st.uuidByConnectionId with
    | none => true
    | some u => decide (u = normalizeUuid uuid)
  | .check _ _ _, _ => true

def runSafe : List UuidOp → ManagerState → Bool
  | [], _ => true
  | op :: rest, st => opSafe op st && runSafe rest (stepOp op st)

theorem check_max (uuid ip : String) (now : Int) (st : ManagerState) :
    (checkConnectionAllowed uuid ip now st).2.maxConnections = st.maxConnections := by
  simp only [checkConnectionAllowed]
  split
  · rfl
  · split
    · exact maybeCleanup_max now st
    · split
      · exact maybeCleanup_max now st
      · split
        · exact maybeCleanup_max now st
        · exact maybeCleanup_max now st

theorem register_max (uuid ip cid : String) (now : Int) (st : ManagerState) :
    (registerConnection uuid ip cid now st).maxConnections = st.maxConnections := by
  simp only [registerConnection]
  split
  · rfl
  · split
    · show (registerStage2 (normalizeUuid uuid) (normalizeIp ip) now
          (maybeCleanup now st)).1.maxConnections = st.maxConnections
      simp only [registerStage2]
      exact maybeCleanup_max now st
    · show (registerFinish (normalizeUuid uuid) (normalizeIp ip) cid now
          (registerStage2 (normalizeUuid uuid) (normalizeIp ip) now (maybeCleanup now st)).1
          (registerStage2 (normalizeUuid uuid) (normalizeIp ip) now
            (maybeCleanup now st)).2).maxConnections = st.maxConnections
      simp only [registerFinish]
      rw [evictIdle_max]
      show (registerStage2 (normalizeUuid uuid) (normalizeIp ip) now
          (maybeCleanup now st)).1.maxConnections = st.maxConnections
      simp only [registerStage2]
      exact maybeCleanup_max now st

theorem unregister_max (uuid cid : String) (now : Int) (st : ManagerState) :
    (unregisterConnection uuid cid now st).maxConnections = st.maxConnections := by
  simp only [unregisterConnection]
  split
  · rfl
  · split
    · exact maybeCleanup_max now st
    · exact maybeCleanup_max now st

theorem stepOp_max (op : UuidOp) (st : ManagerState) :
    (stepOp op st).maxConnections = st.maxConnections := by
  cases op with
  | check now uuid ip => exact check_max uuid ip now st
  | register now uuid ip cid => exact register_max uuid ip cid now st
  | unregister now uuid cid => exact unregister_max uuid cid now st

theorem runOps_max (ops : List UuidOp) :
    ∀ st, (runOps ops st).maxConnections = st.maxConnections := by
  induction ops with
  | nil => intro st; rfl
  | cons op rest ih =>
    intro st
    rw [show runOps (op :: rest) st = runOps rest (stepOp op st) from rfl]
    rw [ih (stepOp op st), stepOp_max]

theorem stepOp_preserves (op : UuidOp) (st : ManagerState) (h : MgrWF st)
    (hs : opSafe op st = true) : MgrWF (stepOp op st) := by
  cases op with
  | check now uuid ip => exact check_preserves uuid ip now st h
  | register now uuid ip cid =>
    apply register_preserves uuid ip cid now st h
    simp only [opSafe, Bool.not_eq_true'] at hs
    exact fun heq => by rw [heq] at hs; simp at hs
  | unregister now uuid cid =>
    apply unregister_preserves uuid cid now st h
    intro u hu
    simp only [opSafe] at hs
    rw [hu] at hs
    exact of_decide_eq_true hs

theorem runOps_preserves (ops : List UuidOp) :
    ∀ st, MgrWF st → runSafe ops st = true → MgrWF (runOps ops st) := by
  induction ops with
  | nil => intro st h _; exact h
  | cons op rest ih =>
    intro st h hs
    simp only [runSafe, Bool.and_eq_true] at hs
    exact ih (stepOp op st) (stepOp_preserves op st h hs.1) hs.2

theorem initState_WF (max : Nat) (startAt : Int) : MgrWF (initState max startAt) := by
  refine ⟨by simp [initState], by simp [initState], ?_, ?_, ?_⟩
  · intro u b h
    simp [initState, alookup] at h
  · intro u b cid c h
    simp [initState, alookup] at h
  · intro cid u h
    simp [initState, alookup] at h

/-- A six-operation trace with cap 2: a mismatched `unregisterConnection`
(wrong UUID for an active connection id) erases the reverse-index entry,
a re-register of the same connection id from a new address then leaves a
stale member in the old address's `byIp` set, and the final register from
that address bypasses the full-bucket skip. -/
def exploitOps : List UuidOp :=
  [ .register 0 "u" "ipa" "c1",
    .unregister 0 "v" "c1",
    .register 0 "u" "ipb" "c1",
    .register 0 "u" "ipb" "c2",
    .register 0 "u" "ipc" "c3",
    .register 0 "u" "ipa" "c4" ]

/-- **C10 counterexample.** With cap 2, after the first five operations of
`exploitOps` the bucket holds 2 sessions and the address `ipa` holds none
of them, yet the sixth operation — a register from `ipa` on that full
bucket — grows the bucket to 3 active sessions, exceeding the cap. -/
theorem uuid_bucket_cap_exceeded :
    ((alookup "u" (runOps (exploitOps.take 5) (initState 2 0)).bucketsByUuid).map
        (fun b => b.byConnectionId.length)).getD 0 = 2 ∧
    ((alookup "u" (runOps (exploitOps.take 5) (initState 2 0)).bucketsByUuid).map
        (fun b => (b.byConnectionId.filter
          (fun p => decide (p.2.ip = "ipa"))).length)).getD 1 = 0 ∧
    ((alookup "u" (runOps exploitOps (initState 2 0)).bucketsByUuid).map
        (fun b => b.byConnectionId.length)).getD 0 = 3 := by
  decide

/-- **C10 (amended).** The per-bucket session cap can be violated through
mismatched unregisters (see `uuid_bucket_cap_exceeded`); under the
discipline `runSafe` — every unregister names the connection id's current
UUID and registered UUIDs do not normalize to the empty string — every
bucket of the manager holds at most `max` active sessions after any
sequence of check/register/unregister operations; in particular a
register on a full bucket from an address holding no session in that
bucket then leaves the bucket's size within the cap. -/
theorem uuid_bucket_cap_amended (max : Nat) (startAt : Int) (ops : List UuidOp)
    (hsafe : runSafe ops (initState max startAt) = true) :
    ∀ u b, alookup u (runOps ops (initState max startAt)).bucketsByUuid = some b →
      b.byConnectionId.length ≤ max := by
  have hwf := runOps_preserves ops (initState max startAt) (initState_WF max startAt) hsafe
  intro u b hb
  have hbwf := hwf.2.2.1 u b hb
  rw [runOps_max ops (initState max startAt)] at hbwf
  exact hbwf.2.2.2.2.2

/-- A five-operation trace obeying the `runSafe` discipline. -/
def safeOps : List UuidOp :=
  [ .register 0 "u" "ipa" "c1",
    .check 0 "u" "ipa",
    .register 0 "u" "ipb" "c2",
    .unregister 0 "u" "c1",
    .register 0 "u" "ipc" "c3" ]

/-- Witness for `uuid_bucket_cap_amended` on a concrete safe trace with
cap 2. -/
theorem uuid_bucket_cap_amended_witness :
    runSafe safeOps (initState 2 0) = true ∧
    (∀ u b, alookup u (runOps safeOps (initState 2 0)).bucketsByUuid = some b →
      b.byConnectionId.length ≤ 2) :=
  ⟨by decide, uuid_bucket_cap_amended 2 0 safeOps (by decide)⟩

end UuidMgr

end CfXray
